import Mathlib

/-!
Robin Hood hash map (`src/hashmap.h`)

A shallow embedding of the open-addressing table of `src/hashmap.h` and a
verification of its contract.

Modelling conventions.

* `std::unique_ptr<Bucket[]> data` is a total function `Nat → Bucket K V`; only
  the indices below `sz` are meaningful.  A fresh array
  (`std::make_unique<Bucket[]>(n)`) is value-initialised: every bucket has a
  default-constructed pair and `dist = 0`.
* `int dist`, `int cur_dist`, `size_t sz`, `size_t elem_cnt` and slot indices are
  natural numbers.  `--data[h].dist` is executed only when `dist > 1` and
  `--elem_cnt` only after an occupied slot was found, so truncated subtraction
  agrees with the machine arithmetic there; widths are not modelled.
* `float load_factor = 0.77` is an IEEE-754 binary32 number: 24 significant bits,
  round to nearest, ties to even.  The constant is the float nearest to `0.77`,
  which is `12918456 / 2^24`.  In the test `elem_cnt >= load_factor * sz` both
  `size_t` operands are converted to `float` and the product is rounded to
  `float`; `round24` and `load_test` compute this exactly over the natural
  numbers.  Each float operation rounds once to `float` (no excess precision, as
  with SSE or AArch64 arithmetic), and the values stay below the float range
  `2^128`, as every 64-bit `size_t` does.
* `while (true)` loops take a fuel argument and return `none` when it runs out;
  `hash_f(elem) % sz` with `sz = 0` (undefined in the source) is `none` as well.
* The hash functor `hash_f` is a parameter `K → Nat` (deterministic and pure).
-/

namespace RobinHood

/-- Slot of the table: `struct Bucket { PairType elem; int dist; }`. -/
structure Bucket (K V : Type) where
  elem : K × V
  dist : Nat

/-- Fields `data`, `sz`, `elem_cnt` of `class HashMap`. -/
structure HashMap (K V : Type) where
  data : Nat → Bucket K V
  sz : Nat
  elem_cnt : Nat

section Defs

variable {K V : Type} [DecidableEq K] [Inhabited K] [Inhabited V]

/-- Value-initialised array `std::make_unique<Bucket[]>(n)`. -/
def fresh_data : Nat → Bucket K V :=
  fun _ => ⟨default, 0⟩

/-- State after `clear()` (the default constructor calls only `clear()`):
`elem_cnt = 0; sz = 10; data = make_unique<Bucket[]>(sz)`. -/
def clear : HashMap K V :=
  ⟨fresh_data, 10, 0⟩

/-- Accessor `size()`. -/
def size (m : HashMap K V) : Nat :=
  m.elem_cnt

/-- Accessor `empty()`. -/
def empty (m : HashMap K V) : Bool :=
  decide (m.elem_cnt = 0)

/-- Hash position `hash_f(elem) % sz`; a zero modulus is undefined behaviour. -/
def eval_hash (hash_f : K → Nat) (m : HashMap K V) (key : K) : Option Nat :=
  if m.sz = 0 then none else some (hash_f key % m.sz)

/-- Probe step `++h; if (h == sz) h -= sz;`. -/
def next (sz h : Nat) : Nat :=
  if h + 1 = sz then h + 1 - sz else h + 1

/-- Exponent of the unit in the last place of the `float` nearest to `n`: the number
of halvings that bring `n` below `2^24` (the significand of a `float` has 24 bits).
The first argument bounds the recursion; `n` itself always suffices. -/
def drop_bits : Nat → Nat → Nat
  | 0, _ => 0
  | fuel + 1, n => if n < 2 ^ 24 then 0 else drop_bits fuel (n / 2) + 1

/-- Rounding of a natural number to 24 significant bits, to nearest, ties to even
(IEEE-754 binary32).  It is the conversion `size_t → float`, and the rounding of an
exact product of floats once both sides are scaled by a common power of two. -/
def round24 (n : Nat) : Nat :=
  let e := drop_bits n n
  let q := n / 2 ^ e
  let r := n % 2 ^ e
  if 2 * r < 2 ^ e ∨ (2 * r = 2 ^ e ∧ q % 2 = 0) then q * 2 ^ e else (q + 1) * 2 ^ e

/-- Numerator of `float load_factor = 0.77`: the stored value is `12918456 / 2^24`. -/
def load_factor_num : Nat := 12918456

/-- The comparison `elem_cnt >= load_factor * sz` in `float` arithmetic:
`(float) sz` is `round24 sz`, the float product `load_factor * (float) sz` is
`round24 (load_factor_num * round24 sz) / 2^24`, and `(float) elem_cnt` is
`round24 cnt`. -/
def load_test (cnt sz : Nat) : Bool :=
  decide (round24 (load_factor_num * round24 sz) ≤ round24 cnt * 2 ^ 24)

/-- Growth test of `insert`: `elem_cnt >= load_factor * sz`. -/
def load_exceeded (m : HashMap K V) : Bool :=
  load_test m.elem_cnt m.sz

/-- Shrink test of `erase`: `elem_cnt > 0 && elem_cnt * sz_coef * sz_coef + 1 < sz`. -/
def shrink_due (m : HashMap K V) : Bool :=
  decide (0 < m.elem_cnt ∧ m.elem_cnt * 3 * 3 + 1 < m.sz)

/-- The `while (true)` loop of `insert`, started at slot `h` with probe distance
`cur_dist` and candidate `elem`. -/
def insert_loop : Nat → HashMap K V → Nat → Nat → K × V → Option (HashMap K V)
  | 0, _, _, _, _ => none
  | fuel + 1, m, h, cur_dist, elem =>
    if (m.data h).dist = 0 then
      some { m with
        data := Function.update m.data h ⟨elem, cur_dist⟩
        elem_cnt := m.elem_cnt + 1 }
    else
      let swp : Bool := decide ((m.data h).dist < cur_dist)
      let m1 : HashMap K V :=
        if swp then { m with data := Function.update m.data h ⟨elem, cur_dist⟩ } else m
      let cur_dist1 : Nat := if swp then (m.data h).dist else cur_dist
      let elem1 : K × V := if swp then (m.data h).elem else elem
      if (m1.data h).dist = cur_dist1 ∧ elem1.1 = (m1.data h).elem.1 then
        some m1
      else
        insert_loop fuel m1 (next m.sz h) (cur_dist1 + 1) elem1

/-- Body of `resize(new_size)`: a fresh array of `new_size` slots, `elem_cnt = 0`,
then every occupied slot of the old array is re-inserted in index order with
`ins` (the table's own `insert`). -/
def resize (ins : HashMap K V → K × V → Option (HashMap K V)) (m : HashMap K V)
    (new_size : Nat) : Option (HashMap K V) :=
  (List.range m.sz).foldlM
    (fun acc i => if (m.data i).dist ≠ 0 then ins acc (m.data i).elem else some acc)
    (⟨fresh_data, new_size, 0⟩ : HashMap K V)

/-- Method `insert(elem)`: `expand()` (that is `resize(sz * sz_coef)`) when the load
test fires, then the probe loop from the hash position. -/
def insert (hash_f : K → Nat) : Nat → HashMap K V → K × V → Option (HashMap K V)
  | 0, _, _ => none
  | fuel + 1, m, elem =>
    (if load_exceeded m then resize (insert hash_f fuel) m (m.sz * 3) else some m).bind
      fun m1 => (eval_hash hash_f m1 elem.1).bind
        fun h => insert_loop fuel m1 h 1 elem

/-- Method `expand()`. -/
def expand (hash_f : K → Nat) (fuel : Nat) (m : HashMap K V) : Option (HashMap K V) :=
  resize (insert hash_f fuel) m (m.sz * 3)

/-- Method `shrink()`. -/
def shrink (hash_f : K → Nat) (fuel : Nat) (m : HashMap K V) : Option (HashMap K V) :=
  resize (insert hash_f fuel) m (m.sz / 3)

/-- Inner `while (true)` loop of `erase` (backward shift); slot `h` is the gap. -/
def erase_shift : Nat → HashMap K V → Nat → Option (HashMap K V)
  | 0, _, _ => none
  | fuel + 1, m, h =>
    let nxt := next m.sz h
    if (m.data nxt).dist ≤ 1 then
      some { m with
        data := Function.update m.data h ⟨(m.data h).elem, 0⟩
        elem_cnt := m.elem_cnt - 1 }
    else
      let bn := m.data nxt
      let bh := m.data h
      erase_shift fuel
        { m with data := Function.update (Function.update m.data nxt bh) h ⟨bn.elem, bn.dist - 1⟩ }
        (next m.sz h)

/-- Outer `while (true)` loop of `erase`; `sfuel` is the fuel of the inner loop. -/
def erase_loop (sfuel : Nat) : Nat → HashMap K V → K → Nat → Nat → Option (HashMap K V × Bool)
  | 0, _, _, _, _ => none
  | fuel + 1, m, key, h, cur_dist =>
    if (m.data h).dist < cur_dist then
      some (m, false)
    else if (m.data h).elem.1 = key then
      (erase_shift sfuel
        { m with data := Function.update m.data h ⟨(m.data h).elem, 0⟩ } h).map
        fun m2 => (m2, true)
    else
      erase_loop sfuel fuel m key (next m.sz h) (cur_dist + 1)

/-- Method `erase(key)`: `shrink()` when the shrink test fires, then the search and the
backward shift.  Returns the new table and the boolean result. -/
def erase (hash_f : K → Nat) (fuel : Nat) (m : HashMap K V) (key : K) :
    Option (HashMap K V × Bool) :=
  (if shrink_due m then shrink hash_f fuel m else some m).bind
    fun m1 => (eval_hash hash_f m1 key).bind
      fun h => erase_loop fuel fuel m1 key h 1

/-- The `while (true)` loop of `find_pos`. -/
def find_pos_loop : Nat → HashMap K V → K → Nat → Nat → Option Nat
  | 0, _, _, _, _ => none
  | fuel + 1, m, key, h, cur_dist =>
    if (m.data h).dist < cur_dist then
      some m.sz
    else if (m.data h).elem.1 = key then
      some h
    else
      find_pos_loop fuel m key (next m.sz h) (cur_dist + 1)

/-- Method `find_pos(key)`: the slot index of `key`, or `sz`. -/
def find_pos (hash_f : K → Nat) (fuel : Nat) (m : HashMap K V) (key : K) : Option Nat :=
  (eval_hash hash_f m key).bind fun h => find_pos_loop fuel m key h 1

/-- The `while` loop of `iterator::go_to_nearest`. -/
def go_to_nearest_loop (m : HashMap K V) : Nat → Nat → Nat
  | 0, index => index
  | fuel + 1, index =>
    if index < m.sz ∧ (m.data index).dist = 0 then go_to_nearest_loop m fuel (index + 1)
    else index

/-- Method `iterator::go_to_nearest`: clamp the index to `sz`, then skip empty slots.
The loop runs at most `sz - index` times, which is the fuel given to it. -/
def go_to_nearest (m : HashMap K V) (index : Nat) : Nat :=
  let index1 := if index ≥ m.sz then m.sz else index
  go_to_nearest_loop m (m.sz - index1) index1

/-- Constructor `iterator(map, ind)`; an iterator is its index. -/
def iterator (m : HashMap K V) (ind : Nat) : Nat :=
  go_to_nearest m ind

/-- Method `begin()`. -/
def iter_begin (m : HashMap K V) : Nat :=
  iterator m 0

/-- Method `end()`. -/
def iter_end (m : HashMap K V) : Nat :=
  iterator m m.sz

/-- Method `iterator::operator++`. -/
def iter_incr (m : HashMap K V) (index : Nat) : Nat :=
  go_to_nearest m (index + 1)

/-- Method `iterator::operator*`: the pair stored in the slot. -/
def iter_deref (m : HashMap K V) (index : Nat) : K × V :=
  (m.data index).elem

/-- Method `find(key)`: `iterator(*this, find_pos(key))`. -/
def find (hash_f : K → Nat) (fuel : Nat) (m : HashMap K V) (key : K) : Option Nat :=
  (find_pos hash_f fuel m key).map fun pos => iterator m pos

/-- Method `at(key)`: `Except.error ()` stands for `throw std::out_of_range`. -/
def at' (hash_f : K → Nat) (fuel : Nat) (m : HashMap K V) (key : K) :
    Option (Except Unit V) :=
  (find_pos hash_f fuel m key).map fun pos =>
    if pos = m.sz then Except.error () else Except.ok (m.data pos).elem.2

/-- Method `operator[](key)`: the table after the call and the slot index whose value
the returned reference designates. -/
def operator_index (hash_f : K → Nat) (fuel : Nat) (m : HashMap K V) (key : K) :
    Option (HashMap K V × Nat) :=
  (find_pos hash_f fuel m key).bind fun pos =>
    (if pos = m.sz then insert hash_f fuel m (key, default) else some m).bind fun m1 =>
      (find_pos hash_f fuel m1 key).map fun pos1 => (m1, pos1)

/-- Client loop `for (it = begin(); it != end(); ++it)`: the indices visited. -/
def walk (m : HashMap K V) : Nat → Nat → Option (List Nat)
  | 0, _ => none
  | fuel + 1, it =>
    if it = iter_end m then some []
    else (walk m fuel (iter_incr m it)).map fun rest => it :: rest

/-- Entries yielded by iterating `begin()..end()`. -/
def entries (fuel : Nat) (m : HashMap K V) : Option (List (K × V)) :=
  (walk m fuel (iter_begin m)).map fun l => l.map (iter_deref m)

/-! ### Observations, invariants and the abstract map -/

/-- An occupied slot of the table holds the pair `(k, v)`. -/
def Has (m : HashMap K V) (k : K) (v : V) : Prop :=
  ∃ i, i < m.sz ∧ (m.data i).dist ≠ 0 ∧ (m.data i).elem = (k, v)

/-- An occupied slot of the table holds the key `k`. -/
def HasKey (m : HashMap K V) (k : K) : Prop :=
  ∃ i, i < m.sz ∧ (m.data i).dist ≠ 0 ∧ (m.data i).elem.1 = k

instance instDecidableHas [DecidableEq V] (m : HashMap K V) (k : K) (v : V) :
    Decidable (Has m k v) := by
  unfold Has
  infer_instance

instance instDecidableHasKey (m : HashMap K V) (k : K) : Decidable (HasKey m k) := by
  unfold HasKey
  infer_instance

/-- What a client sees through an iterator returned by `find`: nothing at `end()`,
the stored pair otherwise. -/
def deref_opt (m : HashMap K V) (it : Nat) : Option (K × V) :=
  if it = iter_end m then none else some (iter_deref m it)

/-- Indices of the occupied slots, in increasing order. -/
def occList (m : HashMap K V) : List Nat :=
  (List.range m.sz).filter fun i => decide ((m.data i).dist ≠ 0)

/-- Keys are pairwise distinct over the occupied slots. -/
def UniqueKeys (m : HashMap K V) : Prop :=
  ∀ i j, i < m.sz → j < m.sz → (m.data i).dist ≠ 0 → (m.data j).dist ≠ 0 →
    (m.data i).elem.1 = (m.data j).elem.1 → i = j

/-- Every occupied slot lies `dist - 1` probe steps after the hash position of its key. -/
def HomeOk (hash_f : K → Nat) (m : HashMap K V) : Prop :=
  ∀ i, i < m.sz → (m.data i).dist ≠ 0 →
    (hash_f (m.data i).elem.1 + ((m.data i).dist - 1)) % m.sz = i

/-- Robin Hood ordering at slot `i`: the cyclically next slot has distance at most
one more. -/
def RhAt (m : HashMap K V) (i : Nat) : Prop :=
  (m.data (next m.sz i)).dist ≤ (m.data i).dist + 1

/-- Slot-level invariants shared by every intermediate table. -/
structure Core (hash_f : K → Nat) (m : HashMap K V) : Prop where
  three : 3 ≤ m.sz
  home : HomeOk hash_f m
  rh : ∀ i, i < m.sz → RhAt m i
  uniq : UniqueKeys m

/-- Invariant of the tables the public operations produce. -/
structure Inv (hash_f : K → Nat) (m : HashMap K V) : Prop where
  core : Core hash_f m
  cap : ∃ j, m.sz = 10 * 3 ^ j
  cnt : m.elem_cnt = (occList m).length
  load : m.elem_cnt = 0 ∨ load_test (m.elem_cnt - 1) m.sz = false

/-- Tables obtained from the freshly constructed one by `insert` and `erase` calls
that return. -/
inductive Reachable (hash_f : K → Nat) : HashMap K V → Prop
  | init : Reachable hash_f clear
  | insert {m m1 : HashMap K V} (fuel : Nat) (elem : K × V) :
      Reachable hash_f m → insert hash_f fuel m elem = some m1 → Reachable hash_f m1
  | erase {m m1 : HashMap K V} (fuel : Nat) (key : K) (b : Bool) :
      Reachable hash_f m → erase hash_f fuel m key = some (m1, b) → Reachable hash_f m1

/-- Tables obtained from the freshly constructed one by `insert`, `erase` and
`operator[]` calls that return. -/
inductive ReachableIdx (hash_f : K → Nat) : HashMap K V → Prop
  | init : ReachableIdx hash_f clear
  | insert {m m1 : HashMap K V} (fuel : Nat) (elem : K × V) :
      ReachableIdx hash_f m → insert hash_f fuel m elem = some m1 → ReachableIdx hash_f m1
  | erase {m m1 : HashMap K V} (fuel : Nat) (key : K) (b : Bool) :
      ReachableIdx hash_f m → erase hash_f fuel m key = some (m1, b) → ReachableIdx hash_f m1
  | index {m m1 : HashMap K V} (fuel : Nat) (key : K) (pos : Nat) :
      ReachableIdx hash_f m → operator_index hash_f fuel m key = some (m1, pos) →
      ReachableIdx hash_f m1

/-- A call of the mutating interface: `insert(elem)` or `erase(key)`. -/
inductive Op (K V : Type) where
  | ins (elem : K × V) : Op K V
  | del (key : K) : Op K V

/-- Execute one call on the table. -/
def apply_op (hash_f : K → Nat) (fuel : Nat) (m : HashMap K V) : Op K V → Option (HashMap K V)
  | Op.ins elem => insert hash_f fuel m elem
  | Op.del key => (erase hash_f fuel m key).map Prod.fst

/-- Execute a sequence of calls, left to right. -/
def run (hash_f : K → Nat) (fuel : Nat) (ops : List (Op K V)) (m : HashMap K V) :
    Option (HashMap K V) :=
  ops.foldlM (apply_op hash_f fuel) m

/-- Abstract finite map: `insert` adds the pair only if the key is absent. -/
def abs_insert (a : K → Option V) (elem : K × V) : K → Option V :=
  if (a elem.1).isSome then a else Function.update a elem.1 (some elem.2)

/-- Abstract finite map: `erase` removes the key. -/
def abs_erase (a : K → Option V) (key : K) : K → Option V :=
  Function.update a key none

/-- One call on the abstract map. -/
def abs_op (a : K → Option V) : Op K V → (K → Option V)
  | Op.ins elem => abs_insert a elem
  | Op.del key => abs_erase a key

/-- A sequence of calls on the abstract map. -/
def abs_run (ops : List (Op K V)) (a : K → Option V) : K → Option V :=
  ops.foldl abs_op a

/-- The empty abstract map. -/
def abs_empty : K → Option V :=
  fun _ => none

/-- The table holds exactly the pairs of the abstract map. -/
def Agrees (m : HashMap K V) (a : K → Option V) : Prop :=
  ∀ k v, Has m k v ↔ a k = some v


/-! ### Loop invariants -/

/-- State of the insert loop: the candidate `elem` with probe distance `c` is about to
visit slot `h`. -/
structure InsState (hash_f : K → Nat) (m : HashMap K V) (h c : Nat) (elem : K × V) : Prop where
  core : Core hash_f m
  hlt : h < m.sz
  cpos : 1 ≤ c
  home : (hash_f elem.1 + (c - 1)) % m.sz = h
  absent : ¬ HasKey m elem.1
  prev : ∀ p, p < m.sz → next m.sz p = h → c ≤ (m.data p).dist + 1

/-- State of the backward-shift loop: slot `h` is the gap. -/
structure ShiftState (hash_f : K → Nat) (m : HashMap K V) (h : Nat) : Prop where
  three : 3 ≤ m.sz
  hlt : h < m.sz
  gap : (m.data h).dist = 0
  home : HomeOk hash_f m
  uniq : UniqueKeys m
  rh : ∀ i, i < m.sz → i ≠ h → RhAt m i
  prev : ∀ p, p < m.sz → next m.sz p = h → (m.data (next m.sz h)).dist ≤ (m.data p).dist + 2

/-- Slot invariants together with the stored count. -/
structure Tbl (hash_f : K → Nat) (m : HashMap K V) : Prop where
  core : Core hash_f m
  cnt : m.elem_cnt = (occList m).length

/-! ### Example tables -/

/-- Example calls with integer keys hashed by the identity: insert the keys `0 … 7`. -/
def demo_ops : List (Op Nat Nat) :=
  [Op.ins (0, 10), Op.ins (1, 11), Op.ins (2, 12), Op.ins (3, 13), Op.ins (4, 14),
    Op.ins (5, 15), Op.ins (6, 16), Op.ins (7, 17)]

/-- The table after `demo_ops`: capacity 10 and eight entries, so the growth test of
the next `insert` fires. -/
def demo_table : HashMap Nat Nat :=
  (run id 40 demo_ops clear).getD clear

/-- Example calls whose keys `9`, `19`, `29` all hash to the last slot of a table of
capacity 10, so that their probe paths wrap around to slot 0. -/
def demo_wrap_ops : List (Op Nat Nat) :=
  [Op.ins (9, 1), Op.ins (19, 2), Op.ins (29, 3), Op.ins (0, 4)]

/-- The table after `demo_wrap_ops`: slots 9, 0, 1, 2 hold the keys 9, 19, 29, 0. -/
def demo_wrap : HashMap Nat Nat :=
  (run id 40 demo_wrap_ops clear).getD clear

/-- The wrap-around example after `erase(9)`: the backward shift leaves the stale key
`9` in slot 2, which is empty. -/
def demo_stale : HashMap Nat Nat :=
  (run id 40 (demo_wrap_ops ++ [Op.del 9]) clear).getD clear

/-- Example calls: nine inserts (the ninth expands the table to capacity 30) and six
erases, which leave three entries. -/
def demo_sparse_ops : List (Op Nat Nat) :=
  [Op.ins (0, 10), Op.ins (1, 11), Op.ins (2, 12), Op.ins (3, 13), Op.ins (4, 14),
    Op.ins (5, 15), Op.ins (6, 16), Op.ins (7, 17), Op.ins (8, 18),
    Op.del 0, Op.del 1, Op.del 2, Op.del 3, Op.del 4, Op.del 5]

/-- The table after `demo_sparse_ops`: capacity 30 and three entries, so the shrink test
of the next `erase` fires. -/
def demo_sparse : HashMap Nat Nat :=
  (run id 100 demo_sparse_ops clear).getD clear

/-! ### Re-insertion without growth -/

/-- An `insert` that fails when its growth test fires: it returns a result only if the
call does not expand the table. -/
def insert_no_expand (hash_f : K → Nat) (fuel : Nat) (m : HashMap K V) (elem : K × V) :
    Option (HashMap K V) :=
  if load_exceeded m then none else insert hash_f fuel m elem

/-! ### Capacity and count along a run -/

/-- Capacity and count `(sz, elem_cnt)` after `insert` of a key that is not stored:
the growth test of `insert`, then one more entry. -/
def ins_shape (s : Nat × Nat) : Nat × Nat :=
  (if load_test s.2 s.1 = true then s.1 * 3 else s.1, s.2 + 1)

/-- Capacity and count `(sz, elem_cnt)` after `erase` of a stored key: the shrink test
of `erase`, then one entry less. -/
def del_shape (s : Nat × Nat) : Nat × Nat :=
  (if 0 < s.2 ∧ s.2 * 3 * 3 + 1 < s.1 then s.1 / 3 else s.1, s.2 - 1)

/-! ### Probe loops with the indices they touch -/

/-- The loop of `insert` together with the slot indices it reads or writes
(`data[h]` in every iteration), in order. -/
def insert_loop_tr : Nat → HashMap K V → Nat → Nat → K × V → Option (HashMap K V) × List Nat
  | 0, _, _, _, _ => (none, [])
  | fuel + 1, m, h, cur_dist, elem =>
    if (m.data h).dist = 0 then
      (some { m with
        data := Function.update m.data h ⟨elem, cur_dist⟩
        elem_cnt := m.elem_cnt + 1 }, [h])
    else
      let swp : Bool := decide ((m.data h).dist < cur_dist)
      let m1 : HashMap K V :=
        if swp then { m with data := Function.update m.data h ⟨elem, cur_dist⟩ } else m
      let cur_dist1 : Nat := if swp then (m.data h).dist else cur_dist
      let elem1 : K × V := if swp then (m.data h).elem else elem
      if (m1.data h).dist = cur_dist1 ∧ elem1.1 = (m1.data h).elem.1 then
        (some m1, [h])
      else
        ((insert_loop_tr fuel m1 (next m.sz h) (cur_dist1 + 1) elem1).1,
          h :: (insert_loop_tr fuel m1 (next m.sz h) (cur_dist1 + 1) elem1).2)

/-- The loop of `find_pos` together with the slot indices it reads (`data[h]`). -/
def find_pos_loop_tr : Nat → HashMap K V → K → Nat → Nat → Option Nat × List Nat
  | 0, _, _, _, _ => (none, [])
  | fuel + 1, m, key, h, cur_dist =>
    if (m.data h).dist < cur_dist then
      (some m.sz, [h])
    else if (m.data h).elem.1 = key then
      (some h, [h])
    else
      ((find_pos_loop_tr fuel m key (next m.sz h) (cur_dist + 1)).1,
        h :: (find_pos_loop_tr fuel m key (next m.sz h) (cur_dist + 1)).2)

/-- The backward-shift loop of `erase` together with the slot indices it reads or
writes (`data[nxt]` and `data[h]` in every iteration). -/
def erase_shift_tr : Nat → HashMap K V → Nat → Option (HashMap K V) × List Nat
  | 0, _, _ => (none, [])
  | fuel + 1, m, h =>
    let nxt := next m.sz h
    if (m.data nxt).dist ≤ 1 then
      (some { m with
        data := Function.update m.data h ⟨(m.data h).elem, 0⟩
        elem_cnt := m.elem_cnt - 1 }, [nxt, h])
    else
      let bn := m.data nxt
      let bh := m.data h
      ((erase_shift_tr fuel
          { m with data := (Function.update (Function.update m.data nxt bh) h
              ⟨bn.elem, bn.dist - 1⟩) }
          (next m.sz h)).1,
        nxt :: h :: (erase_shift_tr fuel
          { m with data := (Function.update (Function.update m.data nxt bh) h
              ⟨bn.elem, bn.dist - 1⟩) }
          (next m.sz h)).2)

/-- The search loop of `erase` together with the slot indices it reads or writes,
those of the backward shift included. -/
def erase_loop_tr (sfuel : Nat) :
    Nat → HashMap K V → K → Nat → Nat → Option (HashMap K V × Bool) × List Nat
  | 0, _, _, _, _ => (none, [])
  | fuel + 1, m, key, h, cur_dist =>
    if (m.data h).dist < cur_dist then
      (some (m, false), [h])
    else if (m.data h).elem.1 = key then
      ((erase_shift_tr sfuel
          { m with data := Function.update m.data h ⟨(m.data h).elem, 0⟩ } h).1.map
          fun m2 => (m2, true),
        h :: (erase_shift_tr sfuel
          { m with data := Function.update m.data h ⟨(m.data h).elem, 0⟩ } h).2)
    else
      ((erase_loop_tr sfuel fuel m key (next m.sz h) (cur_dist + 1)).1,
        h :: (erase_loop_tr sfuel fuel m key (next m.sz h) (cur_dist + 1)).2)

end Defs

set_option linter.unusedSectionVars false

section Lemmas

variable {K V : Type} [DecidableEq K] [Inhabited K] [Inhabited V]

/-! ### Probe arithmetic -/

theorem next_eq_mod {sz h : Nat} (h1 : h < sz) : next sz h = (h + 1) % sz := by
  unfold next
  by_cases h2 : h + 1 = sz
  · simp [h2]
  · rw [if_neg h2, Nat.mod_eq_of_lt (by omega)]

theorem next_lt {sz h : Nat} (h1 : h < sz) : next sz h < sz := by
  unfold next
  split <;> omega

theorem next_inj {sz i j : Nat} (hi : i < sz) (hj : j < sz) (h : next sz i = next sz j) :
    i = j := by
  unfold next at h
  split at h <;> split at h <;> omega

theorem next_ne_self {sz i : Nat} (h2 : 2 ≤ sz) : next sz i ≠ i := by
  unfold next
  split <;> omega

theorem next_next_ne {sz i : Nat} (h3 : 3 ≤ sz) : next sz (next sz i) ≠ i := by
  unfold next
  split <;> split <;> omega

theorem next_mod_add {sz : Nat} (x t : Nat) (h0 : 0 < sz) :
    next sz ((x + t) % sz) = (x + (t + 1)) % sz := by
  rw [next_eq_mod (Nat.mod_lt _ h0), Nat.mod_add_mod, Nat.add_assoc]

theorem next_add_mod {sz h t : Nat} (h1 : h < sz) :
    (next sz h + t) % sz = (h + (t + 1)) % sz := by
  rw [next_eq_mod h1, Nat.mod_add_mod]
  congr 1
  omega

/-- Any slot is reached from any other by fewer than `sz` probe steps. -/
theorem exists_offset {sz h e : Nat} (hh : h < sz) (he : e < sz) :
    ∃ t, t < sz ∧ (h + t) % sz = e := by
  by_cases hle : h ≤ e
  · exact ⟨e - h, by omega, by rw [show h + (e - h) = e by omega, Nat.mod_eq_of_lt he]⟩
  · refine ⟨e + sz - h, by omega, ?_⟩
    rw [show h + (e + sz - h) = e + sz by omega, Nat.add_mod_right, Nat.mod_eq_of_lt he]

theorem exists_offset_mod {sz : Nat} (x : Nat) {e : Nat} (he : e < sz) :
    ∃ t, t < sz ∧ (x + t) % sz = e := by
  obtain ⟨t, ht, h⟩ := exists_offset (Nat.mod_lt x (by omega : 0 < sz)) he
  exact ⟨t, ht, by rw [← h, Nat.mod_add_mod]⟩

theorem mod_add_ne {sz x t1 t2 : Nat} (h1 : t1 < t2) (h2 : t2 < t1 + sz) :
    (x + t1) % sz ≠ (x + t2) % sz := by
  intro h
  have h3 : (x + t1) ≡ (x + t2) [MOD sz] := h
  have h4 : t1 ≡ t2 [MOD sz] := Nat.ModEq.add_left_cancel' x h3
  have h5 : sz ∣ t2 - t1 := (Nat.modEq_iff_dvd' (le_of_lt h1)).mp h4
  have h6 := Nat.le_of_dvd (by omega) h5
  omega

theorem mod_pred_eq {sz x d i : Nat} (hi : i < sz) (hd : 1 ≤ d)
    (h : (x + d) % sz = next sz i) : (x + (d - 1)) % sz = i := by
  rw [next_eq_mod hi] at h
  have h3 : (x + (d - 1)) + 1 ≡ i + 1 [MOD sz] := by
    have : x + (d - 1) + 1 = x + d := by omega
    rw [this]; exact h
  have h4 := Nat.ModEq.add_right_cancel' 1 h3
  have h5 : (x + (d - 1)) % sz = i % sz := h4
  rw [h5, Nat.mod_eq_of_lt hi]


/-! ### Probe paths -/

theorem exists_empty {m : HashMap K V} (h : (occList m).length < m.sz) :
    ∃ e, e < m.sz ∧ (m.data e).dist = 0 := by
  by_contra hne
  push_neg at hne
  have : occList m = List.range m.sz := by
    unfold occList
    rw [List.filter_eq_self]
    intro a ha
    simpa using hne a (List.mem_range.mp ha)
  rw [this, List.length_range] at h
  omega

/-- Walking back from an occupied slot to the hash position of its key, the stored
distances dominate the probe distances. -/
theorem chain {hash_f : K → Nat} {m : HashMap K V} (hc : Core hash_f m) {i : Nat}
    (hi : i < m.sz) (ho : (m.data i).dist ≠ 0) :
    ∀ t, t < (m.data i).dist →
      t + 1 ≤ (m.data ((hash_f (m.data i).elem.1 + t) % m.sz)).dist := by
  have h0 : 0 < m.sz := by have := hc.three; omega
  have key : ∀ s, s < (m.data i).dist →
      (m.data i).dist - s ≤
        (m.data ((hash_f (m.data i).elem.1 + ((m.data i).dist - 1 - s)) % m.sz)).dist := by
    intro s
    induction s with
    | zero =>
      intro _
      rw [Nat.sub_zero, Nat.sub_zero, hc.home i hi ho]
    | succ s ih =>
      intro hs
      have ih1 := ih (by omega)
      have hr := hc.rh ((hash_f (m.data i).elem.1 + ((m.data i).dist - 1 - (s + 1))) % m.sz)
        (Nat.mod_lt _ h0)
      unfold RhAt at hr
      rw [next_mod_add _ _ h0] at hr
      have e1 : (m.data i).dist - 1 - (s + 1) + 1 = (m.data i).dist - 1 - s := by omega
      rw [e1] at hr
      omega
  intro t ht
  have := key ((m.data i).dist - 1 - t) (by omega)
  have e2 : (m.data i).dist - 1 - ((m.data i).dist - 1 - t) = t := by omega
  rw [e2] at this
  omega

theorem dist_le_sz {hash_f : K → Nat} {m : HashMap K V} (hc : Core hash_f m)
    (he : ∃ e, e < m.sz ∧ (m.data e).dist = 0) {i : Nat} (hi : i < m.sz) :
    (m.data i).dist ≤ m.sz := by
  by_contra hgt
  obtain ⟨e, he1, he2⟩ := he
  obtain ⟨t, ht, hte⟩ := exists_offset_mod (hash_f (m.data i).elem.1) he1
  have := chain hc hi (by omega) t (by omega)
  rw [hte] at this
  omega

/-- On the probe path of a stored key, before its slot, every slot is occupied by a
different key with a distance that does not end the probe. -/
theorem probe_path {hash_f : K → Nat} {m : HashMap K V} (hc : Core hash_f m)
    (he : ∃ e, e < m.sz ∧ (m.data e).dist = 0) {i : Nat}
    (hi : i < m.sz) (ho : (m.data i).dist ≠ 0) (t : Nat) (ht : t + 1 < (m.data i).dist) :
    t + 1 ≤ (m.data ((hash_f (m.data i).elem.1 + t) % m.sz)).dist ∧
    (m.data ((hash_f (m.data i).elem.1 + t) % m.sz)).elem.1 ≠ (m.data i).elem.1 := by
  have h0 : 0 < m.sz := by have := hc.three; omega
  have h1 := chain hc hi ho t (by omega)
  refine ⟨h1, ?_⟩
  intro heq
  have h2 := hc.uniq _ i (Nat.mod_lt _ h0) hi (by omega) ho heq
  have h3 := hc.home i hi ho
  have h4 := dist_le_sz hc he hi
  have h5 : (hash_f (m.data i).elem.1 + t) % m.sz ≠
      (hash_f (m.data i).elem.1 + ((m.data i).dist - 1)) % m.sz :=
    mod_add_ne (by omega) (by omega)
  rw [h3] at h5
  exact h5 h2

/-- The search loop finds a stored key at its slot. -/
theorem find_pos_loop_present {hash_f : K → Nat} {m : HashMap K V} (hc : Core hash_f m)
    (he : ∃ e, e < m.sz ∧ (m.data e).dist = 0) {i : Nat}
    (hi : i < m.sz) (ho : (m.data i).dist ≠ 0) :
    ∀ n t fuel, t + n + 1 = (m.data i).dist → n < fuel →
      find_pos_loop fuel m (m.data i).elem.1 ((hash_f (m.data i).elem.1 + t) % m.sz) (t + 1)
        = some i := by
  have h0 : 0 < m.sz := by have := hc.three; omega
  intro n
  induction n with
  | zero =>
    intro t fuel ht hf
    obtain ⟨f, rfl⟩ : ∃ f, fuel = f + 1 := ⟨fuel - 1, by omega⟩
    have h3 := hc.home i hi ho
    have e1 : (m.data i).dist - 1 = t := by omega
    rw [e1] at h3
    rw [h3]
    unfold find_pos_loop
    rw [if_neg (by omega), if_pos rfl]
  | succ n ih =>
    intro t fuel ht hf
    obtain ⟨f, rfl⟩ : ∃ f, fuel = f + 1 := ⟨fuel - 1, by omega⟩
    obtain ⟨p1, p2⟩ := probe_path hc he hi ho t (by omega)
    unfold find_pos_loop
    rw [if_neg (by omega), if_neg p2, next_mod_add _ _ h0]
    exact ih (t + 1) f (by omega) (by omega)

/-- The search loop reports `sz` for a key that no occupied slot holds. -/
theorem find_pos_loop_absent {m : HashMap K V} {key : K} (hk : ¬ HasKey m key) :
    ∀ t h c fuel, h < m.sz → 1 ≤ c → (m.data ((h + t) % m.sz)).dist = 0 → t < fuel →
      find_pos_loop fuel m key h c = some m.sz := by
  intro t
  induction t with
  | zero =>
    intro h c fuel hh hc0 he hf
    obtain ⟨f, rfl⟩ : ∃ f, fuel = f + 1 := ⟨fuel - 1, by omega⟩
    rw [Nat.add_zero, Nat.mod_eq_of_lt hh] at he
    unfold find_pos_loop
    rw [if_pos (by omega)]
  | succ t ih =>
    intro h c fuel hh hc0 he hf
    obtain ⟨f, rfl⟩ : ∃ f, fuel = f + 1 := ⟨fuel - 1, by omega⟩
    unfold find_pos_loop
    by_cases h1 : (m.data h).dist < c
    · rw [if_pos h1]
    · have h2 : (m.data h).elem.1 ≠ key := fun heq => hk ⟨h, hh, by omega, heq⟩
      rw [if_neg h1, if_neg h2]
      exact ih (next m.sz h) (c + 1) f (next_lt hh) (by omega)
        (by rw [next_add_mod hh]; exact he) (by omega)

/-! ### One iteration of the insert loop -/

theorem insert_loop_empty (fuel : Nat) (m : HashMap K V) (h c : Nat) (elem : K × V)
    (hd : (m.data h).dist = 0) :
    insert_loop (fuel + 1) m h c elem =
      some { m with data := Function.update m.data h ⟨elem, c⟩, elem_cnt := m.elem_cnt + 1 } := by
  unfold insert_loop
  rw [if_pos hd]

theorem insert_loop_swap (fuel : Nat) (m : HashMap K V) (h c : Nat) (elem : K × V)
    (hd : (m.data h).dist ≠ 0) (hs : (m.data h).dist < c) :
    insert_loop (fuel + 1) m h c elem =
      insert_loop fuel { m with data := Function.update m.data h ⟨elem, c⟩ } (next m.sz h)
        ((m.data h).dist + 1) (m.data h).elem := by
  rw [insert_loop]
  have hne : ¬ c = (m.data h).dist := by omega
  simp [hd, hs, hne]

theorem insert_loop_keep (fuel : Nat) (m : HashMap K V) (h c : Nat) (elem : K × V)
    (hd : (m.data h).dist ≠ 0) (hs : ¬ (m.data h).dist < c)
    (hk : ¬ ((m.data h).dist = c ∧ elem.1 = (m.data h).elem.1)) :
    insert_loop (fuel + 1) m h c elem = insert_loop fuel m (next m.sz h) (c + 1) elem := by
  rw [insert_loop]
  simp [hd, hs, hk]

theorem insert_loop_dup (fuel : Nat) (m : HashMap K V) (h c : Nat) (elem : K × V)
    (hd : (m.data h).dist ≠ 0) (hs : (m.data h).dist = c) (hk : elem.1 = (m.data h).elem.1) :
    insert_loop (fuel + 1) m h c elem = some m := by
  rw [insert_loop, if_neg hd]
  have : ¬ (m.data h).dist < c := by omega
  simp [this, hs, hk]


/-! ### Placing the candidate in a slot -/

theorem core_place {hash_f : K → Nat} {m m1 : HashMap K V} {h c : Nat} {elem : K × V}
    (st : InsState hash_f m h c elem) (hle : (m.data h).dist ≤ c)
    (hsz : m1.sz = m.sz) (hdata : m1.data = Function.update m.data h ⟨elem, c⟩) :
    Core hash_f m1 := by
  have h3 := st.core.three
  have hcp := st.cpos
  constructor
  · rw [hsz]; exact h3
  · intro i hi ho
    rw [hsz] at hi ⊢
    rw [hdata] at ho ⊢
    by_cases hih : i = h
    · subst hih
      simp only [Function.update_same]
      exact st.home
    · simp only [Function.update_noteq hih] at ho ⊢
      exact st.core.home i hi ho
  · intro i hi
    rw [hsz] at hi
    unfold RhAt
    rw [hsz, hdata]
    by_cases hih : i = h
    · subst hih
      have hn : next m.sz i ≠ i := next_ne_self (by omega)
      simp only [Function.update_same, Function.update_noteq hn]
      have := st.core.rh i hi
      unfold RhAt at this
      omega
    · by_cases hnh : next m.sz i = h
      · rw [hnh]
        simp only [Function.update_same, Function.update_noteq hih]
        exact st.prev i hi hnh
      · simp only [Function.update_noteq hnh, Function.update_noteq hih]
        exact st.core.rh i hi
  · intro i j hi hj hoi hoj hij
    rw [hsz] at hi hj
    rw [hdata] at hoi hoj hij
    by_cases hih : i = h
    · by_cases hjh : j = h
      · rw [hih, hjh]
      · exfalso
        subst hih
        simp only [Function.update_same, Function.update_noteq hjh] at hoj hij
        exact st.absent ⟨j, hj, hoj, hij.symm⟩
    · by_cases hjh : j = h
      · exfalso
        subst hjh
        simp only [Function.update_same, Function.update_noteq hih] at hoi hij
        exact st.absent ⟨i, hi, hoi, hij⟩
      · simp only [Function.update_noteq hih, Function.update_noteq hjh] at hoi hoj hij
        exact st.core.uniq i j hi hj hoi hoj hij

theorem has_place_empty {m m1 : HashMap K V} {h c : Nat} {elem : K × V}
    (hlt : h < m.sz) (hc : 1 ≤ c) (hd : (m.data h).dist = 0)
    (hsz : m1.sz = m.sz) (hdata : m1.data = Function.update m.data h ⟨elem, c⟩) (k : K) (v : V) :
    Has m1 k v ↔ Has m k v ∨ (k, v) = elem := by
  unfold Has
  rw [hsz, hdata]
  constructor
  · rintro ⟨i, hi, ho, he⟩
    by_cases hih : i = h
    · subst hih
      simp only [Function.update_same] at he
      exact Or.inr he.symm
    · simp only [Function.update_noteq hih] at ho he
      exact Or.inl ⟨i, hi, ho, he⟩
  · rintro (⟨i, hi, ho, he⟩ | he)
    · have hih : i ≠ h := fun e => ho (e ▸ hd)
      exact ⟨i, hi, by simpa only [Function.update_noteq hih] using ho,
        by simpa only [Function.update_noteq hih] using he⟩
    · exact ⟨h, hlt, by simp only [Function.update_same]; omega,
        by simp only [Function.update_same]; exact he.symm⟩

theorem has_place_swap {m m1 : HashMap K V} {h c : Nat} {elem : K × V}
    (hlt : h < m.sz) (hc : 1 ≤ c) (hd : (m.data h).dist ≠ 0)
    (hsz : m1.sz = m.sz) (hdata : m1.data = Function.update m.data h ⟨elem, c⟩) (k : K) (v : V) :
    Has m1 k v ∨ (k, v) = (m.data h).elem ↔ Has m k v ∨ (k, v) = elem := by
  unfold Has
  rw [hsz, hdata]
  constructor
  · rintro (⟨i, hi, ho, he⟩ | he)
    · by_cases hih : i = h
      · subst hih
        simp only [Function.update_same] at he
        exact Or.inr he.symm
      · simp only [Function.update_noteq hih] at ho he
        exact Or.inl ⟨i, hi, ho, he⟩
    · exact Or.inl ⟨h, hlt, hd, he.symm⟩
  · rintro (⟨i, hi, ho, he⟩ | he)
    · by_cases hih : i = h
      · subst hih
        exact Or.inr he.symm
      · exact Or.inl ⟨i, hi, by simpa only [Function.update_noteq hih] using ho,
          by simpa only [Function.update_noteq hih] using he⟩
    · exact Or.inl ⟨h, hlt, by simp only [Function.update_same]; omega,
        by simp only [Function.update_same]; exact he.symm⟩

/-! ### The insert loop on an absent key -/

theorem ins_state_swap {hash_f : K → Nat} {m : HashMap K V} {h c : Nat} {elem : K × V}
    (st : InsState hash_f m h c elem) (hd : (m.data h).dist ≠ 0) (hs : (m.data h).dist < c) :
    InsState hash_f { m with data := Function.update m.data h ⟨elem, c⟩ } (next m.sz h)
      ((m.data h).dist + 1) (m.data h).elem := by
  have h3 := st.core.three
  have h0 : 0 < m.sz := by omega
  refine ⟨core_place st (le_of_lt hs) rfl rfl, next_lt st.hlt, by omega, ?_, ?_, ?_⟩
  · have := st.core.home h st.hlt hd
    show (hash_f (m.data h).elem.1 + ((m.data h).dist + 1 - 1)) % m.sz = next m.sz h
    rw [← this, next_mod_add _ _ h0, this]
    congr 2
    omega
  · rintro ⟨j, hj, hoj, hkj⟩
    change j < m.sz at hj
    change (Function.update m.data h ⟨elem, c⟩ j).dist ≠ 0 at hoj
    change (Function.update m.data h ⟨elem, c⟩ j).elem.1 = (m.data h).elem.1 at hkj
    by_cases hjh : j = h
    · subst hjh
      simp only [Function.update_same] at hkj
      exact st.absent ⟨j, hj, hd, hkj.symm⟩
    · simp only [Function.update_noteq hjh] at hoj hkj
      exact hjh (st.core.uniq j h hj st.hlt hoj hd hkj)
  · intro p hp hnp
    change p < m.sz at hp
    change next m.sz p = next m.sz h at hnp
    have := next_inj hp st.hlt hnp
    subst this
    show (m.data p).dist + 1 ≤ (Function.update m.data p ⟨elem, c⟩ p).dist + 1
    simp only [Function.update_same]
    omega

theorem ins_state_keep {hash_f : K → Nat} {m : HashMap K V} {h c : Nat} {elem : K × V}
    (st : InsState hash_f m h c elem) (hs : ¬ (m.data h).dist < c) :
    InsState hash_f m (next m.sz h) (c + 1) elem := by
  have h3 := st.core.three
  have h0 : 0 < m.sz := by omega
  have hcp := st.cpos
  refine ⟨st.core, next_lt st.hlt, by omega, ?_, st.absent, ?_⟩
  · have := st.home
    rw [← this, next_mod_add _ _ h0]
    congr 2
    omega
  · intro p hp hnp
    have := next_inj hp st.hlt hnp
    subst this
    omega

/-- Total correctness of the insert loop for a candidate whose key is not stored:
it ends at the first empty slot of the probe path, the table gains exactly the
candidate and the slot invariants are kept. -/
theorem insert_loop_absent {hash_f : K → Nat} :
    ∀ (t fuel : Nat) (m : HashMap K V) (h c : Nat) (elem : K × V),
      InsState hash_f m h c elem → (m.data ((h + t) % m.sz)).dist = 0 → t < fuel →
      ∃ m1, insert_loop fuel m h c elem = some m1 ∧ m1.sz = m.sz ∧
        m1.elem_cnt = m.elem_cnt + 1 ∧ Core hash_f m1 ∧
        ∀ k v, Has m1 k v ↔ Has m k v ∨ (k, v) = elem := by
  intro t
  induction t with
  | zero =>
    intro fuel m h c elem st he hf
    obtain ⟨f, rfl⟩ : ∃ f, fuel = f + 1 := ⟨fuel - 1, by omega⟩
    rw [Nat.add_zero, Nat.mod_eq_of_lt st.hlt] at he
    refine ⟨_, insert_loop_empty f m h c elem he, rfl, rfl,
      core_place st (by omega) rfl rfl, has_place_empty st.hlt st.cpos he rfl rfl⟩
  | succ t ih =>
    intro fuel m h c elem st he hf
    obtain ⟨f, rfl⟩ : ∃ f, fuel = f + 1 := ⟨fuel - 1, by omega⟩
    by_cases hd : (m.data h).dist = 0
    · refine ⟨_, insert_loop_empty f m h c elem hd, rfl, rfl,
        core_place st (by omega) rfl rfl, has_place_empty st.hlt st.cpos hd rfl rfl⟩
    · have hne : (h + (t + 1)) % m.sz ≠ h := fun e => hd (e ▸ he)
      by_cases hs : (m.data h).dist < c
      · rw [insert_loop_swap f m h c elem hd hs]
        obtain ⟨m1, e1, e2, e3, e4, e5⟩ := ih f _ (next m.sz h) ((m.data h).dist + 1)
          (m.data h).elem (ins_state_swap st hd hs)
          (by
            show (Function.update m.data h ⟨elem, c⟩ ((next m.sz h + t) % m.sz)).dist = 0
            rw [next_add_mod st.hlt, Function.update_noteq hne]
            exact he)
          (by omega)
        refine ⟨m1, e1, e2, e3, e4, ?_⟩
        intro k v
        rw [e5 k v]
        exact has_place_swap st.hlt st.cpos hd
          (rfl : ({ m with data := Function.update m.data h ⟨elem, c⟩ } : HashMap K V).sz = m.sz)
          rfl k v
      · have hk : ¬ ((m.data h).dist = c ∧ elem.1 = (m.data h).elem.1) :=
          fun hx => st.absent ⟨h, st.hlt, hd, hx.2.symm⟩
        rw [insert_loop_keep f m h c elem hd hs hk]
        exact ih f m (next m.sz h) (c + 1) elem (ins_state_keep st hs)
          (by rw [next_add_mod st.hlt]; exact he) (by omega)

/-- The insert loop on a stored key returns at the slot of the key and leaves the
table as it was. -/
theorem insert_loop_present {hash_f : K → Nat} {m : HashMap K V} (hc : Core hash_f m)
    (he : ∃ e, e < m.sz ∧ (m.data e).dist = 0) {i : Nat}
    (hi : i < m.sz) (ho : (m.data i).dist ≠ 0) (v : V) :
    ∀ n t fuel, t + n + 1 = (m.data i).dist → n < fuel →
      insert_loop fuel m ((hash_f (m.data i).elem.1 + t) % m.sz) (t + 1)
        ((m.data i).elem.1, v) = some m := by
  have h0 : 0 < m.sz := by have := hc.three; omega
  intro n
  induction n with
  | zero =>
    intro t fuel ht hf
    obtain ⟨f, rfl⟩ : ∃ f, fuel = f + 1 := ⟨fuel - 1, by omega⟩
    have h3 := hc.home i hi ho
    have e1 : (m.data i).dist - 1 = t := by omega
    rw [e1] at h3
    rw [h3]
    exact insert_loop_dup f m i (t + 1) ((m.data i).elem.1, v) ho (by omega) rfl
  | succ n ih =>
    intro t fuel ht hf
    obtain ⟨f, rfl⟩ : ∃ f, fuel = f + 1 := ⟨fuel - 1, by omega⟩
    obtain ⟨p1, p2⟩ := probe_path hc he hi ho t (by omega)
    rw [insert_loop_keep f m _ (t + 1) ((m.data i).elem.1, v) (by omega) (by omega)
        (fun hx => p2 hx.2.symm),
      next_mod_add _ _ h0]
    exact ih (t + 1) f (by omega) (by omega)

/-! ### One iteration of the backward shift -/

theorem erase_shift_stop (fuel : Nat) (m : HashMap K V) (h : Nat)
    (hd : (m.data (next m.sz h)).dist ≤ 1) :
    erase_shift (fuel + 1) m h =
      some { m with data := Function.update m.data h ⟨(m.data h).elem, 0⟩,
                    elem_cnt := m.elem_cnt - 1 } := by
  rw [erase_shift]
  simp [hd]

theorem erase_shift_move (fuel : Nat) (m : HashMap K V) (h : Nat)
    (hd : ¬ (m.data (next m.sz h)).dist ≤ 1) :
    erase_shift (fuel + 1) m h =
      erase_shift fuel
        { m with data := (Function.update (Function.update m.data (next m.sz h) (m.data h)) h
            ⟨(m.data (next m.sz h)).elem, (m.data (next m.sz h)).dist - 1⟩) }
        (next m.sz h) := by
  rw [erase_shift]
  simp [hd]

theorem update_gap_eq (m : HashMap K V) (h : Nat) (hd : (m.data h).dist = 0) :
    Function.update m.data h ⟨(m.data h).elem, 0⟩ = m.data := by
  apply Function.update_eq_self_iff.mpr
  cases hb : m.data h with
  | mk e d =>
    rw [hb] at hd
    simp only at hd
    subst hd
    rfl


/-! ### Invariant of the backward shift -/

theorem shift_state_move {hash_f : K → Nat} {m m1 : HashMap K V} {h : Nat}
    (st : ShiftState hash_f m h) (hd : 2 ≤ (m.data (next m.sz h)).dist)
    (hsz : m1.sz = m.sz)
    (hA : m1.data h = ⟨(m.data (next m.sz h)).elem, (m.data (next m.sz h)).dist - 1⟩)
    (hB : m1.data (next m.sz h) = m.data h)
    (hC : ∀ i, i ≠ h → i ≠ next m.sz h → m1.data i = m.data i) :
    ShiftState hash_f m1 (next m.sz h) := by
  have h3 := st.three
  have hlt := st.hlt
  have hgap := st.gap
  have hn : next m.sz h < m.sz := next_lt hlt
  have hnh : next m.sz h ≠ h := next_ne_self (by omega)
  constructor
  · rw [hsz]; exact h3
  · rw [hsz]; exact hn
  · rw [hB]; exact hgap
  · intro i hi ho
    rw [hsz] at hi ⊢
    by_cases hih : i = h
    · subst hih
      rw [hA] at ho ⊢
      simp only at ho ⊢
      have := st.home (next m.sz i) hn (by omega)
      exact mod_pred_eq hlt (by omega) this
    · by_cases hin : i = next m.sz h
      · exfalso
        rw [hin, hB] at ho
        exact ho hgap
      · rw [hC i hih hin] at ho ⊢
        exact st.home i hi ho
  · intro i j hi hj hoi hoj hij
    rw [hsz] at hi hj
    by_cases hih : i = h
    · by_cases hjh : j = h
      · rw [hih, hjh]
      · exfalso
        by_cases hjn : j = next m.sz h
        · rw [hjn, hB] at hoj
          exact hoj hgap
        · rw [hih, hA, hC j hjh hjn] at hij
          rw [hC j hjh hjn] at hoj
          simp only at hij
          exact hjn (st.uniq j _ hj hn hoj (by omega) hij.symm)
    · by_cases hin : i = next m.sz h
      · exfalso
        rw [hin, hB] at hoi
        exact hoi hgap
      · rw [hC i hih hin] at hoi hij
        by_cases hjh : j = h
        · exfalso
          rw [hjh, hA] at hij
          simp only at hij
          exact hin (st.uniq i _ hi hn hoi (by omega) hij)
        · by_cases hjn : j = next m.sz h
          · exfalso
            rw [hjn, hB] at hoj
            exact hoj hgap
          · rw [hC j hjh hjn] at hoj hij
            exact st.uniq i j hi hj hoi hoj hij
  · intro i hi hin
    rw [hsz] at hi
    unfold RhAt
    rw [hsz]
    by_cases hih : i = h
    · subst hih
      rw [hB, hgap]
      omega
    · have hni : next m.sz i ≠ next m.sz h := fun e => hih (next_inj hi hlt e)
      by_cases hnih : next m.sz i = h
      · rw [hnih, hA, hC i hih hin]
        simp only
        have := st.prev i hi hnih
        omega
      · rw [hC _ hnih hni, hC i hih hin]
        exact st.rh i hi hih
  · intro p hp hnp
    rw [hsz] at hp hnp ⊢
    have := next_inj hp hlt hnp
    subst this
    rw [hA, hC _ (next_next_ne h3) (next_ne_self (by omega))]
    simp only
    have := st.rh (next m.sz p) hn hnh
    unfold RhAt at this
    omega

theorem has_shift_move {m : HashMap K V} (m1 : HashMap K V) {h : Nat}
    (hlt : h < m.sz) (hgap : (m.data h).dist = 0)
    (hd : 2 ≤ (m.data (next m.sz h)).dist)
    (hsz : m1.sz = m.sz)
    (hA : m1.data h = ⟨(m.data (next m.sz h)).elem, (m.data (next m.sz h)).dist - 1⟩)
    (hB : m1.data (next m.sz h) = m.data h)
    (hC : ∀ i, i ≠ h → i ≠ next m.sz h → m1.data i = m.data i) (k : K) (v : V) :
    Has m1 k v ↔ Has m k v := by
  have hn : next m.sz h < m.sz := next_lt hlt
  unfold Has
  rw [hsz]
  constructor
  · rintro ⟨i, hi, ho, he⟩
    by_cases hih : i = h
    · subst hih
      rw [hA] at he
      exact ⟨next m.sz i, hn, by omega, he⟩
    · by_cases hin : i = next m.sz h
      · exfalso
        rw [hin, hB] at ho
        exact ho hgap
      · rw [hC i hih hin] at ho he
        exact ⟨i, hi, ho, he⟩
  · rintro ⟨i, hi, ho, he⟩
    have hih : i ≠ h := fun e => ho (e ▸ hgap)
    by_cases hin : i = next m.sz h
    · subst hin
      exact ⟨h, hlt, by rw [hA]; simp only; omega, by rw [hA]; exact he⟩
    · exact ⟨i, hi, by rw [hC i hih hin]; exact ho, by rw [hC i hih hin]; exact he⟩

theorem core_of_shift_stop {hash_f : K → Nat} {m : HashMap K V} {h : Nat}
    (st : ShiftState hash_f m h) (hd : (m.data (next m.sz h)).dist ≤ 1) : Core hash_f m := by
  refine ⟨st.three, st.home, ?_, st.uniq⟩
  intro i hi
  by_cases hih : i = h
  · subst hih
    unfold RhAt
    omega
  · exact st.rh i hi hih

/-- Total correctness of the backward shift: it stops at the first following slot with
distance at most one, keeps the stored pairs and restores the slot invariants. -/
theorem erase_shift_spec {hash_f : K → Nat} :
    ∀ (t fuel : Nat) (m : HashMap K V) (h s : Nat), ShiftState hash_f m h →
      s < m.sz → s ≠ h → (m.data s).dist ≤ 1 → (next m.sz h + t) % m.sz = s → t < fuel →
      ∃ m1, erase_shift fuel m h = some m1 ∧ m1.sz = m.sz ∧
        m1.elem_cnt = m.elem_cnt - 1 ∧ Core hash_f m1 ∧ ∀ k v, Has m1 k v ↔ Has m k v := by
  intro t
  induction t with
  | zero =>
    intro fuel m h s st hs hsh hds hts hf
    obtain ⟨f, rfl⟩ : ∃ f, fuel = f + 1 := ⟨fuel - 1, by omega⟩
    rw [Nat.add_zero, Nat.mod_eq_of_lt (next_lt st.hlt)] at hts
    rw [← hts] at hds
    rw [erase_shift_stop f m h hds, update_gap_eq m h st.gap]
    exact ⟨_, rfl, rfl, rfl, core_of_shift_stop (m := { m with elem_cnt := m.elem_cnt - 1 })
      ⟨st.three, st.hlt, st.gap, st.home, st.uniq, st.rh, st.prev⟩ hds, fun k v => Iff.rfl⟩
  | succ t ih =>
    intro fuel m h s st hs hsh hds hts hf
    obtain ⟨f, rfl⟩ : ∃ f, fuel = f + 1 := ⟨fuel - 1, by omega⟩
    by_cases hd : (m.data (next m.sz h)).dist ≤ 1
    · rw [erase_shift_stop f m h hd, update_gap_eq m h st.gap]
      exact ⟨_, rfl, rfl, rfl, core_of_shift_stop (m := { m with elem_cnt := m.elem_cnt - 1 })
        ⟨st.three, st.hlt, st.gap, st.home, st.uniq, st.rh, st.prev⟩ hd, fun k v => Iff.rfl⟩
    · have h3 := st.three
      have hnh : next m.sz h ≠ h := next_ne_self (by omega)
      have hsn : s ≠ next m.sz h := fun e => hd (e ▸ hds)
      rw [erase_shift_move f m h hd]
      have hA : (Function.update (Function.update m.data (next m.sz h) (m.data h)) h
          ⟨(m.data (next m.sz h)).elem, (m.data (next m.sz h)).dist - 1⟩) h =
          ⟨(m.data (next m.sz h)).elem, (m.data (next m.sz h)).dist - 1⟩ :=
        Function.update_same _ _ _
      have hB : (Function.update (Function.update m.data (next m.sz h) (m.data h)) h
          ⟨(m.data (next m.sz h)).elem, (m.data (next m.sz h)).dist - 1⟩) (next m.sz h) =
          m.data h := by
        rw [Function.update_noteq hnh, Function.update_same]
      have hC : ∀ i, i ≠ h → i ≠ next m.sz h →
          (Function.update (Function.update m.data (next m.sz h) (m.data h)) h
          ⟨(m.data (next m.sz h)).elem, (m.data (next m.sz h)).dist - 1⟩) i = m.data i := by
        intro i hih hin
        rw [Function.update_noteq hih, Function.update_noteq hin]
      obtain ⟨m1, e1, e2, e3, e4, e5⟩ := ih f
        ({ m with data := (Function.update (Function.update m.data (next m.sz h) (m.data h)) h
            ⟨(m.data (next m.sz h)).elem, (m.data (next m.sz h)).dist - 1⟩) } : HashMap K V)
        (next m.sz h) s
        (shift_state_move st (by omega) rfl hA hB hC) hs hsn
        (by
          show ((Function.update (Function.update m.data (next m.sz h) (m.data h)) h
            ⟨(m.data (next m.sz h)).elem, (m.data (next m.sz h)).dist - 1⟩) s).dist ≤ 1
          rw [hC s hsh hsn]; exact hds)
        (by
          show (next m.sz (next m.sz h) + t) % m.sz = s
          rw [next_add_mod (next_lt st.hlt)]; exact hts)
        (by omega)
      refine ⟨m1, e1, e2, e3, e4, ?_⟩
      intro k v
      rw [e5 k v]
      exact has_shift_move
        ({ m with data := (Function.update (Function.update m.data (next m.sz h) (m.data h)) h
            ⟨(m.data (next m.sz h)).elem, (m.data (next m.sz h)).dist - 1⟩) } : HashMap K V)
        st.hlt st.gap (by omega) rfl hA hB hC k v


/-! ### The search loop of `erase` -/

theorem erase_loop_eq (sfuel : Nat) :
    ∀ (fuel : Nat) (m : HashMap K V) (key : K) (h c : Nat), h < m.sz →
      erase_loop sfuel fuel m key h c =
        (find_pos_loop fuel m key h c).bind fun p =>
          if p = m.sz then some (m, false)
          else (erase_shift sfuel
            { m with data := Function.update m.data p ⟨(m.data p).elem, 0⟩ } p).map
              fun m2 => (m2, true) := by
  intro fuel
  induction fuel with
  | zero => intro m key h c _; rfl
  | succ f ih =>
    intro m key h c hh
    unfold erase_loop find_pos_loop
    by_cases h1 : (m.data h).dist < c
    · rw [if_pos h1, if_pos h1]
      simp
    · rw [if_neg h1, if_neg h1]
      by_cases h2 : (m.data h).elem.1 = key
      · rw [if_pos h2, if_pos h2]
        have : h ≠ m.sz := by omega
        simp [this]
      · rw [if_neg h2, if_neg h2]
        exact ih m key (next m.sz h) (c + 1) (next_lt hh)

theorem shift_state_zero {hash_f : K → Nat} {m : HashMap K V} (hc : Core hash_f m) {i : Nat}
    (hi : i < m.sz) :
    ShiftState hash_f
      ({ m with data := Function.update m.data i ⟨(m.data i).elem, 0⟩ } : HashMap K V) i := by
  have h3 := hc.three
  have hni : next m.sz i ≠ i := next_ne_self (by omega)
  refine ⟨h3, hi, by simp, ?_, ?_, ?_, ?_⟩
  · intro j hj ho
    change j < m.sz at hj
    change (Function.update m.data i ⟨(m.data i).elem, 0⟩ j).dist ≠ 0 at ho
    show (hash_f (Function.update m.data i ⟨(m.data i).elem, 0⟩ j).elem.1 +
      ((Function.update m.data i ⟨(m.data i).elem, 0⟩ j).dist - 1)) % m.sz = j
    by_cases hji : j = i
    · subst hji
      simp at ho
    · rw [Function.update_noteq hji] at ho ⊢
      exact hc.home j hj ho
  · intro a b ha hb hoa hob hab
    change a < m.sz at ha
    change b < m.sz at hb
    change (Function.update m.data i ⟨(m.data i).elem, 0⟩ a).dist ≠ 0 at hoa
    change (Function.update m.data i ⟨(m.data i).elem, 0⟩ b).dist ≠ 0 at hob
    change (Function.update m.data i ⟨(m.data i).elem, 0⟩ a).elem.1 =
      (Function.update m.data i ⟨(m.data i).elem, 0⟩ b).elem.1 at hab
    have hai : a ≠ i := by
      intro e
      subst e
      simp at hoa
    have hbi : b ≠ i := by
      intro e
      subst e
      simp at hob
    rw [Function.update_noteq hai] at hoa hab
    rw [Function.update_noteq hbi] at hob hab
    exact hc.uniq a b ha hb hoa hob hab
  · intro j hj hji
    change j < m.sz at hj
    show (Function.update m.data i ⟨(m.data i).elem, 0⟩ (next m.sz j)).dist ≤
      (Function.update m.data i ⟨(m.data i).elem, 0⟩ j).dist + 1
    rw [Function.update_noteq hji]
    by_cases hn : next m.sz j = i
    · rw [hn, Function.update_same]
      exact Nat.zero_le _
    · rw [Function.update_noteq hn]
      exact hc.rh j hj
  · intro p hp hnp
    change p < m.sz at hp
    change next m.sz p = i at hnp
    show (Function.update m.data i ⟨(m.data i).elem, 0⟩ (next m.sz i)).dist ≤
      (Function.update m.data i ⟨(m.data i).elem, 0⟩ p).dist + 2
    have hpi : p ≠ i := by
      intro e
      subst e
      exact hni hnp
    rw [Function.update_noteq hni, Function.update_noteq hpi]
    have r1 := hc.rh i hi
    have r2 := hc.rh p hp
    unfold RhAt at r1 r2
    rw [hnp] at r2
    omega

theorem has_zero {m : HashMap K V} (hu : UniqueKeys m) {i : Nat} (hi : i < m.sz)
    (ho : (m.data i).dist ≠ 0) (k : K) (v : V) :
    Has ({ m with data := Function.update m.data i ⟨(m.data i).elem, 0⟩ } : HashMap K V) k v ↔
      Has m k v ∧ k ≠ (m.data i).elem.1 := by
  unfold Has
  show (∃ j, j < m.sz ∧ (Function.update m.data i ⟨(m.data i).elem, 0⟩ j).dist ≠ 0 ∧
    (Function.update m.data i ⟨(m.data i).elem, 0⟩ j).elem = (k, v)) ↔ _
  constructor
  · rintro ⟨j, hj, hoj, hej⟩
    have hji : j ≠ i := by
      intro e
      subst e
      simp at hoj
    rw [Function.update_noteq hji] at hoj hej
    refine ⟨⟨j, hj, hoj, hej⟩, ?_⟩
    intro hk
    apply hji
    apply hu j i hj hi hoj ho
    rw [hej]
    exact hk
  · rintro ⟨⟨j, hj, hoj, hej⟩, hk⟩
    have hji : j ≠ i := by
      intro e
      subst e
      rw [hej] at hk
      exact hk rfl
    exact ⟨j, hj, by rw [Function.update_noteq hji]; exact hoj,
      by rw [Function.update_noteq hji]; exact hej⟩

/-- The erase loops on a stored key: the key is found, the backward shift ends, the
call reports `true` and exactly the pair of that key is gone. -/
theorem erase_loop_present {hash_f : K → Nat} {m : HashMap K V} (hc : Core hash_f m)
    (he : ∃ e, e < m.sz ∧ (m.data e).dist = 0) {i : Nat}
    (hi : i < m.sz) (ho : (m.data i).dist ≠ 0) (sfuel fuel : Nat)
    (hsf : m.sz ≤ sfuel) (hf : m.sz ≤ fuel) :
    ∃ m1, erase_loop sfuel fuel m (m.data i).elem.1
        (hash_f (m.data i).elem.1 % m.sz) 1 = some (m1, true) ∧
      m1.sz = m.sz ∧ m1.elem_cnt = m.elem_cnt - 1 ∧ Core hash_f m1 ∧
      ∀ k v, Has m1 k v ↔ Has m k v ∧ k ≠ (m.data i).elem.1 := by
  have h3 := hc.three
  have h0 : 0 < m.sz := by omega
  have hdl := dist_le_sz hc he hi
  have hfind := find_pos_loop_present hc he hi ho ((m.data i).dist - 1) 0 fuel (by omega)
    (by omega)
  rw [Nat.add_zero] at hfind
  rw [erase_loop_eq sfuel fuel m _ _ 1 (Nat.mod_lt _ h0), hfind]
  obtain ⟨e, he1, he2⟩ := he
  have hei : e ≠ i := fun x => ho (x ▸ he2)
  obtain ⟨t, ht, hte⟩ := exists_offset (next_lt hi) he1
  obtain ⟨m1, e1, e2, e3, e4, e5⟩ := erase_shift_spec t sfuel
    ({ m with data := Function.update m.data i ⟨(m.data i).elem, 0⟩ } : HashMap K V) i e
    (shift_state_zero hc hi) he1 hei
    (by
      show (Function.update m.data i ⟨(m.data i).elem, 0⟩ e).dist ≤ 1
      rw [Function.update_noteq hei, he2]
      omega)
    hte (by omega)
  refine ⟨m1, ?_, e2, e3, e4, ?_⟩
  · have : i ≠ m.sz := by omega
    simp [this, e1]
  · intro k v
    rw [e5 k v]
    exact has_zero hc.uniq hi ho k v

/-- The erase loop on a key that is not stored reports `false` and returns the table
as it was. -/
theorem erase_loop_absent {m : HashMap K V} {key : K} (hk : ¬ HasKey m key)
    (he : ∃ e, e < m.sz ∧ (m.data e).dist = 0) (hash : Nat) (sfuel fuel : Nat)
    (hf : m.sz ≤ fuel) :
    erase_loop sfuel fuel m key (hash % m.sz) 1 = some (m, false) := by
  obtain ⟨e, he1, he2⟩ := he
  have h0 : 0 < m.sz := by omega
  obtain ⟨t, ht, hte⟩ := exists_offset (Nat.mod_lt hash h0) he1
  rw [erase_loop_eq sfuel fuel m _ _ 1 (Nat.mod_lt _ h0),
    find_pos_loop_absent hk t _ 1 fuel (Nat.mod_lt _ h0) (le_refl 1) (by rw [hte]; exact he2)
      (by omega)]
  simp

/-! ### Counting occupied slots through the stored keys -/

theorem mem_occList {m : HashMap K V} {i : Nat} :
    i ∈ occList m ↔ i < m.sz ∧ (m.data i).dist ≠ 0 := by
  unfold occList
  simp [List.mem_filter]

theorem occList_nodup (m : HashMap K V) : (occList m).Nodup :=
  (List.nodup_range m.sz).filter _

theorem hasKey_iff_has {m : HashMap K V} {k : K} : HasKey m k ↔ ∃ v, Has m k v := by
  unfold HasKey Has
  constructor
  · rintro ⟨i, hi, ho, he⟩
    exact ⟨(m.data i).elem.2, i, hi, ho, by rw [← he]⟩
  · rintro ⟨v, i, hi, ho, he⟩
    exact ⟨i, hi, ho, by rw [he]⟩

theorem mem_keys {m : HashMap K V} {k : K} :
    k ∈ (occList m).map (fun i => (m.data i).elem.1) ↔ HasKey m k := by
  unfold HasKey
  simp only [List.mem_map, mem_occList]
  constructor
  · rintro ⟨i, ⟨hi, ho⟩, he⟩
    exact ⟨i, hi, ho, he⟩
  · rintro ⟨i, hi, ho, he⟩
    exact ⟨i, ⟨hi, ho⟩, he⟩

theorem keys_nodup {m : HashMap K V} (hu : UniqueKeys m) :
    ((occList m).map (fun i => (m.data i).elem.1)).Nodup := by
  apply List.Nodup.map_on _ (occList_nodup m)
  intro a ha b hb hab
  rw [mem_occList] at ha hb
  exact hu a b ha.1 hb.1 ha.2 hb.2 hab

theorem occ_length_eq_card {m : HashMap K V} (hu : UniqueKeys m) :
    (occList m).length = ((occList m).map (fun i => (m.data i).elem.1)).toFinset.card := by
  rw [List.toFinset_card_of_nodup (keys_nodup hu), List.length_map]

theorem count_same {m m1 : HashMap K V} (hu : UniqueKeys m) (hu1 : UniqueKeys m1)
    (h : ∀ k, HasKey m1 k ↔ HasKey m k) : (occList m1).length = (occList m).length := by
  rw [occ_length_eq_card hu, occ_length_eq_card hu1]
  congr 1
  ext k
  simp only [List.mem_toFinset, mem_keys]
  exact h k

theorem count_insert {m m1 : HashMap K V} (hu : UniqueKeys m) (hu1 : UniqueKeys m1) {k0 : K}
    (h : ∀ k, HasKey m1 k ↔ HasKey m k ∨ k = k0) (h0 : ¬ HasKey m k0) :
    (occList m1).length = (occList m).length + 1 := by
  rw [occ_length_eq_card hu, occ_length_eq_card hu1]
  have : ((occList m1).map (fun i => (m1.data i).elem.1)).toFinset =
      Insert.insert k0 ((occList m).map (fun i => (m.data i).elem.1)).toFinset := by
    ext k
    simp only [List.mem_toFinset, mem_keys, Finset.mem_insert]
    rw [h k]
    tauto
  rw [this, Finset.card_insert_of_not_mem]
  simp only [List.mem_toFinset, mem_keys]
  exact h0

theorem count_erase {m m1 : HashMap K V} (hu : UniqueKeys m) (hu1 : UniqueKeys m1) {k0 : K}
    (h : ∀ k, HasKey m1 k ↔ HasKey m k ∧ k ≠ k0) (h0 : HasKey m k0) :
    (occList m1).length = (occList m).length - 1 := by
  rw [occ_length_eq_card hu, occ_length_eq_card hu1]
  have : ((occList m1).map (fun i => (m1.data i).elem.1)).toFinset =
      (((occList m).map (fun i => (m.data i).elem.1)).toFinset).erase k0 := by
    ext k
    simp only [List.mem_toFinset, mem_keys, Finset.mem_erase]
    rw [h k]
    tauto
  rw [this, Finset.card_erase_of_mem]
  simp only [List.mem_toFinset, mem_keys]
  exact h0

theorem hasKey_congr {m m1 : HashMap K V} (h : ∀ k v, Has m1 k v ↔ Has m k v) (k : K) :
    HasKey m1 k ↔ HasKey m k := by
  simp only [hasKey_iff_has, h]

theorem hasKey_insert {m m1 : HashMap K V} {elem : K × V}
    (h : ∀ k v, Has m1 k v ↔ Has m k v ∨ (k, v) = elem) (k : K) :
    HasKey m1 k ↔ HasKey m k ∨ k = elem.1 := by
  simp only [hasKey_iff_has, h]
  constructor
  · rintro ⟨v, hv | hv⟩
    · exact Or.inl ⟨v, hv⟩
    · exact Or.inr (by rw [← hv])
  · rintro (⟨v, hv⟩ | hk)
    · exact ⟨v, Or.inl hv⟩
    · exact ⟨elem.2, Or.inr (by rw [hk])⟩

theorem hasKey_erase {m m1 : HashMap K V} {k0 : K}
    (h : ∀ k v, Has m1 k v ↔ Has m k v ∧ k ≠ k0) (k : K) :
    HasKey m1 k ↔ HasKey m k ∧ k ≠ k0 := by
  simp only [hasKey_iff_has, h]
  constructor
  · rintro ⟨v, hv, hk⟩
    exact ⟨⟨v, hv⟩, hk⟩
  · rintro ⟨⟨v, hv⟩, hk⟩
    exact ⟨v, hv, hk⟩

/-- Under unique keys a key has one value. -/
theorem has_unique {m : HashMap K V} (hu : UniqueKeys m) {k : K} {v1 v2 : V}
    (h1 : Has m k v1) (h2 : Has m k v2) : v1 = v2 := by
  obtain ⟨i, hi, hoi, hei⟩ := h1
  obtain ⟨j, hj, hoj, hej⟩ := h2
  have := hu i j hi hj hoi hoj (by rw [hei, hej])
  subst this
  rw [hei] at hej
  exact (Prod.mk.inj hej).2

/-! ### The `float` growth test -/

theorem drop_bits_spec : ∀ (fuel n : Nat), n ≤ fuel →
    n / 2 ^ drop_bits fuel n < 2 ^ 24 ∧
      (drop_bits fuel n ≠ 0 → 2 ^ 23 ≤ n / 2 ^ drop_bits fuel n) := by
  intro fuel
  induction fuel with
  | zero =>
    intro n hn
    have : n = 0 := by omega
    subst this
    simp [drop_bits]
  | succ fuel ih =>
    intro n hn
    unfold drop_bits
    by_cases h : n < 2 ^ 24
    · rw [if_pos h]
      simp only [pow_zero, Nat.div_one, ne_eq, not_true_eq_false, false_implies, and_true]
      exact h
    · rw [if_neg h]
      have h2 : n / 2 ≤ fuel := by omega
      obtain ⟨i1, i2⟩ := ih (n / 2) h2
      have e : n / 2 ^ (drop_bits fuel (n / 2) + 1) = n / 2 / 2 ^ drop_bits fuel (n / 2) := by
        rw [pow_succ, Nat.mul_comm, Nat.div_div_eq_div_mul]
      rw [e]
      refine ⟨i1, fun _ => ?_⟩
      by_cases h3 : drop_bits fuel (n / 2) = 0
      · rw [h3, pow_zero, Nat.div_one]
        omega
      · exact i2 h3

theorem drop_bits_mono : ∀ (f1 f2 a b : Nat), b ≤ f2 → a ≤ b →
    drop_bits f1 a ≤ drop_bits f2 b := by
  intro f1
  induction f1 with
  | zero =>
    intro f2 a b _ _
    simp [drop_bits]
  | succ f1 ih =>
    intro f2 a b hb hab
    unfold drop_bits
    by_cases h : a < 2 ^ 24
    · rw [if_pos h]
      exact Nat.zero_le _
    · rw [if_neg h]
      cases f2 with
      | zero => omega
      | succ f2 =>
        simp only
        rw [if_neg (by omega)]
        have := ih f2 (a / 2) (b / 2) (by omega) (Nat.div_le_div_right hab)
        omega

/-- Shape of `round24 n`: with `p = 2^e` the unit in the last place, `n = q * p + r`
with `r < p`, the significand `q` has at most 24 bits and exactly 24 when `e > 0`. -/
theorem round24_shape (n : Nat) :
    ∃ e q r, e = drop_bits n n ∧ n = q * 2 ^ e + r ∧ r < 2 ^ e ∧ q < 2 ^ 24 ∧
      (e ≠ 0 → 2 ^ 23 ≤ q) ∧
      round24 n = if 2 * r < 2 ^ e ∨ (2 * r = 2 ^ e ∧ q % 2 = 0) then q * 2 ^ e
        else (q + 1) * 2 ^ e := by
  obtain ⟨h1, h2⟩ := drop_bits_spec n n (le_refl _)
  refine ⟨drop_bits n n, n / 2 ^ drop_bits n n, n % 2 ^ drop_bits n n, rfl, ?_, ?_, h1, h2, rfl⟩
  · rw [Nat.mul_comm]
    exact (Nat.div_add_mod _ _).symm
  · exact Nat.mod_lt _ (by positivity)

/-- Relative error of the rounding: at most `2^-24`. -/
theorem round24_bounds (n : Nat) :
    (2 ^ 24 - 1) * n ≤ 2 ^ 24 * round24 n ∧ 2 ^ 24 * round24 n ≤ (2 ^ 24 + 1) * n := by
  obtain ⟨e, q, r, _, hn, hr, hq, hq2, hres⟩ := round24_shape n
  by_cases he : e = 0
  · subst he
    have hr0 : r = 0 := by simpa using hr
    subst hr0
    have : round24 n = n := by
      rw [hres, hn]
      simp
    rw [this]
    omega
  · have hq3 := hq2 he
    have hX : 2 ^ 23 * 2 ^ e ≤ q * 2 ^ e := Nat.mul_le_mul_right _ hq3
    generalize hp : 2 ^ e = p at *
    generalize hX1 : q * p = X at *
    rw [hres]
    split
    · rename_i hc
      omega
    · rename_i hc
      rw [Nat.add_mul, hX1, Nat.one_mul]
      omega

theorem round24_mono {a b : Nat} (hab : a ≤ b) : round24 a ≤ round24 b := by
  obtain ⟨ea, qa, ra, hea, ha, hra, hqa, _, hresa⟩ := round24_shape a
  obtain ⟨eb, qb, rb, heb, hb, hrb, _, hqb2, hresb⟩ := round24_shape b
  have hle : ea ≤ eb := by
    rw [hea, heb]
    exact drop_bits_mono a b a b (le_refl _) hab
  have hUa : round24 a ≤ (qa + 1) * 2 ^ ea := by
    rw [hresa]
    split
    · exact Nat.mul_le_mul_right _ (Nat.le_succ _)
    · exact le_refl _
  have hLb : qb * 2 ^ eb ≤ round24 b := by
    rw [hresb]
    split
    · exact le_refl _
    · exact Nat.mul_le_mul_right _ (Nat.le_succ _)
  rcases Nat.lt_or_ge ea eb with hlt | hge
  · have h1 : (qa + 1) * 2 ^ ea ≤ 2 ^ 24 * 2 ^ ea := Nat.mul_le_mul_right _ hqa
    have h2 : 2 ^ 23 * 2 ^ eb ≤ qb * 2 ^ eb := Nat.mul_le_mul_right _ (hqb2 (by omega))
    have h3 : 2 ^ (ea + 1) ≤ 2 ^ eb := Nat.pow_le_pow_right (by norm_num) hlt
    rw [pow_succ] at h3
    have h4 : 2 ^ 24 * 2 ^ ea ≤ 2 ^ 23 * 2 ^ eb := by
      generalize 2 ^ ea = pa at *
      generalize 2 ^ eb = pb at *
      omega
    omega
  · have hee : ea = eb := by omega
    subst hee
    rcases Nat.lt_or_ge qa qb with hq | hq
    · have h1 : (qa + 1) * 2 ^ ea ≤ qb * 2 ^ ea := Nat.mul_le_mul_right _ hq
      omega
    · have hqq : qa = qb := by
        rcases Nat.lt_or_ge qb qa with h | h
        · exfalso
          have h1 : (qb + 1) * 2 ^ ea ≤ qa * 2 ^ ea := Nat.mul_le_mul_right _ h
          rw [Nat.add_mul, Nat.one_mul] at h1
          omega
        · omega
      subst hqq
      have hrr : ra ≤ rb := by omega
      rw [hresa, hresb]
      by_cases hcb : 2 * rb < 2 ^ ea ∨ (2 * rb = 2 ^ ea ∧ qa % 2 = 0)
      · have hca : 2 * ra < 2 ^ ea ∨ (2 * ra = 2 ^ ea ∧ qa % 2 = 0) := by
          rcases hcb with h | ⟨h, h0⟩
          · exact Or.inl (by omega)
          · rcases Nat.lt_or_ge (2 * ra) (2 ^ ea) with h5 | h5
            · exact Or.inl h5
            · exact Or.inr ⟨by omega, h0⟩
        rw [if_pos hca, if_pos hcb]
      · rw [if_neg hcb]
        split
        · exact Nat.mul_le_mul_right _ (Nat.le_succ _)
        · exact le_refl _

theorem load_test_eq (c s : Nat) :
    load_test c s = decide (round24 (12918456 * round24 s) ≤ round24 c * 2 ^ 24) := rfl

/-- The growth test is monotone in the count. -/
theorem load_test_mono {c d s : Nat} (hcd : c ≤ d) (h : load_test c s = true) :
    load_test d s = true := by
  rw [load_test_eq, decide_eq_true_eq] at *
  exact le_trans h (Nat.mul_le_mul_right _ (round24_mono hcd))

theorem load_test_false_of_le {c d s : Nat} (hcd : c ≤ d) (h : load_test d s = false) :
    load_test c s = false := by
  cases hc : load_test c s
  · rfl
  · rw [load_test_mono hcd hc] at h
    exact h

/-- The growth test does not fire below a third of the capacity. -/
theorem load_test_third {c s : Nat} (h : 3 * c < s) : load_test c s = false := by
  rw [load_test_eq, decide_eq_false_iff_not]
  intro hT
  obtain ⟨a1, a2⟩ := round24_bounds c
  obtain ⟨b1, b2⟩ := round24_bounds s
  obtain ⟨c1, c2⟩ := round24_bounds (12918456 * round24 s)
  generalize round24 (12918456 * round24 s) = P at *
  generalize round24 s = F at *
  generalize round24 c = R at *
  norm_num at *
  omega

/-- When the growth test does not fire, at least three slots are free. -/
theorem load_test_room {c s : Nat} (h : load_test c s = false) (hs : 10 ≤ s) : c + 2 < s := by
  rw [load_test_eq, decide_eq_false_iff_not] at h
  obtain ⟨a1, a2⟩ := round24_bounds c
  obtain ⟨b1, b2⟩ := round24_bounds s
  obtain ⟨c1, c2⟩ := round24_bounds (12918456 * round24 s)
  generalize round24 (12918456 * round24 s) = P at *
  generalize round24 s = F at *
  generalize round24 c = R at *
  norm_num at *
  omega

theorem inv_tbl {hash_f : K → Nat} {m : HashMap K V} (h : Inv hash_f m) : Tbl hash_f m :=
  ⟨h.core, h.cnt⟩

theorem tbl_empty_slot {hash_f : K → Nat} {m : HashMap K V} (h : Tbl hash_f m)
    (hlt : m.elem_cnt < m.sz) : ∃ e, e < m.sz ∧ (m.data e).dist = 0 :=
  exists_empty (by rw [← h.cnt]; exact hlt)

theorem insert_noexp (hash_f : K → Nat) (fuel : Nat) (m : HashMap K V) (elem : K × V)
    (h1 : load_exceeded m = false) (h2 : m.sz ≠ 0) :
    insert hash_f (fuel + 1) m elem = insert_loop fuel m (hash_f elem.1 % m.sz) 1 elem := by
  rw [insert, h1]
  simp [eval_hash, h2]

theorem insert_exp (hash_f : K → Nat) (fuel : Nat) (m : HashMap K V) (elem : K × V)
    (h1 : load_exceeded m = true) :
    insert hash_f (fuel + 1) m elem =
      (resize (insert hash_f fuel) m (m.sz * 3)).bind fun m1 =>
        (eval_hash hash_f m1 elem.1).bind fun h => insert_loop fuel m1 h 1 elem := by
  rw [insert, h1]
  simp

theorem ins_state_init {hash_f : K → Nat} {m : HashMap K V} (hc : Core hash_f m)
    {elem : K × V} (hk : ¬ HasKey m elem.1) :
    InsState hash_f m (hash_f elem.1 % m.sz) 1 elem := by
  have h3 := hc.three
  exact ⟨hc, Nat.mod_lt _ (by omega), le_refl 1, by simp, hk, fun p _ _ => by omega⟩

/-- The probe of `insert` for a key that is not stored, on a table with a free slot. -/
theorem insert_probe_absent {hash_f : K → Nat} {m : HashMap K V} (ht : Tbl hash_f m)
    (hlt : m.elem_cnt < m.sz) {elem : K × V} (hk : ¬ HasKey m elem.1) (fuel : Nat)
    (hf : m.sz ≤ fuel) :
    ∃ m1, insert_loop fuel m (hash_f elem.1 % m.sz) 1 elem = some m1 ∧ m1.sz = m.sz ∧
      m1.elem_cnt = m.elem_cnt + 1 ∧ Tbl hash_f m1 ∧
      ∀ k v, Has m1 k v ↔ Has m k v ∨ (k, v) = elem := by
  have h3 := ht.core.three
  obtain ⟨e, he1, he2⟩ := tbl_empty_slot ht hlt
  obtain ⟨t, ht1, ht2⟩ := exists_offset (Nat.mod_lt (hash_f elem.1) (by omega : 0 < m.sz)) he1
  obtain ⟨m1, e1, e2, e3, e4, e5⟩ := insert_loop_absent t fuel m _ 1 elem
    (ins_state_init ht.core hk) (by rw [ht2]; exact he2) (by omega)
  refine ⟨m1, e1, e2, e3, ⟨e4, ?_⟩, e5⟩
  rw [e3, ht.cnt]
  exact (count_insert ht.core.uniq e4.uniq (hasKey_insert e5) hk).symm

/-- The probe of `insert` for a stored key leaves the table as it was. -/
theorem insert_probe_present {hash_f : K → Nat} {m : HashMap K V} (ht : Tbl hash_f m)
    (hlt : m.elem_cnt < m.sz) {k : K} (hk : HasKey m k) (v : V) (fuel : Nat)
    (hf : m.sz ≤ fuel) :
    insert_loop fuel m (hash_f k % m.sz) 1 (k, v) = some m := by
  obtain ⟨i, hi, ho, hki⟩ := hk
  have he := tbl_empty_slot ht hlt
  have hdl := dist_le_sz ht.core he hi
  have := insert_loop_present ht.core he hi ho v ((m.data i).dist - 1) 0 fuel (by omega)
    (by omega)
  rw [Nat.add_zero, hki] at this
  exact this


/-! ### `resize` -/

theorem occList_fresh (n c : Nat) : occList (⟨fresh_data, n, c⟩ : HashMap K V) = [] := by
  unfold occList
  rw [List.filter_eq_nil_iff]
  intro a _
  simp [fresh_data]

theorem tbl_fresh (hash_f : K → Nat) (n : Nat) (hn : 3 ≤ n) :
    Tbl hash_f (⟨fresh_data, n, 0⟩ : HashMap K V) := by
  refine ⟨⟨hn, ?_, ?_, ?_⟩, ?_⟩
  · intro i _ ho
    exact absurd rfl ho
  · intro i _
    unfold RhAt
    simp [fresh_data]
  · intro i j _ _ ho
    exact absurd rfl ho
  · rw [occList_fresh]
    rfl

theorem has_fresh (n c : Nat) (k : K) (v : V) :
    ¬ Has (⟨fresh_data, n, c⟩ : HashMap K V) k v := by
  rintro ⟨i, _, ho, _⟩
  exact ho rfl

theorem filter_range_le (p : Nat → Bool) {n s : Nat} (h : n ≤ s) :
    ((List.range n).filter p).length ≤ ((List.range s).filter p).length :=
  ((List.range_sublist.mpr h).filter p).length_le

/-- Total correctness of `resize` when none of the re-insertions expands: the new
table has the requested capacity and holds the same pairs. -/
theorem resize_spec (hash_f : K → Nat) {m : HashMap K V} (hu : UniqueKeys m)
    (N fuel : Nat) (hN : 3 ≤ N) (hfuel : N < fuel)
    (hroom : (occList m).length ≤ N)
    (hload : ∀ c, c < (occList m).length → load_test c N = false) :
    ∃ m1, resize (insert hash_f fuel) m N = some m1 ∧ m1.sz = N ∧ Tbl hash_f m1 ∧
      ∀ k v, Has m1 k v ↔ Has m k v := by
  have Q : ∀ n, n ≤ m.sz → ∃ acc : HashMap K V,
      (List.range n).foldlM
        (fun acc i =>
          if (m.data i).dist ≠ 0 then insert hash_f fuel acc (m.data i).elem else some acc)
        (⟨fresh_data, N, 0⟩ : HashMap K V) = some acc ∧
      acc.sz = N ∧ Tbl hash_f acc ∧
      acc.elem_cnt = ((List.range n).filter fun i => decide ((m.data i).dist ≠ 0)).length ∧
      ∀ k v, Has acc k v ↔ ∃ i, i < n ∧ (m.data i).dist ≠ 0 ∧ (m.data i).elem = (k, v) := by
    intro n
    induction n with
    | zero =>
      intro _
      refine ⟨_, rfl, rfl, tbl_fresh hash_f N hN, rfl, ?_⟩
      intro k v
      constructor
      · intro h
        exact absurd h (has_fresh N 0 k v)
      · rintro ⟨i, hi, _⟩
        omega
    | succ n ih =>
      intro hn
      obtain ⟨acc, a1, a2, a3, a4, a5⟩ := ih (by omega)
      rw [List.range_succ, List.foldlM_append, a1]
      by_cases ho : (m.data n).dist = 0
      · refine ⟨acc, by simp [ho], a2, a3, ?_, ?_⟩
        · rw [a4, List.filter_append]
          simp [ho]
        · intro k v
          rw [a5 k v]
          constructor
          · rintro ⟨i, hi, hoi, hei⟩
            exact ⟨i, by omega, hoi, hei⟩
          · rintro ⟨i, hi, hoi, hei⟩
            have : i ≠ n := fun e => hoi (e ▸ ho)
            exact ⟨i, by omega, hoi, hei⟩
      · have hcnt1 : ((List.range (n + 1)).filter fun i => decide ((m.data i).dist ≠ 0)).length =
            acc.elem_cnt + 1 := by
          rw [a4, List.range_succ, List.filter_append]
          simp [ho]
        have hle : acc.elem_cnt + 1 ≤ (occList m).length := by
          rw [← hcnt1]
          exact filter_range_le _ hn
        have hl := hload acc.elem_cnt (by omega)
        have hk : ¬ HasKey acc (m.data n).elem.1 := by
          rw [hasKey_iff_has]
          rintro ⟨v, hv⟩
          obtain ⟨i, hi, hoi, hei⟩ := (a5 _ v).mp hv
          have := hu i n (by omega) (by omega) hoi ho (by rw [hei])
          omega
        obtain ⟨f, rfl⟩ : ∃ f, fuel = f + 1 := ⟨fuel - 1, by omega⟩
        obtain ⟨m1, e1, e2, e3, e4, e5⟩ := insert_probe_absent a3
          (by rw [a2]; omega) hk f (by rw [a2]; omega)
        refine ⟨m1, ?_, by rw [e2, a2], e4, by rw [e3, ← List.range_succ, hcnt1], ?_⟩
        · have hins : insert hash_f (f + 1) acc (m.data n).elem = some m1 := by
            rw [insert_noexp hash_f f acc _ (by unfold load_exceeded; rw [a2]; exact hl)
              (by rw [a2]; omega), e1]
          simp [ho, hins]
        · intro k v
          rw [e5 k v, a5 k v]
          constructor
          · rintro (⟨i, hi, hoi, hei⟩ | he)
            · exact ⟨i, by omega, hoi, hei⟩
            · exact ⟨n, by omega, ho, he.symm⟩
          · rintro ⟨i, hi, hoi, hei⟩
            by_cases hin : i = n
            · subst hin
              exact Or.inr hei.symm
            · exact Or.inl ⟨i, by omega, hoi, hei⟩
  obtain ⟨acc, a1, a2, a3, _, a5⟩ := Q m.sz (le_refl _)
  exact ⟨acc, a1, a2, a3, a5⟩

/-! ### `insert` and `erase` on tables satisfying the invariant -/

theorem inv_ten {hash_f : K → Nat} {m : HashMap K V} (h : Inv hash_f m) : 10 ≤ m.sz := by
  obtain ⟨j, hj⟩ := h.cap
  have : 0 < 3 ^ j := by positivity
  omega

theorem inv_cnt_lt {hash_f : K → Nat} {m : HashMap K V} (h : Inv hash_f m) :
    m.elem_cnt + 1 < m.sz := by
  have h10 := inv_ten h
  rcases h.load with h0 | h1
  · omega
  · have := load_test_room h1 h10
    omega

theorem inv_load_pred {hash_f : K → Nat} {m : HashMap K V} (h : Inv hash_f m) {c : Nat}
    (hc : c < m.elem_cnt) : load_test c m.sz = false := by
  rcases h.load with h0 | h1
  · omega
  · exact load_test_false_of_le (by omega) h1

theorem inv_clear (hash_f : K → Nat) : Inv hash_f (clear : HashMap K V) := by
  have h := tbl_fresh (K := K) (V := V) hash_f 10 (by omega)
  exact ⟨h.core, ⟨0, rfl⟩, h.cnt, Or.inl rfl⟩

theorem insert_tail {hash_f : K → Nat} {mid : HashMap K V} (ht : Tbl hash_f mid)
    (hcap : ∃ j, mid.sz = 10 * 3 ^ j) (hl : load_test mid.elem_cnt mid.sz = false)
    (elem : K × V) (f : Nat) (hf : mid.sz ≤ f) :
    ∃ m1, insert_loop f mid (hash_f elem.1 % mid.sz) 1 elem = some m1 ∧ Inv hash_f m1 ∧
      m1.sz = mid.sz ∧ (HasKey mid elem.1 → m1 = mid) ∧
      (¬ HasKey mid elem.1 → m1.elem_cnt = mid.elem_cnt + 1 ∧
        ∀ k v, Has m1 k v ↔ Has mid k v ∨ (k, v) = elem) := by
  have h10 : 10 ≤ mid.sz := by
    obtain ⟨j, hj⟩ := hcap
    have : 0 < 3 ^ j := by positivity
    omega
  have hroom := load_test_room hl h10
  by_cases hk : HasKey mid elem.1
  · refine ⟨mid, insert_probe_present ht (by omega) hk elem.2 f hf,
      ⟨ht.core, hcap, ht.cnt, Or.inr (load_test_false_of_le (by omega) hl)⟩, rfl,
      fun _ => rfl, fun h => absurd hk h⟩
  · obtain ⟨m1, e1, e2, e3, e4, e5⟩ := insert_probe_absent ht (by omega) hk f hf
    refine ⟨m1, e1, ⟨e4.core, by rw [e2]; exact hcap, e4.cnt, Or.inr ?_⟩, e2,
      fun h => absurd h hk, fun _ => ⟨e3, e5⟩⟩
    rw [e2, e3, Nat.add_sub_cancel]
    exact hl

/-- Total correctness of `insert` on a table satisfying the invariant. -/
theorem insert_spec {hash_f : K → Nat} {m : HashMap K V} (hinv : Inv hash_f m)
    (elem : K × V) (fuel : Nat) (hf : 3 * m.sz + 2 ≤ fuel) :
    ∃ m1, insert hash_f fuel m elem = some m1 ∧ Inv hash_f m1 ∧
      (m1.sz = if load_exceeded m = true then m.sz * 3 else m.sz) ∧
      (HasKey m elem.1 → m1.elem_cnt = m.elem_cnt ∧ (∀ k v, Has m1 k v ↔ Has m k v) ∧
        (load_exceeded m = false → m1 = m) ∧
        (load_exceeded m = true → expand hash_f (fuel - 1) m = some m1)) ∧
      (¬ HasKey m elem.1 → m1.elem_cnt = m.elem_cnt + 1 ∧
        ∀ k v, Has m1 k v ↔ Has m k v ∨ (k, v) = elem) := by
  obtain ⟨f, rfl⟩ : ∃ f, fuel = f + 1 := ⟨fuel - 1, by omega⟩
  have h10 := inv_ten hinv
  have hroom := inv_cnt_lt hinv
  by_cases hl : load_exceeded m = true
  · obtain ⟨mid, r1, r2, r3, r4⟩ := resize_spec hash_f hinv.core.uniq (m.sz * 3) f
      (by omega) (by omega) (by rw [← hinv.cnt]; omega)
      (fun c hc => by rw [← hinv.cnt] at hc; exact load_test_third (by omega))
    have hcnt : mid.elem_cnt = m.elem_cnt := by
      rw [r3.cnt, hinv.cnt]
      exact count_same hinv.core.uniq r3.core.uniq (hasKey_congr r4)
    obtain ⟨j, hj⟩ := hinv.cap
    obtain ⟨m1, e1, e2, e3, e4, e5⟩ := insert_tail r3 ⟨j + 1, by rw [r2, hj, pow_succ]; ring⟩
      (by rw [r2, hcnt]; exact load_test_third (by omega)) elem f (by rw [r2]; omega)
    have hz : mid.sz ≠ 0 := by rw [r2]; omega
    refine ⟨m1, ?_, e2, by rw [if_pos hl, e3, r2], ?_, ?_⟩
    · rw [insert_exp hash_f f m elem hl, r1]
      simp [eval_hash, hz, e1]
    · intro hk
      have := e4 ((hasKey_congr r4 elem.1).mpr hk)
      subst this
      exact ⟨hcnt, r4, fun h => by rw [hl] at h; exact absurd h (by decide), fun _ => r1⟩
    · intro hk
      obtain ⟨c1, c2⟩ := e5 (fun h => hk ((hasKey_congr r4 elem.1).mp h))
      refine ⟨by rw [c1, hcnt], fun k v => ?_⟩
      rw [c2 k v, r4 k v]
  · have hl1 : load_exceeded m = false := by
      cases h : load_exceeded m
      · rfl
      · exact absurd h hl
    obtain ⟨m1, e1, e2, e3, e4, e5⟩ := insert_tail (inv_tbl hinv) hinv.cap hl1 elem f (by omega)
    refine ⟨m1, by rw [insert_noexp hash_f f m elem hl1 (by omega), e1], e2,
      by rw [if_neg hl, e3], ?_, e5⟩
    intro hk
    have := e4 hk
    subst this
    exact ⟨rfl, fun k v => Iff.rfl, fun _ => rfl, fun h => absurd h hl⟩

theorem erase_tail {hash_f : K → Nat} {mid : HashMap K V} (ht : Tbl hash_f mid)
    (hcap : ∃ j, mid.sz = 10 * 3 ^ j)
    (hl : mid.elem_cnt = 0 ∨ load_test (mid.elem_cnt - 1) mid.sz = false)
    (key : K) (fuel : Nat) (hf : mid.sz ≤ fuel) :
    ∃ m1 b, erase_loop fuel fuel mid key (hash_f key % mid.sz) 1 = some (m1, b) ∧
      Inv hash_f m1 ∧ m1.sz = mid.sz ∧ (b = true ↔ HasKey mid key) ∧
      (∀ k v, Has m1 k v ↔ Has mid k v ∧ k ≠ key) ∧
      (HasKey mid key → m1.elem_cnt = mid.elem_cnt - 1) ∧
      (¬ HasKey mid key → m1 = mid) := by
  have hinv : Inv hash_f mid := ⟨ht.core, hcap, ht.cnt, hl⟩
  have he := tbl_empty_slot ht (by have := inv_cnt_lt hinv; omega)
  by_cases hk : HasKey mid key
  · obtain ⟨i, hi, ho, hki⟩ := hk
    subst hki
    obtain ⟨m1, e1, e2, e3, e4, e5⟩ := erase_loop_present ht.core he hi ho fuel fuel hf hf
    have hk : HasKey mid (mid.data i).elem.1 := ⟨i, hi, ho, rfl⟩
    refine ⟨m1, true, e1, ⟨e4, by rw [e2]; exact hcap, ?_, ?_⟩, e2,
      by simp [hk], e5, fun _ => e3, fun h => absurd hk h⟩
    · rw [e3, ht.cnt]
      exact (count_erase ht.core.uniq e4.uniq (hasKey_erase e5) hk).symm
    · rw [e2, e3]
      rcases hl with h0 | h1
      · exact Or.inl (by omega)
      · exact Or.inr (load_test_false_of_le (by omega) h1)
  · refine ⟨mid, false, erase_loop_absent hk he _ fuel fuel hf, hinv, rfl, by simp [hk], ?_,
      fun h => absurd h hk, fun _ => rfl⟩
    intro k v
    constructor
    · intro h
      refine ⟨h, fun e => hk ?_⟩
      rw [← e]
      exact hasKey_iff_has.mpr ⟨v, h⟩
    · exact fun h => h.1

/-- Total correctness of `erase` on a table satisfying the invariant. -/
theorem erase_spec {hash_f : K → Nat} {m : HashMap K V} (hinv : Inv hash_f m)
    (key : K) (fuel : Nat) (hf : m.sz + 1 ≤ fuel) :
    ∃ m1 b, erase hash_f fuel m key = some (m1, b) ∧ Inv hash_f m1 ∧
      (m1.sz = if 0 < m.elem_cnt ∧ m.elem_cnt * 3 * 3 + 1 < m.sz then m.sz / 3 else m.sz) ∧
      (b = true ↔ HasKey m key) ∧
      (∀ k v, Has m1 k v ↔ Has m k v ∧ k ≠ key) ∧
      (HasKey m key → m1.elem_cnt = m.elem_cnt - 1) ∧
      (¬ HasKey m key → m1.elem_cnt = m.elem_cnt ∧
        (¬ (0 < m.elem_cnt ∧ m.elem_cnt * 3 * 3 + 1 < m.sz) → m1 = m)) := by
  by_cases hs : 0 < m.elem_cnt ∧ m.elem_cnt * 3 * 3 + 1 < m.sz
  · have hsd : shrink_due m = true := by
      unfold shrink_due
      simp only [decide_eq_true_eq]
      exact hs
    obtain ⟨j, hj⟩ := hinv.cap
    obtain ⟨j1, rfl⟩ : ∃ j1, j = j1 + 1 := by
      cases j with
      | zero => rw [hj] at hs; omega
      | succ n => exact ⟨n, rfl⟩
    have hN : m.sz / 3 = 10 * 3 ^ j1 := by
      rw [hj, pow_succ]
      omega
    have hpos : 0 < 3 ^ j1 := by positivity
    have hsz3 : m.sz = 3 * (m.sz / 3) := by
      rw [hN, hj, pow_succ]
      ring
    obtain ⟨mid, r1, r2, r3, r4⟩ := resize_spec hash_f hinv.core.uniq (m.sz / 3)
      fuel (by omega) (by omega) (by rw [← hinv.cnt]; omega)
      (fun c hc => by rw [← hinv.cnt] at hc; exact load_test_third (by omega))
    have hcnt : mid.elem_cnt = m.elem_cnt := by
      rw [r3.cnt, hinv.cnt]
      exact count_same hinv.core.uniq r3.core.uniq (hasKey_congr r4)
    obtain ⟨m1, b, e1, e2, e3, e4, e5, e6, e7⟩ := erase_tail r3 ⟨j1, by rw [r2, hN]⟩
      (by rw [r2, hcnt]; exact Or.inr (load_test_third (by omega))) key fuel (by rw [r2]; omega)
    have hz : mid.sz ≠ 0 := by rw [r2]; omega
    refine ⟨m1, b, ?_, e2, by rw [if_pos hs, e3, r2], ?_, ?_, ?_, ?_⟩
    · unfold erase shrink
      rw [hsd, if_pos rfl, r1]
      simp [eval_hash, hz, e1]
    · rw [e4, hasKey_congr r4]
    · intro k v
      rw [e5 k v, r4 k v]
    · intro hk
      rw [e6 ((hasKey_congr r4 key).mpr hk), hcnt]
    · intro hk
      have := e7 (fun h => hk ((hasKey_congr r4 key).mp h))
      subst this
      exact ⟨hcnt, fun h => absurd hs h⟩
  · have hsd : shrink_due m = false := by
      unfold shrink_due
      simp only [decide_eq_false_iff_not]
      exact hs
    have h10 := inv_ten hinv
    have hz : m.sz ≠ 0 := by omega
    obtain ⟨m1, b, e1, e2, e3, e4, e5, e6, e7⟩ := erase_tail (inv_tbl hinv) hinv.cap hinv.load key
      fuel (by omega)
    refine ⟨m1, b, ?_, e2, by rw [if_neg hs, e3], e4, e5, e6, ?_⟩
    · unfold erase
      rw [hsd]
      simp [eval_hash, hz, e1]
    · intro hk
      have := e7 hk
      subst this
      exact ⟨rfl, fun _ => rfl⟩

/-! ### More fuel never changes a result -/

theorem insert_loop_mono :
    ∀ (f f1 : Nat) (m : HashMap K V) (h c : Nat) (elem : K × V) (r : HashMap K V), f ≤ f1 →
      insert_loop f m h c elem = some r → insert_loop f1 m h c elem = some r := by
  intro f
  induction f with
  | zero =>
    intro f1 m h c elem r _ hr
    exact absurd hr (by simp [insert_loop])
  | succ f ih =>
    intro f1 m h c elem r hle hr
    obtain ⟨g, rfl⟩ : ∃ g, f1 = g + 1 := ⟨f1 - 1, by omega⟩
    by_cases hd : (m.data h).dist = 0
    · rw [insert_loop_empty _ _ _ _ _ hd] at hr ⊢
      exact hr
    · by_cases hs : (m.data h).dist < c
      · rw [insert_loop_swap _ _ _ _ _ hd hs] at hr ⊢
        exact ih g _ _ _ _ r (by omega) hr
      · by_cases hk : (m.data h).dist = c ∧ elem.1 = (m.data h).elem.1
        · rw [insert_loop_dup _ _ _ _ _ hd hk.1 hk.2] at hr ⊢
          exact hr
        · rw [insert_loop_keep _ _ _ _ _ hd hs hk] at hr ⊢
          exact ih g _ _ _ _ r (by omega) hr

theorem foldlM_option_mono {α β : Type} (g g1 : β → α → Option β)
    (hg : ∀ b a r, g b a = some r → g1 b a = some r) :
    ∀ (l : List α) (init r : β), l.foldlM g init = some r → l.foldlM g1 init = some r := by
  intro l
  induction l with
  | nil => intro init r h; exact h
  | cons a l ih =>
    intro init r h
    rw [List.foldlM_cons] at h ⊢
    cases hga : g init a with
    | none => rw [hga] at h; exact absurd h (by simp)
    | some b =>
      rw [hga] at h
      rw [hg init a b hga]
      exact ih b r h

theorem resize_mono (ins ins1 : HashMap K V → K × V → Option (HashMap K V))
    (h : ∀ a e r, ins a e = some r → ins1 a e = some r) (m : HashMap K V) (n : Nat)
    (r : HashMap K V) (hr : resize ins m n = some r) : resize ins1 m n = some r := by
  unfold resize at hr ⊢
  refine foldlM_option_mono _ _ ?_ _ _ _ hr
  intro b a r1 h1
  by_cases ho : (m.data a).dist ≠ 0
  · rw [if_pos ho] at h1 ⊢
    exact h b _ r1 h1
  · rw [if_neg ho] at h1 ⊢
    exact h1

theorem insert_mono (hash_f : K → Nat) :
    ∀ (f f1 : Nat) (m : HashMap K V) (elem : K × V) (r : HashMap K V), f ≤ f1 →
      insert hash_f f m elem = some r → insert hash_f f1 m elem = some r := by
  intro f
  induction f with
  | zero =>
    intro f1 m elem r _ hr
    exact absurd hr (by simp [insert])
  | succ f ih =>
    intro f1 m elem r hle hr
    obtain ⟨g, rfl⟩ : ∃ g, f1 = g + 1 := ⟨f1 - 1, by omega⟩
    rw [insert] at hr ⊢
    rw [Option.bind_eq_some] at hr ⊢
    obtain ⟨m1, h1, h2⟩ := hr
    refine ⟨m1, ?_, ?_⟩
    · by_cases hl : load_exceeded m = true
      · rw [if_pos hl] at h1 ⊢
        exact resize_mono _ _ (fun a e r1 h => ih g a e r1 (by omega) h) m _ m1 h1
      · rw [if_neg hl] at h1 ⊢
        exact h1
    · rw [Option.bind_eq_some] at h2 ⊢
      obtain ⟨h, h3, h4⟩ := h2
      exact ⟨h, h3, insert_loop_mono f g m1 h 1 elem r (by omega) h4⟩

theorem erase_shift_mono :
    ∀ (f f1 : Nat) (m : HashMap K V) (h : Nat) (r : HashMap K V), f ≤ f1 →
      erase_shift f m h = some r → erase_shift f1 m h = some r := by
  intro f
  induction f with
  | zero =>
    intro f1 m h r _ hr
    exact absurd hr (by simp [erase_shift])
  | succ f ih =>
    intro f1 m h r hle hr
    obtain ⟨g, rfl⟩ : ∃ g, f1 = g + 1 := ⟨f1 - 1, by omega⟩
    by_cases hd : (m.data (next m.sz h)).dist ≤ 1
    · rw [erase_shift_stop _ _ _ hd] at hr ⊢
      exact hr
    · rw [erase_shift_move _ _ _ hd] at hr ⊢
      exact ih g _ _ r (by omega) hr

theorem find_pos_loop_mono :
    ∀ (f f1 : Nat) (m : HashMap K V) (key : K) (h c : Nat) (r : Nat), f ≤ f1 →
      find_pos_loop f m key h c = some r → find_pos_loop f1 m key h c = some r := by
  intro f
  induction f with
  | zero =>
    intro f1 m key h c r _ hr
    exact absurd hr (by simp [find_pos_loop])
  | succ f ih =>
    intro f1 m key h c r hle hr
    obtain ⟨g, rfl⟩ : ∃ g, f1 = g + 1 := ⟨f1 - 1, by omega⟩
    unfold find_pos_loop at hr ⊢
    by_cases h1 : (m.data h).dist < c
    · rw [if_pos h1] at hr ⊢
      exact hr
    · rw [if_neg h1] at hr ⊢
      by_cases h2 : (m.data h).elem.1 = key
      · rw [if_pos h2] at hr ⊢
        exact hr
      · rw [if_neg h2] at hr ⊢
        exact ih g m key _ _ r (by omega) hr

theorem erase_loop_mono (s s1 : Nat) (hs : s ≤ s1) :
    ∀ (f f1 : Nat) (m : HashMap K V) (key : K) (h c : Nat) (r : HashMap K V × Bool), f ≤ f1 →
      erase_loop s f m key h c = some r → erase_loop s1 f1 m key h c = some r := by
  intro f
  induction f with
  | zero =>
    intro f1 m key h c r _ hr
    exact absurd hr (by simp [erase_loop])
  | succ f ih =>
    intro f1 m key h c r hle hr
    obtain ⟨g, rfl⟩ : ∃ g, f1 = g + 1 := ⟨f1 - 1, by omega⟩
    unfold erase_loop at hr ⊢
    by_cases h1 : (m.data h).dist < c
    · rw [if_pos h1] at hr ⊢
      exact hr
    · rw [if_neg h1] at hr ⊢
      by_cases h2 : (m.data h).elem.1 = key
      · rw [if_pos h2] at hr ⊢
        rw [Option.map_eq_some'] at hr ⊢
        obtain ⟨m2, e1, e2⟩ := hr
        exact ⟨m2, erase_shift_mono s s1 _ _ m2 hs e1, e2⟩
      · rw [if_neg h2] at hr ⊢
        exact ih g m key _ _ r (by omega) hr

theorem erase_mono (hash_f : K → Nat) (f f1 : Nat) (m : HashMap K V) (key : K)
    (r : HashMap K V × Bool) (hle : f ≤ f1) (hr : erase hash_f f m key = some r) :
    erase hash_f f1 m key = some r := by
  unfold erase at hr ⊢
  rw [Option.bind_eq_some] at hr ⊢
  obtain ⟨m1, h1, h2⟩ := hr
  refine ⟨m1, ?_, ?_⟩
  · by_cases hl : shrink_due m = true
    · rw [if_pos hl] at h1 ⊢
      exact resize_mono _ _ (fun a e r1 h => insert_mono hash_f f f1 a e r1 hle h) m _ m1 h1
    · rw [if_neg hl] at h1 ⊢
      exact h1
  · rw [Option.bind_eq_some] at h2 ⊢
    obtain ⟨h, h3, h4⟩ := h2
    exact ⟨h, h3, erase_loop_mono f f1 hle f f1 m1 key h 1 r hle h4⟩

theorem find_pos_mono (hash_f : K → Nat) (f f1 : Nat) (m : HashMap K V) (key : K)
    (r : Nat) (hle : f ≤ f1) (hr : find_pos hash_f f m key = some r) :
    find_pos hash_f f1 m key = some r := by
  unfold find_pos at hr ⊢
  rw [Option.bind_eq_some] at hr ⊢
  obtain ⟨h, h1, h2⟩ := hr
  exact ⟨h, h1, find_pos_loop_mono f f1 m key h 1 r hle h2⟩

theorem operator_index_mono (hash_f : K → Nat) (f f1 : Nat) (m : HashMap K V) (key : K)
    (r : HashMap K V × Nat) (hle : f ≤ f1) (hr : operator_index hash_f f m key = some r) :
    operator_index hash_f f1 m key = some r := by
  unfold operator_index at hr ⊢
  rw [Option.bind_eq_some] at hr ⊢
  obtain ⟨pos, h1, h2⟩ := hr
  refine ⟨pos, find_pos_mono hash_f f f1 m key pos hle h1, ?_⟩
  rw [Option.bind_eq_some] at h2 ⊢
  obtain ⟨m1, h3, h4⟩ := h2
  refine ⟨m1, ?_, ?_⟩
  · by_cases hp : pos = m.sz
    · rw [if_pos hp] at h3 ⊢
      exact insert_mono hash_f f f1 m _ m1 hle h3
    · rw [if_neg hp] at h3 ⊢
      exact h3
  · rw [Option.map_eq_some'] at h4 ⊢
    obtain ⟨p1, h5, h6⟩ := h4
    exact ⟨p1, find_pos_mono hash_f f f1 m1 key p1 hle h5, h6⟩

/-! ### Lookup on tables satisfying the invariant -/

theorem find_pos_present {hash_f : K → Nat} {m : HashMap K V} (hinv : Inv hash_f m) {i : Nat}
    (hi : i < m.sz) (ho : (m.data i).dist ≠ 0) (fuel : Nat) (hf : m.sz ≤ fuel) :
    find_pos hash_f fuel m (m.data i).elem.1 = some i := by
  have h10 := inv_ten hinv
  have hlt := inv_cnt_lt hinv
  have he := tbl_empty_slot (inv_tbl hinv) (by omega)
  have hdl := dist_le_sz hinv.core he hi
  have := find_pos_loop_present hinv.core he hi ho ((m.data i).dist - 1) 0 fuel (by omega)
    (by omega)
  rw [Nat.add_zero] at this
  have hz : m.sz ≠ 0 := by omega
  simp [find_pos, eval_hash, hz, this]

theorem find_pos_absent {hash_f : K → Nat} {m : HashMap K V} (hinv : Inv hash_f m) {key : K}
    (hk : ¬ HasKey m key) (fuel : Nat) (hf : m.sz ≤ fuel) :
    find_pos hash_f fuel m key = some m.sz := by
  have h10 := inv_ten hinv
  have hlt := inv_cnt_lt hinv
  obtain ⟨e, he1, he2⟩ := tbl_empty_slot (inv_tbl hinv) (by omega)
  have h0 : 0 < m.sz := by omega
  obtain ⟨t, ht, hte⟩ := exists_offset (Nat.mod_lt (hash_f key) h0) he1
  have := find_pos_loop_absent hk t _ 1 fuel (Nat.mod_lt (hash_f key) h0) (le_refl 1)
    (by rw [hte]; exact he2) (by omega)
  have hz : m.sz ≠ 0 := by omega
  simp [find_pos, eval_hash, hz, this]

theorem at_present {hash_f : K → Nat} {m : HashMap K V} (hinv : Inv hash_f m) {k : K} {v : V}
    (h : Has m k v) (fuel : Nat) (hf : m.sz ≤ fuel) :
    at' hash_f fuel m k = some (Except.ok v) := by
  obtain ⟨i, hi, ho, he⟩ := h
  have h1 := find_pos_present hinv hi ho fuel hf
  rw [he] at h1
  have hne : i ≠ m.sz := by omega
  simp [at', h1, hne, he]

theorem at_absent {hash_f : K → Nat} {m : HashMap K V} (hinv : Inv hash_f m) {k : K}
    (h : ¬ HasKey m k) (fuel : Nat) (hf : m.sz ≤ fuel) :
    at' hash_f fuel m k = some (Except.error ()) := by
  simp [at', find_pos_absent hinv h fuel hf]

/-! ### Results for any fuel, and the invariant on reachable tables -/

theorem insert_inv {hash_f : K → Nat} {m m1 : HashMap K V} (hinv : Inv hash_f m)
    {elem : K × V} {fuel : Nat} (h : insert hash_f fuel m elem = some m1) : Inv hash_f m1 := by
  obtain ⟨m2, e1, e2, _⟩ := insert_spec hinv elem (max fuel (3 * m.sz + 2)) (le_max_right _ _)
  have := insert_mono hash_f fuel (max fuel (3 * m.sz + 2)) m elem m1 (le_max_left _ _) h
  rw [e1] at this
  cases this
  exact e2

theorem erase_inv {hash_f : K → Nat} {m m1 : HashMap K V} (hinv : Inv hash_f m)
    {key : K} {b : Bool} {fuel : Nat} (h : erase hash_f fuel m key = some (m1, b)) :
    Inv hash_f m1 := by
  obtain ⟨m2, b2, e1, e2, _⟩ := erase_spec hinv key (max fuel (m.sz + 1)) (le_max_right _ _)
  have := erase_mono hash_f fuel (max fuel (m.sz + 1)) m key (m1, b) (le_max_left _ _) h
  rw [e1] at this
  cases this
  exact e2

theorem operator_index_inv {hash_f : K → Nat} {m m1 : HashMap K V} (hinv : Inv hash_f m)
    {key : K} {pos : Nat} {fuel : Nat} (h : operator_index hash_f fuel m key = some (m1, pos)) :
    Inv hash_f m1 := by
  unfold operator_index at h
  rw [Option.bind_eq_some] at h
  obtain ⟨p, _, h2⟩ := h
  rw [Option.bind_eq_some] at h2
  obtain ⟨m2, h3, h4⟩ := h2
  rw [Option.map_eq_some'] at h4
  obtain ⟨p1, _, h6⟩ := h4
  cases h6
  by_cases hp : p = m.sz
  · rw [if_pos hp] at h3
    exact insert_inv hinv h3
  · rw [if_neg hp] at h3
    cases h3
    exact hinv

theorem reachableIdx_inv {hash_f : K → Nat} {m : HashMap K V} (h : ReachableIdx hash_f m) :
    Inv hash_f m := by
  induction h with
  | init => exact inv_clear hash_f
  | insert fuel elem _ h ih => exact insert_inv ih h
  | erase fuel key b _ h ih => exact erase_inv ih h
  | index fuel key pos _ h ih => exact operator_index_inv ih h

theorem reachable_idx {hash_f : K → Nat} {m : HashMap K V} (h : Reachable hash_f m) :
    ReachableIdx hash_f m := by
  induction h with
  | init => exact ReachableIdx.init
  | insert fuel elem _ h ih => exact ReachableIdx.insert fuel elem ih h
  | erase fuel key b _ h ih => exact ReachableIdx.erase fuel key b ih h

theorem reachable_inv {hash_f : K → Nat} {m : HashMap K V} (h : Reachable hash_f m) :
    Inv hash_f m :=
  reachableIdx_inv (reachable_idx h)

/-! ### Iteration -/

theorem go_to_nearest_ge (m : HashMap K V) {idx : Nat} (h : m.sz ≤ idx) :
    go_to_nearest m idx = m.sz := by
  unfold go_to_nearest
  simp [h, go_to_nearest_loop]

theorem go_to_nearest_occ (m : HashMap K V) {idx : Nat} (h : idx < m.sz)
    (ho : (m.data idx).dist ≠ 0) : go_to_nearest m idx = idx := by
  unfold go_to_nearest
  have h1 : ¬ idx ≥ m.sz := by omega
  obtain ⟨f, hf⟩ : ∃ f, m.sz - idx = f + 1 := ⟨m.sz - idx - 1, by omega⟩
  simp only [h1, if_false, hf, go_to_nearest_loop, ho, and_false]

theorem go_to_nearest_skip (m : HashMap K V) {idx : Nat} (h : idx < m.sz)
    (ho : (m.data idx).dist = 0) : go_to_nearest m idx = go_to_nearest m (idx + 1) := by
  unfold go_to_nearest
  have h1 : ¬ idx ≥ m.sz := by omega
  obtain ⟨f, hf⟩ : ∃ f, m.sz - idx = f + 1 := ⟨m.sz - idx - 1, by omega⟩
  simp only [h1, if_false, hf, go_to_nearest_loop, ho, h, and_self, if_true]
  by_cases h2 : idx + 1 ≥ m.sz
  · have h3 : f = 0 := by omega
    have h4 : idx + 1 = m.sz := by omega
    simp [h2, h3, h4, go_to_nearest_loop]
  · have h3 : m.sz - (idx + 1) = f := by omega
    simp only [h2, if_false, h3]

theorem iter_end_eq (m : HashMap K V) : iter_end m = m.sz :=
  go_to_nearest_ge m (le_refl _)

theorem walk_spec (m : HashMap K V) :
    ∀ (n idx fuel : Nat), idx + n = m.sz → n < fuel →
      walk m fuel (go_to_nearest m idx) =
        some ((List.range' idx n).filter fun i => decide ((m.data i).dist ≠ 0)) := by
  intro n
  induction n with
  | zero =>
    intro idx fuel hn hf
    obtain ⟨f, rfl⟩ : ∃ f, fuel = f + 1 := ⟨fuel - 1, by omega⟩
    rw [go_to_nearest_ge m (by omega), walk, iter_end_eq, if_pos rfl]
    rfl
  | succ n ih =>
    intro idx fuel hn hf
    obtain ⟨f, rfl⟩ : ∃ f, fuel = f + 1 := ⟨fuel - 1, by omega⟩
    by_cases ho : (m.data idx).dist = 0
    · rw [go_to_nearest_skip m (by omega) ho, ih (idx + 1) (f + 1) (by omega) (by omega),
        List.range'_succ, List.filter_cons_of_neg (by simp [ho])]
    · rw [go_to_nearest_occ m (by omega) ho, walk, iter_end_eq, if_neg (by omega)]
      unfold iter_incr
      rw [ih (idx + 1) f (by omega) (by omega), List.range'_succ,
        List.filter_cons_of_pos (by simp [ho])]
      rfl

/-- Iterating `begin()..end()` visits exactly the occupied slots, in index order. -/
theorem walk_begin (m : HashMap K V) (fuel : Nat) (hf : m.sz < fuel) :
    walk m fuel (iter_begin m) = some (occList m) := by
  unfold iter_begin iterator
  rw [walk_spec m m.sz 0 fuel (by omega) hf, occList, List.range_eq_range']

theorem entries_eq (m : HashMap K V) (fuel : Nat) (hf : m.sz < fuel) :
    entries fuel m = some ((occList m).map fun i => (m.data i).elem) := by
  unfold entries
  rw [walk_begin m fuel hf]
  rfl

theorem mem_entries {m : HashMap K V} {k : K} {v : V} :
    (k, v) ∈ (occList m).map (fun i => (m.data i).elem) ↔ Has m k v := by
  unfold Has
  simp only [List.mem_map, mem_occList]
  constructor
  · rintro ⟨i, ⟨hi, ho⟩, he⟩
    exact ⟨i, hi, ho, he⟩
  · rintro ⟨i, hi, ho, he⟩
    exact ⟨i, ⟨hi, ho⟩, he⟩

theorem entries_keys_nodup {m : HashMap K V} (hu : UniqueKeys m) :
    (((occList m).map fun i => (m.data i).elem).map Prod.fst).Nodup := by
  rw [List.map_map]
  exact keys_nodup hu

/-! ### Specifications that hold for any fuel that gives a result -/

theorem insert_any {hash_f : K → Nat} {m m1 : HashMap K V} (hinv : Inv hash_f m)
    {elem : K × V} {fuel : Nat} (h : insert hash_f fuel m elem = some m1) :
    Inv hash_f m1 ∧
      (HasKey m elem.1 → m1.elem_cnt = m.elem_cnt ∧ ∀ k v, Has m1 k v ↔ Has m k v) ∧
      (¬ HasKey m elem.1 → m1.elem_cnt = m.elem_cnt + 1 ∧
        ∀ k v, Has m1 k v ↔ Has m k v ∨ (k, v) = elem) := by
  obtain ⟨m2, e1, e2, _, e4, e5⟩ :=
    insert_spec hinv elem (max fuel (3 * m.sz + 2)) (le_max_right _ _)
  have := insert_mono hash_f fuel (max fuel (3 * m.sz + 2)) m elem m1 (le_max_left _ _) h
  rw [e1] at this
  cases this
  exact ⟨e2, fun hk => ⟨(e4 hk).1, (e4 hk).2.1⟩, e5⟩

theorem erase_any {hash_f : K → Nat} {m m1 : HashMap K V} (hinv : Inv hash_f m)
    {key : K} {b : Bool} {fuel : Nat} (h : erase hash_f fuel m key = some (m1, b)) :
    Inv hash_f m1 ∧ (b = true ↔ HasKey m key) ∧ ∀ k v, Has m1 k v ↔ Has m k v ∧ k ≠ key := by
  obtain ⟨m2, b2, e1, e2, _, e4, e5, _⟩ :=
    erase_spec hinv key (max fuel (m.sz + 1)) (le_max_right _ _)
  have := erase_mono hash_f fuel (max fuel (m.sz + 1)) m key (m1, b) (le_max_left _ _) h
  rw [e1] at this
  cases this
  exact ⟨e2, e4, e5⟩

/-! ### Sequences of calls and the abstract map -/

theorem run_nil (hash_f : K → Nat) (fuel : Nat) (m : HashMap K V) :
    run hash_f fuel [] m = some m :=
  rfl

theorem run_cons (hash_f : K → Nat) (fuel : Nat) (op : Op K V) (ops : List (Op K V))
    (m : HashMap K V) :
    run hash_f fuel (op :: ops) m = (apply_op hash_f fuel m op).bind (run hash_f fuel ops) := by
  unfold run
  rw [List.foldlM_cons]
  rfl

theorem run_append (hash_f : K → Nat) (fuel : Nat) (l1 l2 : List (Op K V)) (m : HashMap K V) :
    run hash_f fuel (l1 ++ l2) m = (run hash_f fuel l1 m).bind (run hash_f fuel l2) := by
  unfold run
  rw [List.foldlM_append]
  rfl

theorem apply_op_mono (hash_f : K → Nat) (f f1 : Nat) (hle : f ≤ f1) (m : HashMap K V)
    (op : Op K V) (r : HashMap K V) (h : apply_op hash_f f m op = some r) :
    apply_op hash_f f1 m op = some r := by
  cases op with
  | ins elem => exact insert_mono hash_f f f1 m elem r hle h
  | del key =>
    unfold apply_op at h ⊢
    rw [Option.map_eq_some'] at h ⊢
    obtain ⟨x, h1, h2⟩ := h
    exact ⟨x, erase_mono hash_f f f1 m key x hle h1, h2⟩

theorem run_mono (hash_f : K → Nat) (f f1 : Nat) (hle : f ≤ f1) (ops : List (Op K V))
    (m r : HashMap K V) (h : run hash_f f ops m = some r) : run hash_f f1 ops m = some r :=
  foldlM_option_mono _ _ (fun b a r1 h1 => apply_op_mono hash_f f f1 hle b a r1 h1) ops m r h

theorem apply_op_total {hash_f : K → Nat} {m : HashMap K V} (hinv : Inv hash_f m)
    (op : Op K V) (fuel : Nat) (hf : 3 * m.sz + 2 ≤ fuel) :
    ∃ m1, apply_op hash_f fuel m op = some m1 := by
  cases op with
  | ins elem =>
    obtain ⟨m1, e1, _⟩ := insert_spec hinv elem fuel hf
    exact ⟨m1, e1⟩
  | del key =>
    obtain ⟨m1, b, e1, _⟩ := erase_spec hinv key fuel (by omega)
    exact ⟨m1, by simp [apply_op, e1]⟩

theorem apply_op_inv {hash_f : K → Nat} {m m1 : HashMap K V} (hinv : Inv hash_f m)
    {op : Op K V} {fuel : Nat} (h : apply_op hash_f fuel m op = some m1) : Inv hash_f m1 := by
  cases op with
  | ins elem => exact insert_inv hinv h
  | del key =>
    unfold apply_op at h
    rw [Option.map_eq_some'] at h
    obtain ⟨⟨m2, b⟩, h1, h2⟩ := h
    cases h2
    exact erase_inv hinv h1

theorem agrees_insert {m m1 : HashMap K V} {a : K → Option V} {elem : K × V}
    (hag : Agrees m a)
    (h1 : HasKey m elem.1 → ∀ k v, Has m1 k v ↔ Has m k v)
    (h2 : ¬ HasKey m elem.1 → ∀ k v, Has m1 k v ↔ Has m k v ∨ (k, v) = elem) :
    Agrees m1 (abs_insert a elem) := by
  intro k v
  unfold abs_insert
  by_cases hk : HasKey m elem.1
  · obtain ⟨w, hw⟩ := hasKey_iff_has.mp hk
    have : (a elem.1).isSome = true := by rw [(hag _ _).mp hw]; rfl
    rw [if_pos this, h1 hk k v]
    exact hag k v
  · have : ¬ (a elem.1).isSome = true := by
      intro hs
      obtain ⟨w, hw⟩ := Option.isSome_iff_exists.mp hs
      exact hk (hasKey_iff_has.mpr ⟨w, (hag _ _).mpr hw⟩)
    rw [if_neg this, h2 hk k v]
    by_cases hke : k = elem.1
    · subst hke
      rw [Function.update_same]
      constructor
      · rintro (h | h)
        · exact absurd (hasKey_iff_has.mpr ⟨v, h⟩) hk
        · rw [← h]
      · intro h
        right
        have := Option.some.inj h
        rw [← this]
    · rw [Function.update_noteq hke]
      constructor
      · rintro (h | h)
        · exact (hag k v).mp h
        · exact absurd (by rw [← h]) hke
      · intro h
        exact Or.inl ((hag k v).mpr h)

theorem agrees_erase {m m1 : HashMap K V} {a : K → Option V} {key : K}
    (hag : Agrees m a) (h1 : ∀ k v, Has m1 k v ↔ Has m k v ∧ k ≠ key) :
    Agrees m1 (abs_erase a key) := by
  intro k v
  unfold abs_erase
  rw [h1 k v]
  by_cases hke : k = key
  · subst hke
    rw [Function.update_same]
    simp
  · rw [Function.update_noteq hke]
    constructor
    · exact fun h => (hag k v).mp h.1
    · exact fun h => ⟨(hag k v).mpr h, hke⟩

theorem apply_op_agrees {hash_f : K → Nat} {m m1 : HashMap K V} (hinv : Inv hash_f m)
    {a : K → Option V} (hag : Agrees m a) {op : Op K V} {fuel : Nat}
    (h : apply_op hash_f fuel m op = some m1) : Inv hash_f m1 ∧ Agrees m1 (abs_op a op) := by
  cases op with
  | ins elem =>
    obtain ⟨e1, e2, e3⟩ := insert_any hinv h
    exact ⟨e1, agrees_insert hag (fun hk => (e2 hk).2) (fun hk => (e3 hk).2)⟩
  | del key =>
    unfold apply_op at h
    rw [Option.map_eq_some'] at h
    obtain ⟨⟨m2, b⟩, h1, h2⟩ := h
    cases h2
    obtain ⟨e1, _, e3⟩ := erase_any hinv h1
    exact ⟨e1, agrees_erase hag e3⟩

theorem run_agrees {hash_f : K → Nat} :
    ∀ (ops : List (Op K V)) (m m1 : HashMap K V) (a : K → Option V) (fuel : Nat),
      Inv hash_f m → Agrees m a → run hash_f fuel ops m = some m1 →
      Inv hash_f m1 ∧ Agrees m1 (abs_run ops a) := by
  intro ops
  induction ops with
  | nil =>
    intro m m1 a fuel hinv hag h
    cases h
    exact ⟨hinv, hag⟩
  | cons op ops ih =>
    intro m m1 a fuel hinv hag h
    rw [run_cons, Option.bind_eq_some] at h
    obtain ⟨m2, h1, h2⟩ := h
    obtain ⟨i2, a2⟩ := apply_op_agrees hinv hag h1
    exact ih m2 m1 (abs_op a op) fuel i2 a2 h2

theorem run_total {hash_f : K → Nat} :
    ∀ (ops : List (Op K V)) (m : HashMap K V), Inv hash_f m →
      ∃ F m1, ∀ fuel, F ≤ fuel → run hash_f fuel ops m = some m1 := by
  intro ops
  induction ops with
  | nil =>
    intro m _
    exact ⟨0, m, fun fuel _ => rfl⟩
  | cons op ops ih =>
    intro m hinv
    obtain ⟨m2, h2⟩ := apply_op_total hinv op (3 * m.sz + 2) (le_refl _)
    have i2 := apply_op_inv hinv h2
    obtain ⟨F, m1, hF⟩ := ih m2 i2
    refine ⟨max F (3 * m.sz + 2), m1, fun fuel hf => ?_⟩
    rw [run_cons, apply_op_mono hash_f _ fuel (by omega) m op m2 h2]
    exact hF fuel (by omega)

/-! ### Auxiliary facts for the contract theorems -/

theorem run_reachable {hash_f : K → Nat} :
    ∀ (ops : List (Op K V)) (m m1 : HashMap K V) (fuel : Nat),
      Reachable hash_f m → run hash_f fuel ops m = some m1 → Reachable hash_f m1 := by
  intro ops
  induction ops with
  | nil =>
    intro m m1 fuel hr h
    cases h
    exact hr
  | cons op ops ih =>
    intro m m1 fuel hr h
    rw [run_cons, Option.bind_eq_some] at h
    obtain ⟨m2, h1, h2⟩ := h
    refine ih m2 m1 fuel ?_ h2
    cases op with
    | ins elem => exact Reachable.insert fuel elem hr h1
    | del key =>
      unfold apply_op at h1
      rw [Option.map_eq_some'] at h1
      obtain ⟨⟨m3, b⟩, h3, h4⟩ := h1
      cases h4
      exact Reachable.erase fuel key b hr h3

theorem some_getD_of_isSome {α : Type} (o : Option α) (d : α) (h : o.isSome = true) :
    o = some (o.getD d) := by
  cases o with
  | none => exact absurd h (by simp)
  | some x => rfl

theorem reachable_run_getD (hash_f : K → Nat) (fuel : Nat) (ops : List (Op K V)) :
    Reachable hash_f ((run hash_f fuel ops clear).getD clear) := by
  cases h : run hash_f fuel ops (clear : HashMap K V) with
  | none => exact Reachable.init
  | some m => exact run_reachable ops clear m fuel Reachable.init h

theorem hasKey_of_has {m : HashMap K V} {k : K} {v : V} (h : Has m k v) : HasKey m k :=
  hasKey_iff_has.mpr ⟨v, h⟩

theorem count_pos_of_hasKey {hash_f : K → Nat} {m : HashMap K V} (hinv : Inv hash_f m) {k : K}
    (hk : HasKey m k) : 1 ≤ m.elem_cnt := by
  obtain ⟨i, hi, ho, _⟩ := hk
  rw [hinv.cnt]
  exact List.length_pos_of_mem (mem_occList.mpr ⟨hi, ho⟩)

theorem find_present {hash_f : K → Nat} {m : HashMap K V} (hinv : Inv hash_f m) {k : K} {v : V}
    (h : Has m k v) (fuel : Nat) (hf : m.sz ≤ fuel) :
    (find hash_f fuel m k).map (deref_opt m) = some (some (k, v)) := by
  obtain ⟨i, hi, ho, he⟩ := h
  have h1 := find_pos_present hinv hi ho fuel hf
  rw [he] at h1
  have hne : i ≠ m.sz := by omega
  simp [find, h1, iterator, go_to_nearest_occ m hi ho, deref_opt, iter_end_eq, hne, iter_deref,
    he]

theorem find_absent {hash_f : K → Nat} {m : HashMap K V} (hinv : Inv hash_f m) {k : K}
    (h : ¬ HasKey m k) (fuel : Nat) (hf : m.sz ≤ fuel) :
    find hash_f fuel m k = some (iter_end m) ∧
      (find hash_f fuel m k).map (deref_opt m) = some none := by
  have h1 := find_pos_absent hinv h fuel hf
  constructor
  · simp [find, h1, iter_end]
  · simp [find, h1, iterator, go_to_nearest_ge m (le_refl _), deref_opt, iter_end_eq]

/-- Two tables with the same pairs answer `at` and `find` alike. -/
theorem lookup_congr {hash_f : K → Nat} {m m1 : HashMap K V} (hinv : Inv hash_f m)
    (hinv1 : Inv hash_f m1) (k : K) (h : ∀ v, Has m1 k v ↔ Has m k v) (fuel : Nat)
    (hf : m.sz ≤ fuel) (hf1 : m1.sz ≤ fuel) :
    at' hash_f fuel m1 k = at' hash_f fuel m k ∧
      (find hash_f fuel m1 k).map (deref_opt m1) = (find hash_f fuel m k).map (deref_opt m) := by
  by_cases hk : HasKey m k
  · obtain ⟨v, hv⟩ := hasKey_iff_has.mp hk
    have hv1 := (h v).mpr hv
    rw [at_present hinv hv fuel hf, at_present hinv1 hv1 fuel hf1,
      find_present hinv hv fuel hf, find_present hinv1 hv1 fuel hf1]
    exact ⟨rfl, rfl⟩
  · have hk1 : ¬ HasKey m1 k := by
      intro hx
      obtain ⟨v, hv⟩ := hasKey_iff_has.mp hx
      exact hk (hasKey_of_has ((h v).mp hv))
    rw [at_absent hinv hk fuel hf, at_absent hinv1 hk1 fuel hf1,
      (find_absent hinv hk fuel hf).2, (find_absent hinv1 hk1 fuel hf1).2]
    exact ⟨rfl, rfl⟩

theorem erase_sz_le {m m1 : HashMap K V}
    (h : m1.sz = if 0 < m.elem_cnt ∧ m.elem_cnt * 3 * 3 + 1 < m.sz then m.sz / 3 else m.sz) :
    m1.sz ≤ m.sz := by
  split at h <;> omega

theorem insert_sz_le {m m1 : HashMap K V}
    (h : m1.sz = if load_exceeded m = true then m.sz * 3 else m.sz) :
    m1.sz ≤ 3 * m.sz := by
  split at h <;> omega

/-! ### Contract theorems -/

theorem run_keeps {hash_f : K → Nat} {k : K} {v : V} :
    ∀ (ops : List (Op K V)) (m m1 : HashMap K V) (fuel : Nat),
      Inv hash_f m → Has m k v → (∀ op ∈ ops, op ≠ Op.del k) →
      run hash_f fuel ops m = some m1 → Inv hash_f m1 ∧ Has m1 k v := by
  intro ops
  induction ops with
  | nil =>
    intro m m1 fuel hinv hh _ h
    cases h
    exact ⟨hinv, hh⟩
  | cons op ops ih =>
    intro m m1 fuel hinv hh hno h
    rw [run_cons, Option.bind_eq_some] at h
    obtain ⟨m2, h1, h2⟩ := h
    have hno1 : ∀ op1 ∈ ops, op1 ≠ Op.del k := fun op1 ho => hno op1 (List.mem_cons_of_mem _ ho)
    have hop := hno op (List.mem_cons_self _ _)
    cases op with
    | ins elem =>
      obtain ⟨e1, e2, e3⟩ := insert_any hinv h1
      refine ih m2 m1 fuel e1 ?_ hno1 h2
      by_cases hk : HasKey m elem.1
      · exact ((e2 hk).2 k v).mpr hh
      · exact ((e3 hk).2 k v).mpr (Or.inl hh)
    | del key =>
      unfold apply_op at h1
      rw [Option.map_eq_some'] at h1
      obtain ⟨⟨m3, b⟩, h3, h4⟩ := h1
      have h5 : m3 = m2 := h4
      subst h5
      obtain ⟨e1, _, e3⟩ := erase_any hinv h3
      refine ih m3 m1 fuel e1 ?_ hno1 h2
      exact (e3 k v).mpr ⟨hh, fun e => hop (by rw [e])⟩

/-- C1. Round trip: for every sequence of `insert`/`erase` calls on a freshly
constructed table, if `k` was inserted with value `v` at a moment when no occupied slot
held `k` (after the calls `pre`) and `k` is not erased afterwards (by the calls `post`),
then with enough fuel the whole sequence returns, `at(k)` returns `v` without raising,
and `operator[](k)` leaves the table as it is and designates a slot whose value is `v`. -/
theorem C1_round_trip (hash_f : K → Nat) (pre post : List (Op K V)) (k : K) (v : V)
    (fuel0 : Nat) (m0 : HashMap K V) (hpre : run hash_f fuel0 pre clear = some m0)
    (habs : ¬ HasKey m0 k) (hpost : ∀ op ∈ post, op ≠ Op.del k) :
    ∃ F, ∀ fuel, F ≤ fuel → ∃ m,
      run hash_f fuel (pre ++ Op.ins (k, v) :: post) clear = some m ∧
      at' hash_f fuel m k = some (Except.ok v) ∧
      ∃ pos, operator_index hash_f fuel m k = some (m, pos) ∧ (m.data pos).elem.2 = v := by
  have hinv0 : Inv hash_f m0 := reachable_inv (run_reachable pre clear m0 fuel0 Reachable.init hpre)
  obtain ⟨m1, i1, inv1, _, _, i5⟩ := insert_spec hinv0 (k, v) (3 * m0.sz + 2) (le_refl _)
  have has1 : Has m1 k v := ((i5 habs).2 k v).mpr (Or.inr rfl)
  obtain ⟨F, m2, hF⟩ := run_total post m1 inv1
  obtain ⟨inv2, has2⟩ := run_keeps post m1 m2 F inv1 has1 hpost (hF F (le_refl _))
  refine ⟨max (max fuel0 (3 * m0.sz + 2)) (max F m2.sz), fun fuel hf => ⟨m2, ?_, ?_, ?_⟩⟩
  · rw [run_append, run_mono hash_f fuel0 fuel (by omega) pre clear m0 hpre, Option.some_bind,
      run_cons]
    have : apply_op hash_f fuel m0 (Op.ins (k, v)) = some m1 :=
      insert_mono hash_f (3 * m0.sz + 2) fuel m0 (k, v) m1 (by omega) i1
    rw [this, Option.some_bind]
    exact hF fuel (by omega)
  · exact at_present inv2 has2 fuel (by omega)
  · obtain ⟨i, hi, ho, he⟩ := has2
    have hfp := find_pos_present inv2 hi ho fuel (by omega)
    rw [he] at hfp
    have hne : i ≠ m2.sz := by omega
    refine ⟨i, ?_, by rw [he]⟩
    simp [operator_index, hfp, hne]

/-- Instance of C1: after `insert (3,7); erase 3` the key `3` is absent; it is then
inserted with value `8` and followed by `insert (3,9); erase 4`. -/
theorem C1_round_trip_witness :
    run id 40 [Op.ins (3, 7), Op.del 3] (clear : HashMap Nat Nat) =
        some ((run id 40 [Op.ins (3, 7), Op.del 3] (clear : HashMap Nat Nat)).getD clear) ∧
      ¬ HasKey ((run id 40 [Op.ins (3, 7), Op.del 3] (clear : HashMap Nat Nat)).getD clear) 3 ∧
      (∀ op ∈ [Op.ins (3, 9), Op.del 4], op ≠ (Op.del 3 : Op Nat Nat)) ∧
      ∃ F, ∀ fuel, F ≤ fuel → ∃ m,
        run id fuel ([Op.ins (3, 7), Op.del 3] ++ Op.ins (3, 8) :: [Op.ins (3, 9), Op.del 4])
          (clear : HashMap Nat Nat) = some m ∧
        at' id fuel m 3 = some (Except.ok 8) ∧
        ∃ pos, operator_index id fuel m 3 = some (m, pos) ∧ (m.data pos).elem.2 = 8 :=
  have h1 := some_getD_of_isSome
    (run id 40 [Op.ins (3, 7), Op.del 3] (clear : HashMap Nat Nat)) clear (by decide)
  have h2 : ¬ HasKey
      ((run id 40 [Op.ins (3, 7), Op.del 3] (clear : HashMap Nat Nat)).getD clear) 3 := by
    decide
  have h3 : ∀ op ∈ [Op.ins (3, 9), Op.del 4], op ≠ (Op.del 3 : Op Nat Nat) := by
    intro op hop
    simp only [List.mem_cons, List.mem_singleton, List.not_mem_nil, or_false] at hop
    rcases hop with rfl | rfl <;> simp
  ⟨h1, h2, h3, C1_round_trip id _ _ 3 8 40 _ h1 h2 h3⟩


/-- C2. Insert does not overwrite: on every reachable table in which `k` is stored with
value `v1`, `insert((k, v2))` returns (given enough fuel), `at(k)` still returns `v1`
and `size()` is unchanged.  Scenario: inserting `(a,x1)`, `(b,x2)`, `(a,x3)` with
`a ≠ b` into an empty table gives `size() == 2`, `at(a) == x1` and `at(b) == x2`. -/
theorem C2_insert_no_overwrite (hash_f : K → Nat) :
    (∀ (m : HashMap K V), Reachable hash_f m → ∀ (k : K) (v1 : V), Has m k v1 →
      ∀ (v2 : V) (fuel : Nat), 3 * m.sz + 2 ≤ fuel →
      ∃ m1, insert hash_f fuel m (k, v2) = some m1 ∧
        at' hash_f fuel m1 k = some (Except.ok v1) ∧ size m1 = size m) ∧
    (∀ (a b : K) (x1 x2 x3 : V), a ≠ b → ∀ fuel, 32 ≤ fuel →
      ∃ m1 m2 m3 : HashMap K V, insert hash_f fuel clear (a, x1) = some m1 ∧
        insert hash_f fuel m1 (b, x2) = some m2 ∧ insert hash_f fuel m2 (a, x3) = some m3 ∧
        size m3 = 2 ∧ at' hash_f fuel m3 a = some (Except.ok x1) ∧
        at' hash_f fuel m3 b = some (Except.ok x2)) := by
  constructor
  · intro m hr k v1 hh v2 fuel hf
    obtain ⟨m1, e1, e2, e3, e4, _⟩ := insert_spec (reachable_inv hr) (k, v2) fuel hf
    obtain ⟨c1, c2, _⟩ := e4 (hasKey_of_has hh)
    have := insert_sz_le e3
    exact ⟨m1, e1, at_present e2 ((c2 k v1).mpr hh) fuel (by omega), c1⟩
  · intro a b x1 x2 x3 hab fuel hf
    have inv0 : Inv hash_f (clear : HashMap K V) := inv_clear hash_f
    have hk0 : ∀ k, ¬ HasKey (clear : HashMap K V) k := by
      rintro k ⟨i, _, ho, _⟩
      exact ho rfl
    obtain ⟨m1, a1, a2, a3, _, a5⟩ := insert_spec inv0 (a, x1) fuel hf
    obtain ⟨c1, h1⟩ := a5 (hk0 a)
    have s1 : m1.sz = 10 := by
      have h0 : load_exceeded (clear : HashMap K V) = load_test 0 10 := rfl
      rw [a3, if_neg (by rw [h0]; decide)]
      rfl
    have n1 : m1.elem_cnt = 1 := c1
    have hkb : ¬ HasKey m1 b := by
      intro hx
      obtain ⟨w, hw⟩ := hasKey_iff_has.mp hx
      rcases (h1 b w).mp hw with h | h
      · exact hk0 b (hasKey_of_has h)
      · exact hab (Prod.mk.inj h).1.symm
    obtain ⟨m2, b1, b2, b3, _, b5⟩ := insert_spec a2 (b, x2) fuel (by omega)
    obtain ⟨c2, h2⟩ := b5 hkb
    have s2 : m2.sz = 10 := by
      rw [b3, if_neg (by unfold load_exceeded; rw [n1, s1]; decide)]
      exact s1
    have ha2 : Has m2 a x1 := (h2 a x1).mpr (Or.inl ((h1 a x1).mpr (Or.inr rfl)))
    have hb2 : Has m2 b x2 := (h2 b x2).mpr (Or.inr rfl)
    obtain ⟨m3, d1, d2, d3, d4, _⟩ := insert_spec b2 (a, x3) fuel (by omega)
    obtain ⟨c3, h3, _⟩ := d4 (hasKey_of_has ha2)
    have s3 : m3.sz = 10 := by
      rw [d3, if_neg (by unfold load_exceeded; rw [c2, n1, s2]; decide)]
      exact s2
    refine ⟨m1, m2, m3, a1, b1, d1, ?_, at_present d2 ((h3 a x1).mpr ha2) fuel (by omega),
      at_present d2 ((h3 b x2).mpr hb2) fuel (by omega)⟩
    show m3.elem_cnt = 2
    omega

/-- Instance of C2 on the example table: key `0` is stored with value `10`; inserting
`(0, 99)` is asked for. -/
theorem C2_insert_no_overwrite_witness :
    Reachable id demo_table ∧ Has demo_table 0 10 ∧ 3 * demo_table.sz + 2 ≤ 40 ∧
      ∃ m1, insert id 40 demo_table (0, 99) = some m1 ∧
        at' id 40 m1 0 = some (Except.ok 10) ∧ size m1 = size demo_table :=
  ⟨reachable_run_getD id 40 demo_ops, by decide, by decide,
    (C2_insert_no_overwrite id).1 demo_table (reachable_run_getD id 40 demo_ops) 0 10
      (by decide) 99 40 (by decide)⟩

/-- C3. Erase result: on every reachable table `erase(k)` returns (given enough fuel),
its result is `true` exactly when an occupied slot held `k` before the call, and on the
resulting table `find(k)` is the end iterator, whose index is the capacity. -/
theorem C3_erase_result (hash_f : K → Nat) (m : HashMap K V) (hr : Reachable hash_f m)
    (k : K) (fuel : Nat) (hf : m.sz + 1 ≤ fuel) :
    ∃ m1 b, erase hash_f fuel m k = some (m1, b) ∧ (b = true ↔ HasKey m k) ∧
      find hash_f fuel m1 k = some (iter_end m1) ∧ iter_end m1 = m1.sz := by
  obtain ⟨m1, b, e1, e2, e3, e4, e5, _⟩ := erase_spec (reachable_inv hr) k fuel hf
  have hk : ¬ HasKey m1 k := by
    intro hx
    obtain ⟨w, hw⟩ := hasKey_iff_has.mp hx
    exact ((e5 k w).mp hw).2 rfl
  have := erase_sz_le e3
  exact ⟨m1, b, e1, e4, (find_absent e2 hk fuel (by omega)).1, iter_end_eq m1⟩

/-- Instance of C3 on the example table, erasing the stored key `5`. -/
theorem C3_erase_result_witness :
    Reachable id demo_table ∧ demo_table.sz + 1 ≤ 40 ∧
      ∃ m1 b, erase id 40 demo_table 5 = some (m1, b) ∧ (b = true ↔ HasKey demo_table 5) ∧
        find id 40 m1 5 = some (iter_end m1) ∧ iter_end m1 = m1.sz :=
  ⟨reachable_run_getD id 40 demo_ops, by decide,
    C3_erase_result id demo_table (reachable_run_getD id 40 demo_ops) 5 40 (by decide)⟩

/-- C4. Erase of a stored key removes only that key: on every reachable table holding
`k`, `erase(k)` returns `true`, `size()` drops by exactly one, and for every other key
the stored pairs and the result of `at` are the same before and after, whether or not
the call shrinks the table or shifts entries across the end of the array. -/
theorem C4_erase_frame (hash_f : K → Nat) (m : HashMap K V) (hr : Reachable hash_f m)
    (k : K) (hk : HasKey m k) (fuel : Nat) (hf : m.sz + 1 ≤ fuel) :
    ∃ m1, erase hash_f fuel m k = some (m1, true) ∧ size m1 + 1 = size m ∧
      ∀ k1, k1 ≠ k → (∀ v, Has m1 k1 v ↔ Has m k1 v) ∧
        at' hash_f fuel m1 k1 = at' hash_f fuel m k1 := by
  obtain ⟨m1, b, e1, e2, e3, e4, e5, e6, _⟩ := erase_spec (reachable_inv hr) k fuel hf
  have hb : b = true := e4.mpr hk
  subst hb
  have hpos := count_pos_of_hasKey (reachable_inv hr) hk
  have hsz := erase_sz_le e3
  refine ⟨m1, e1, ?_, fun k1 hk1 => ?_⟩
  · show m1.elem_cnt + 1 = m.elem_cnt
    rw [e6 hk]
    omega
  · have hiff : ∀ v, Has m1 k1 v ↔ Has m k1 v := fun v =>
      ⟨fun h => ((e5 k1 v).mp h).1, fun h => (e5 k1 v).mpr ⟨h, hk1⟩⟩
    exact ⟨hiff, (lookup_congr (reachable_inv hr) e2 k1 hiff fuel (by omega) (by omega)).1⟩

/-- Instance of C4 where the backward shift crosses the end of the array: key `9`
sits in the last slot and the entries behind it occupy slots 0, 1, 2. -/
theorem C4_erase_frame_witness :
    Reachable id demo_wrap ∧ HasKey demo_wrap 9 ∧ demo_wrap.sz + 1 ≤ 40 ∧
      ∃ m1, erase id 40 demo_wrap 9 = some (m1, true) ∧ size m1 + 1 = size demo_wrap ∧
        ∀ k1, k1 ≠ 9 → (∀ v, Has m1 k1 v ↔ Has demo_wrap k1 v) ∧
          at' id 40 m1 k1 = at' id 40 demo_wrap k1 :=
  ⟨reachable_run_getD id 40 demo_wrap_ops, by decide, by decide,
    C4_erase_frame id demo_wrap (reachable_run_getD id 40 demo_wrap_ops) 9 (by decide) 40
      (by decide)⟩


/-- C5. Erase of an absent key changes nothing observable: on every reachable table
that does not hold `k`, `erase(k)` returns `false`, `size()` is unchanged, iterating
`begin()..end()` yields the same set of pairs before and after, and every `at` and `find`
result is the same.  Scenario: on a freshly constructed table `erase(x)` returns `false`,
leaves the table as it is, and `size() == 0`. -/
theorem C5_erase_absent (hash_f : K → Nat) :
    (∀ (m : HashMap K V), Reachable hash_f m → ∀ k, ¬ HasKey m k →
      ∀ fuel, m.sz + 1 ≤ fuel →
      ∃ m1, erase hash_f fuel m k = some (m1, false) ∧ size m1 = size m ∧
        (∃ l l1, entries fuel m = some l ∧ entries fuel m1 = some l1 ∧ ∀ p, p ∈ l1 ↔ p ∈ l) ∧
        ∀ k1, at' hash_f fuel m1 k1 = at' hash_f fuel m k1 ∧
          (find hash_f fuel m1 k1).map (deref_opt m1) =
            (find hash_f fuel m k1).map (deref_opt m)) ∧
    (∀ (x : K) (fuel : Nat), 11 ≤ fuel →
      erase hash_f fuel (clear : HashMap K V) x = some (clear, false) ∧
        size (clear : HashMap K V) = 0) := by
  constructor
  · intro m hr k hk fuel hf
    obtain ⟨m1, b, e1, e2, e3, e4, e5, _, e7⟩ := erase_spec (reachable_inv hr) k fuel hf
    have hb : b = false := by
      cases b with
      | false => rfl
      | true => exact absurd (e4.mp rfl) hk
    subst hb
    have hsz := erase_sz_le e3
    have hiff : ∀ k1 v, Has m1 k1 v ↔ Has m k1 v := fun k1 v =>
      ⟨fun h => ((e5 k1 v).mp h).1,
        fun h => (e5 k1 v).mpr ⟨h, fun e => hk (e ▸ hasKey_of_has h)⟩⟩
    refine ⟨m1, e1, (e7 hk).1, ⟨_, _, entries_eq m fuel (by omega),
      entries_eq m1 fuel (by omega), ?_⟩, fun k1 =>
      lookup_congr (reachable_inv hr) e2 k1 (hiff k1) fuel (by omega) (by omega)⟩
    rintro ⟨k1, v⟩
    rw [mem_entries, mem_entries]
    exact hiff k1 v
  · intro x fuel hf
    have inv0 : Inv hash_f (clear : HashMap K V) := inv_clear hash_f
    have hk0 : ¬ HasKey (clear : HashMap K V) x := by
      rintro ⟨i, _, ho, _⟩
      exact ho rfl
    obtain ⟨m1, b, e1, _, _, e4, _, _, e7⟩ := erase_spec inv0 x fuel hf
    have hb : b = false := by
      cases b with
      | false => rfl
      | true => exact absurd (e4.mp rfl) hk0
    have hm : m1 = clear := (e7 hk0).2 (by simp [clear])
    subst hb
    subst hm
    exact ⟨e1, rfl⟩

/-- Instance of C5 on the example table, erasing the absent key `42`. -/
theorem C5_erase_absent_witness :
    Reachable id demo_table ∧ ¬ HasKey demo_table 42 ∧ demo_table.sz + 1 ≤ 40 ∧
      ∃ m1, erase id 40 demo_table 42 = some (m1, false) ∧ size m1 = size demo_table ∧
        (∃ l l1, entries 40 demo_table = some l ∧ entries 40 m1 = some l1 ∧
          ∀ p, p ∈ l1 ↔ p ∈ l) ∧
        ∀ k1, at' id 40 m1 k1 = at' id 40 demo_table k1 ∧
          (find id 40 m1 k1).map (deref_opt m1) =
            (find id 40 demo_table k1).map (deref_opt demo_table) :=
  ⟨reachable_run_getD id 40 demo_ops, by decide, by decide,
    (C5_erase_absent id).1 demo_table (reachable_run_getD id 40 demo_ops) 42 (by decide) 40
      (by decide)⟩

/-- C6. `at` fails exactly on absent keys: on every reachable table, with enough fuel,
`at(k)` raises `std::out_of_range` if and only if no occupied slot holds `k`, and
otherwise returns the value stored in the occupied slot whose key is `k`.  The method is
`const`: it yields a result and no new table. -/
theorem C6_at (hash_f : K → Nat) (m : HashMap K V) (hr : Reachable hash_f m) (k : K)
    (fuel : Nat) (hf : m.sz ≤ fuel) :
    (at' hash_f fuel m k = some (Except.error ()) ↔ ¬ HasKey m k) ∧
    (∀ i, i < m.sz → (m.data i).dist ≠ 0 → (m.data i).elem.1 = k →
      at' hash_f fuel m k = some (Except.ok (m.data i).elem.2)) := by
  have hp : ∀ i, i < m.sz → (m.data i).dist ≠ 0 → (m.data i).elem.1 = k →
      at' hash_f fuel m k = some (Except.ok (m.data i).elem.2) := by
    intro i hi ho he
    exact at_present (reachable_inv hr) ⟨i, hi, ho, by rw [← he]⟩ fuel hf
  refine ⟨⟨?_, fun h => at_absent (reachable_inv hr) h fuel hf⟩, hp⟩
  intro h hk
  obtain ⟨i, hi, ho, he⟩ := hk
  rw [hp i hi ho he] at h
  simp at h

/-- Instance of C6 on the example table, looking up key `3`. -/
theorem C6_at_witness :
    Reachable id demo_table ∧ demo_table.sz ≤ 40 ∧
      (at' id 40 demo_table 3 = some (Except.error ()) ↔ ¬ HasKey demo_table 3) ∧
      (∀ i, i < demo_table.sz → (demo_table.data i).dist ≠ 0 →
        (demo_table.data i).elem.1 = 3 →
        at' id 40 demo_table 3 = some (Except.ok (demo_table.data i).elem.2)) :=
  ⟨reachable_run_getD id 40 demo_ops, by decide,
    C6_at id demo_table (reachable_run_getD id 40 demo_ops) 3 40 (by decide)⟩


theorem agrees_clear : Agrees (clear : HashMap K V) abs_empty := by
  intro k v
  constructor
  · rintro ⟨i, _, ho, _⟩
    exact absurd rfl ho
  · intro h
    exact absurd h (by simp [abs_empty])

/-- Every sequence of calls on the fresh table returns with enough fuel; the table
then holds exactly the pairs of the abstract map and iteration lists its occupied
slots. -/
theorem run_refines (hash_f : K → Nat) (ops : List (Op K V)) :
    ∃ F m, Inv hash_f m ∧ Agrees m (abs_run ops abs_empty) ∧
      ∀ fuel, F ≤ fuel → run hash_f fuel ops clear = some m ∧
        entries fuel m = some ((occList m).map fun i => (m.data i).elem) := by
  obtain ⟨F, m, hF⟩ := run_total ops (clear : HashMap K V) (inv_clear hash_f)
  obtain ⟨i1, a1⟩ := run_agrees ops clear m abs_empty F (inv_clear hash_f) agrees_clear
    (hF F (le_refl _))
  exact ⟨max F (m.sz + 1), m, i1, a1, fun fuel hf =>
    ⟨hF fuel (by omega), entries_eq m fuel (by omega)⟩⟩

theorem abs_run_ins :
    ∀ (es : List (K × V)) (a : K → Option V), (es.map Prod.fst).Nodup →
      (∀ p ∈ es, a p.1 = none) →
      ∀ k v, abs_run (es.map Op.ins) a k = some v ↔ a k = some v ∨ (k, v) ∈ es := by
  intro es
  induction es with
  | nil =>
    intro a _ _ k v
    simp [abs_run]
  | cons e es ih =>
    intro a hnd hnone k v
    rw [List.map_cons, List.nodup_cons] at hnd
    have he : a e.1 = none := hnone e (List.mem_cons_self _ _)
    have hstep : abs_run ((e :: es).map Op.ins) a =
        abs_run (es.map Op.ins) (Function.update a e.1 (some e.2)) := by
      simp [abs_run, abs_op, abs_insert, he]
    rw [hstep, ih (Function.update a e.1 (some e.2)) hnd.2 (fun p hp => by
      have hne : p.1 ≠ e.1 := fun h => hnd.1 (h ▸ List.mem_map_of_mem Prod.fst hp)
      rw [Function.update_noteq hne]
      exact hnone p (List.mem_cons_of_mem _ hp)) k v]
    by_cases hk : k = e.1
    · subst hk
      rw [Function.update_same, he, List.mem_cons]
      constructor
      · rintro (h | h)
        · right
          left
          have := Option.some.inj h
          rw [← this]
        · exact Or.inr (Or.inr h)
      · rintro (h | h | h)
        · exact absurd h (by simp)
        · left
          rw [← h]
        · exact Or.inr h
    · rw [Function.update_noteq hk, List.mem_cons]
      constructor
      · rintro (h | h)
        · exact Or.inl h
        · exact Or.inr (Or.inr h)
      · rintro (h | h | h)
        · exact Or.inl h
        · exact absurd (by rw [← h]) hk
        · exact Or.inr h

/-- C7. Resize transparency (refinement of an abstract map): for every sequence of
`insert`/`erase` calls on an initially empty table, with enough fuel the sequence
returns and iterating `begin()..end()` yields each key at most once and exactly the
pairs of the abstract map obtained by running the same sequence with
"add the pair only if the key is absent" and "remove the key", whatever resizes took
place.  Scenario: inserting 100 pairs with distinct keys gives `size() == 100` and the
iteration is a permutation of those 100 pairs. -/
theorem C7_refinement (hash_f : K → Nat) :
    (∀ ops : List (Op K V), ∃ F, ∀ fuel, F ≤ fuel → ∃ m l,
      run hash_f fuel ops clear = some m ∧ entries fuel m = some l ∧
      (l.map Prod.fst).Nodup ∧ ∀ k v, (k, v) ∈ l ↔ abs_run ops abs_empty k = some v) ∧
    (∀ es : List (K × V), (es.map Prod.fst).Nodup → es.length = 100 →
      ∃ F, ∀ fuel, F ≤ fuel → ∃ m l,
        run hash_f fuel (es.map Op.ins) clear = some m ∧ size m = 100 ∧
        entries fuel m = some l ∧ (l.map Prod.fst).Nodup ∧ l.Perm es) := by
  constructor
  · intro ops
    obtain ⟨F, m, i1, a1, hF⟩ := run_refines hash_f ops
    refine ⟨F, fun fuel hf => ⟨m, _, (hF fuel hf).1, (hF fuel hf).2,
      entries_keys_nodup i1.core.uniq, fun k v => ?_⟩⟩
    rw [mem_entries]
    exact a1 k v
  · intro es hnd hlen
    obtain ⟨F, m, i1, a1, hF⟩ := run_refines hash_f (es.map Op.ins)
    have hkn := entries_keys_nodup i1.core.uniq
    have hperm : ((occList m).map fun i => (m.data i).elem).Perm es := by
      rw [List.perm_ext_iff_of_nodup (List.Nodup.of_map _ hkn) (List.Nodup.of_map _ hnd)]
      rintro ⟨k, v⟩
      rw [mem_entries, a1 k v, abs_run_ins es abs_empty hnd (fun _ _ => rfl) k v]
      simp [abs_empty]
    refine ⟨F, fun fuel hf => ⟨m, _, (hF fuel hf).1, ?_, (hF fuel hf).2, hkn, hperm⟩⟩
    show m.elem_cnt = 100
    rw [i1.cnt, ← hlen, ← hperm.length_eq, List.length_map]

/-- Instance of C7 (second part) with the keys `0 … 99`. -/
theorem C7_refinement_witness :
    (((List.range 100).map fun i => (i, i + 1)).map Prod.fst).Nodup ∧
      ((List.range 100).map fun i => (i, i + 1)).length = 100 ∧
      ∃ F, ∀ fuel, F ≤ fuel → ∃ (m : HashMap Nat Nat) (l : List (Nat × Nat)),
        run id fuel (((List.range 100).map fun i => (i, i + 1)).map Op.ins) clear = some m ∧
        size m = 100 ∧ entries fuel m = some l ∧ (l.map Prod.fst).Nodup ∧
        l.Perm ((List.range 100).map fun i => (i, i + 1)) :=
  have h1 : (((List.range 100).map fun i => (i, i + 1)).map Prod.fst).Nodup := by
    rw [List.map_map]
    exact (List.nodup_range 100).map_on (fun a _ b _ h => h)
  have h2 : ((List.range 100).map fun i => (i, i + 1)).length = 100 := by simp
  ⟨h1, h2, (C7_refinement id).2 _ h1 h2⟩

/-- C8. Uniqueness and count: in every table reachable from the empty table by
`insert`, `erase` and `operator[]` calls, no two occupied slots (`dist != 0`) hold equal
keys, and `size()` equals the number of occupied slots. -/
theorem C8_unique_keys_and_count (hash_f : K → Nat) (m : HashMap K V)
    (hr : ReachableIdx hash_f m) :
    (∀ i j, i < m.sz → j < m.sz → (m.data i).dist ≠ 0 → (m.data j).dist ≠ 0 →
      (m.data i).elem.1 = (m.data j).elem.1 → i = j) ∧
    size m = ((List.range m.sz).filter fun i => decide ((m.data i).dist ≠ 0)).length :=
  ⟨(reachableIdx_inv hr).core.uniq, (reachableIdx_inv hr).cnt⟩

/-- Instance of C8 on the example table. -/
theorem C8_unique_keys_and_count_witness :
    ReachableIdx id demo_table ∧
      (∀ i j, i < demo_table.sz → j < demo_table.sz → (demo_table.data i).dist ≠ 0 →
        (demo_table.data j).dist ≠ 0 →
        (demo_table.data i).elem.1 = (demo_table.data j).elem.1 → i = j) ∧
      size demo_table =
        ((List.range demo_table.sz).filter fun i =>
          decide ((demo_table.data i).dist ≠ 0)).length :=
  ⟨reachable_idx (reachable_run_getD id 40 demo_ops),
    C8_unique_keys_and_count id demo_table
      (reachable_idx (reachable_run_getD id 40 demo_ops))⟩

/-- C10, as stated, fails: the example table (capacity 10, eight entries) holds key
`0`, and `insert((0, 99))` returns a table of capacity 30. -/
theorem C10_counterexample :
    Reachable id demo_table ∧ HasKey demo_table 0 ∧ demo_table.sz = 10 ∧
      (insert id 40 demo_table (0, 99)).map (fun m1 => m1.sz) = some 30 :=
  ⟨reachable_run_getD id 40 demo_ops, by decide, by decide, by decide⟩

/-- C10 (amended). Insert of a stored key changes no entry: on every reachable table
holding `k`, `insert((k, v))` returns (given enough fuel) with the same count and the
same stored pairs.  If the growth test of `insert`, `elem_cnt >= load_factor * sz`
evaluated in `float` arithmetic, is false at the call, the table is exactly as it was
(same capacity, count and slot contents); if the test is true the call expands first and
the result is the table produced by `expand()`, of three times the capacity. -/
theorem C10_insert_present (hash_f : K → Nat) (m : HashMap K V) (hr : Reachable hash_f m)
    (k : K) (hk : HasKey m k) (v : V) (fuel : Nat) (hf : 3 * m.sz + 2 ≤ fuel) :
    ∃ m1, insert hash_f fuel m (k, v) = some m1 ∧ m1.elem_cnt = m.elem_cnt ∧
      (∀ k1 v1, Has m1 k1 v1 ↔ Has m k1 v1) ∧
      (load_exceeded m = false → m1 = m) ∧
      (load_exceeded m = true →
        m1.sz = m.sz * 3 ∧ expand hash_f (fuel - 1) m = some m1) := by
  obtain ⟨m1, e1, _, e3, e4, _⟩ := insert_spec (reachable_inv hr) (k, v) fuel hf
  obtain ⟨c1, c2, c3, c4⟩ := e4 hk
  exact ⟨m1, e1, c1, c2, c3, fun h => ⟨by rw [e3, if_pos h], c4 h⟩⟩

/-- Instance of the amended C10 on the example table with the stored key `0`. -/
theorem C10_insert_present_witness :
    Reachable id demo_table ∧ HasKey demo_table 0 ∧ 3 * demo_table.sz + 2 ≤ 40 ∧
      ∃ m1, insert id 40 demo_table (0, 99) = some m1 ∧
        m1.elem_cnt = demo_table.elem_cnt ∧
        (∀ k1 v1, Has m1 k1 v1 ↔ Has demo_table k1 v1) ∧
        (load_exceeded demo_table = false → m1 = demo_table) ∧
        (load_exceeded demo_table = true →
          m1.sz = demo_table.sz * 3 ∧ expand id (40 - 1) demo_table = some m1) :=
  ⟨reachable_run_getD id 40 demo_ops, by decide, by decide,
    C10_insert_present id demo_table (reachable_run_getD id 40 demo_ops) 0 (by decide) 99 40
      (by decide)⟩

/-! ### Lookup position and `operator[]` -/

/-- C11. Lookup position: on every reachable table, with enough fuel, `find_pos(k)`
returns an index `p`.  If an occupied slot holds `k`, then `p < capacity`, slot `p` is
occupied, its key is `k` and `find(k)` is the iterator at `p`, different from `end()`.
If no occupied slot holds `k`, then `p` is the capacity and `find(k) == end()`.  In
particular a slot with `dist == 0` is never the answer, whatever stale key it keeps. -/
theorem C11_lookup_position (hash_f : K → Nat) (m : HashMap K V) (hr : Reachable hash_f m)
    (k : K) (fuel : Nat) (hf : m.sz ≤ fuel) :
    ∃ p, find_pos hash_f fuel m k = some p ∧
      (HasKey m k → p < m.sz ∧ (m.data p).dist ≠ 0 ∧ (m.data p).elem.1 = k ∧
        find hash_f fuel m k = some p ∧ p ≠ iter_end m) ∧
      (¬ HasKey m k → p = m.sz ∧ find hash_f fuel m k = some (iter_end m)) ∧
      (∀ j, j < m.sz → (m.data j).dist = 0 → p ≠ j) := by
  have hinv := reachable_inv hr
  by_cases hk : HasKey m k
  · obtain ⟨i, hi, ho, he⟩ := hk
    have h1 := find_pos_present hinv hi ho fuel hf
    rw [he] at h1
    refine ⟨i, h1, fun _ => ⟨hi, ho, he, ?_, ?_⟩, fun h => absurd ⟨i, hi, ho, he⟩ h,
      fun j _ hj e => ho (e ▸ hj)⟩
    · simp [find, h1, iterator, go_to_nearest_occ m hi ho]
    · rw [iter_end_eq]
      omega
  · have h1 := find_pos_absent hinv hk fuel hf
    refine ⟨m.sz, h1, fun h => absurd h hk, fun _ => ⟨rfl, (find_absent hinv hk fuel hf).1⟩,
      fun j hj _ => by omega⟩

/-- Instance of C11: after `erase(9)` on the wrap-around example, slot 2 is empty and
still keeps the stale key `9`; `find_pos(9)` is the capacity. -/
theorem C11_lookup_position_witness :
    Reachable id demo_stale ∧ demo_stale.sz ≤ 40 ∧
      (demo_stale.data 2).elem.1 = 9 ∧ (demo_stale.data 2).dist = 0 ∧
      ∃ p, find_pos id 40 demo_stale 9 = some p ∧
        (HasKey demo_stale 9 → p < demo_stale.sz ∧ (demo_stale.data p).dist ≠ 0 ∧
          (demo_stale.data p).elem.1 = 9 ∧ find id 40 demo_stale 9 = some p ∧
          p ≠ iter_end demo_stale) ∧
        (¬ HasKey demo_stale 9 → p = demo_stale.sz ∧
          find id 40 demo_stale 9 = some (iter_end demo_stale)) ∧
        (∀ j, j < demo_stale.sz → (demo_stale.data j).dist = 0 → p ≠ j) :=
  ⟨reachable_run_getD id 40 _, by decide, by decide, by decide,
    C11_lookup_position id demo_stale (reachable_run_getD id 40 _) 9 40 (by decide)⟩

/-- C12. `operator[]` auto-insert: on every reachable table, with enough fuel,
`operator[](k)` returns a table and a slot index that is occupied and holds `k`.  If
`k` was absent, the pair `(k, V())` has been added, `size()` has grown by exactly one
and the designated value is the default value; if `k` was present, the table is as it
was and the designated value is the value stored with `k`. -/
theorem C12_operator_index (hash_f : K → Nat) (m : HashMap K V) (hr : Reachable hash_f m)
    (k : K) (fuel : Nat) (hf : 3 * m.sz + 2 ≤ fuel) :
    ∃ m1 pos, operator_index hash_f fuel m k = some (m1, pos) ∧
      pos < m1.sz ∧ (m1.data pos).dist ≠ 0 ∧ (m1.data pos).elem.1 = k ∧
      (¬ HasKey m k → size m1 = size m + 1 ∧
        (∀ k1 v1, Has m1 k1 v1 ↔ Has m k1 v1 ∨ (k1, v1) = (k, default)) ∧
        (m1.data pos).elem.2 = default) ∧
      (HasKey m k → m1 = m ∧ ∀ v, Has m k v → (m1.data pos).elem.2 = v) := by
  have hinv := reachable_inv hr
  by_cases hk : HasKey m k
  · obtain ⟨i, hi, ho, he⟩ := hk
    have h1 := find_pos_present hinv hi ho fuel (by omega)
    rw [he] at h1
    have hne : i ≠ m.sz := by omega
    refine ⟨m, i, by simp [operator_index, h1, hne], hi, ho, he,
      fun h => absurd ⟨i, hi, ho, he⟩ h, fun _ => ⟨rfl, fun v hv => ?_⟩⟩
    exact has_unique hinv.core.uniq ⟨i, hi, ho, Prod.ext he rfl⟩ hv
  · have h1 := find_pos_absent hinv hk fuel (by omega)
    obtain ⟨m1, e1, e2, e3, _, e5⟩ := insert_spec hinv (k, default) fuel hf
    obtain ⟨c1, c2⟩ := e5 hk
    have hsz := insert_sz_le e3
    obtain ⟨i, hi, ho, he⟩ := (c2 k default).mpr (Or.inr rfl)
    have h2 := find_pos_present e2 hi ho fuel (by omega)
    rw [he] at h2
    refine ⟨m1, i, by simp [operator_index, h1, e1, h2], hi, ho, by rw [he],
      fun _ => ⟨c1, c2, by rw [he]⟩, fun h => absurd h hk⟩

/-- Instance of C12 on the example table with the absent key `8`. -/
theorem C12_operator_index_witness :
    Reachable id demo_table ∧ 3 * demo_table.sz + 2 ≤ 40 ∧
      ∃ m1 pos, operator_index id 40 demo_table 8 = some (m1, pos) ∧
        pos < m1.sz ∧ (m1.data pos).dist ≠ 0 ∧ (m1.data pos).elem.1 = 8 ∧
        (¬ HasKey demo_table 8 → size m1 = size demo_table + 1 ∧
          (∀ k1 v1, Has m1 k1 v1 ↔ Has demo_table k1 v1 ∨ (k1, v1) = (8, default)) ∧
          (m1.data pos).elem.2 = default) ∧
        (HasKey demo_table 8 → m1 = demo_table ∧
          ∀ v, Has demo_table 8 v → (m1.data pos).elem.2 = v) :=
  ⟨reachable_run_getD id 40 demo_ops, by decide,
    C12_operator_index id demo_table (reachable_run_getD id 40 demo_ops) 8 40 (by decide)⟩


/-! ### Slot invariants -/

theorem prev_next {sz i : Nat} (hi : i < sz) : next sz ((i + sz - 1) % sz) = i := by
  rw [next_eq_mod (Nat.mod_lt _ (by omega)), Nat.mod_add_mod,
    show i + sz - 1 + 1 = i + sz by omega, Nat.add_mod_right, Nat.mod_eq_of_lt hi]

/-- C13. Home-position invariant: in every table reachable by inserts and erases,
every occupied slot at index `i` with distance `d >= 1` satisfies
`hash(key) mod capacity == (i - (d-1)) mod capacity`, read over the integers (and, since
`d - 1 < capacity`, also as `(i + capacity - (d-1)) mod capacity` over the naturals). -/
theorem C13_home_position (hash_f : K → Nat) (m : HashMap K V) (hr : Reachable hash_f m)
    (i : Nat) (hi : i < m.sz) (ho : 1 ≤ (m.data i).dist) :
    (hash_f (m.data i).elem.1 : ℤ) % (m.sz : ℤ) =
        ((i : ℤ) - (((m.data i).dist : ℤ) - 1)) % (m.sz : ℤ) ∧
      hash_f (m.data i).elem.1 % m.sz = (i + m.sz - ((m.data i).dist - 1)) % m.sz := by
  have hinv := reachable_inv hr
  have hlt := inv_cnt_lt hinv
  have hd := dist_le_sz hinv.core (tbl_empty_slot (inv_tbl hinv) (by omega)) hi
  have home := hinv.core.home i hi (by omega)
  constructor
  · have h2 : ((hash_f (m.data i).elem.1 + ((m.data i).dist - 1) : ℕ) : ℤ) % (m.sz : ℤ) =
        (i : ℤ) := by exact_mod_cast home
    rw [Nat.cast_add, Nat.cast_sub ho, Nat.cast_one] at h2
    have h3 : ((hash_f (m.data i).elem.1 : ℤ) + (((m.data i).dist : ℤ) - 1)) ≡ (i : ℤ)
        [ZMOD (m.sz : ℤ)] := by
      unfold Int.ModEq
      rw [h2, Int.emod_eq_of_lt (by omega) (by exact_mod_cast hi)]
    have h4 := h3.sub_right (((m.data i).dist : ℤ) - 1)
    rw [add_sub_cancel_right] at h4
    exact h4
  · have h3 : hash_f (m.data i).elem.1 + ((m.data i).dist - 1) ≡
        (i + m.sz - ((m.data i).dist - 1)) + ((m.data i).dist - 1) [MOD m.sz] := by
      unfold Nat.ModEq
      rw [home, show i + m.sz - ((m.data i).dist - 1) + ((m.data i).dist - 1) = i + m.sz by
        omega, Nat.add_mod_right, Nat.mod_eq_of_lt hi]
    exact Nat.ModEq.add_right_cancel' _ h3

/-- Instance of C13 on the wrap-around example: slot 1 holds key `29` with distance 3;
its hash position is slot 9. -/
theorem C13_home_position_witness :
    Reachable id demo_wrap ∧ 1 < demo_wrap.sz ∧ 1 ≤ (demo_wrap.data 1).dist ∧
      ((id (demo_wrap.data 1).elem.1 : ℤ) % (demo_wrap.sz : ℤ) =
          ((1 : ℕ) - (((demo_wrap.data 1).dist : ℤ) - 1)) % (demo_wrap.sz : ℤ) ∧
        id (demo_wrap.data 1).elem.1 % demo_wrap.sz =
          (1 + demo_wrap.sz - ((demo_wrap.data 1).dist - 1)) % demo_wrap.sz) :=
  ⟨reachable_run_getD id 40 demo_wrap_ops, by decide, by decide,
    C13_home_position id demo_wrap (reachable_run_getD id 40 demo_wrap_ops) 1 (by decide)
      (by decide)⟩

/-- C18. Robin Hood ordering invariant: in every table reachable by inserts and erases,
for every occupied slot at index `i` with distance `d >= 2` the cyclically preceding slot
`(i - 1) mod capacity` is occupied with distance at least `d - 1`; and on the probe path
of the stored key, `t` steps after its hash position (`t < d`), the slot is occupied
with distance at least `t + 1`, so no empty slot and no entry with a smaller probe
distance lies between the hash position and the slot. -/
theorem C18_robin_hood_order (hash_f : K → Nat) (m : HashMap K V) (hr : Reachable hash_f m)
    (i : Nat) (hi : i < m.sz) (hd : 2 ≤ (m.data i).dist) :
    ((m.data ((i + m.sz - 1) % m.sz)).dist ≠ 0 ∧
      (m.data i).dist - 1 ≤ (m.data ((i + m.sz - 1) % m.sz)).dist) ∧
    (∀ t, t < (m.data i).dist →
      (m.data ((hash_f (m.data i).elem.1 + t) % m.sz)).dist ≠ 0 ∧
      t + 1 ≤ (m.data ((hash_f (m.data i).elem.1 + t) % m.sz)).dist) := by
  have hinv := reachable_inv hr
  have hrh := hinv.core.rh ((i + m.sz - 1) % m.sz) (Nat.mod_lt _ (by omega))
  unfold RhAt at hrh
  rw [prev_next hi] at hrh
  refine ⟨⟨by omega, by omega⟩, fun t ht => ?_⟩
  have := chain hinv.core hi (by omega) t ht
  exact ⟨by omega, this⟩

/-- Instance of C18 on the wrap-around example: slot 1 (key `29`, distance 3) is
preceded by slot 0 (key `19`, distance 2). -/
theorem C18_robin_hood_order_witness :
    Reachable id demo_wrap ∧ 1 < demo_wrap.sz ∧ 2 ≤ (demo_wrap.data 1).dist ∧
      (((demo_wrap.data ((1 + demo_wrap.sz - 1) % demo_wrap.sz)).dist ≠ 0 ∧
        (demo_wrap.data 1).dist - 1 ≤
          (demo_wrap.data ((1 + demo_wrap.sz - 1) % demo_wrap.sz)).dist) ∧
      (∀ t, t < (demo_wrap.data 1).dist →
        (demo_wrap.data ((id (demo_wrap.data 1).elem.1 + t) % demo_wrap.sz)).dist ≠ 0 ∧
        t + 1 ≤ (demo_wrap.data ((id (demo_wrap.data 1).elem.1 + t) % demo_wrap.sz)).dist)) :=
  ⟨reachable_run_getD id 40 demo_wrap_ops, by decide, by decide,
    C18_robin_hood_order id demo_wrap (reachable_run_getD id 40 demo_wrap_ops) 1 (by decide)
      (by decide)⟩

/-- C20. Capacity invariant: in every table reachable from construction by inserts and
erases the capacity is positive; it is `10 * 3^k` for some `k >= 0` and so never below
the initial capacity 10. -/
theorem C20_capacity (hash_f : K → Nat) (m : HashMap K V) (hr : Reachable hash_f m) :
    0 < m.sz ∧ (∃ k, m.sz = 10 * 3 ^ k) ∧ 10 ≤ m.sz := by
  have hinv := reachable_inv hr
  have := inv_ten hinv
  exact ⟨by omega, hinv.cap, this⟩

/-- Instance of C20 on the table obtained from the example by one more insert, which
expands it to capacity 30. -/
theorem C20_capacity_witness :
    Reachable id ((run id 40 (demo_ops ++ [Op.ins (8, 18)]) clear).getD clear) ∧
      (0 < ((run id 40 (demo_ops ++ [Op.ins (8, 18)]) clear).getD clear).sz ∧
        (∃ k, ((run id 40 (demo_ops ++ [Op.ins (8, 18)]) clear).getD clear).sz = 10 * 3 ^ k) ∧
        10 ≤ ((run id 40 (demo_ops ++ [Op.ins (8, 18)]) clear).getD clear).sz) :=
  ⟨reachable_run_getD id 40 _, C20_capacity id _ (reachable_run_getD id 40 _)⟩


/-! ### Iteration order -/

theorem go_to_nearest_spec (m : HashMap K V) :
    ∀ (n idx : Nat), idx + n = m.sz →
      idx ≤ go_to_nearest m idx ∧ go_to_nearest m idx ≤ m.sz ∧
      (go_to_nearest m idx < m.sz → (m.data (go_to_nearest m idx)).dist ≠ 0) ∧
      ∀ j, idx ≤ j → j < go_to_nearest m idx → (m.data j).dist = 0 := by
  intro n
  induction n with
  | zero =>
    intro idx hn
    rw [go_to_nearest_ge m (by omega)]
    exact ⟨by omega, le_refl _, fun h => absurd h (by omega), fun j h1 h2 => by omega⟩
  | succ n ih =>
    intro idx hn
    by_cases ho : (m.data idx).dist = 0
    · rw [go_to_nearest_skip m (by omega) ho]
      obtain ⟨a1, a2, a3, a4⟩ := ih (idx + 1) (by omega)
      refine ⟨by omega, a2, a3, fun j h1 h2 => ?_⟩
      by_cases hj : j = idx
      · rw [hj]; exact ho
      · exact a4 j (by omega) h2
    · rw [go_to_nearest_occ m (by omega) ho]
      exact ⟨le_refl _, by omega, fun _ => ho, fun j h1 h2 => by omega⟩

/-- C14. Iteration visits exactly the occupied slots: on every reachable table `begin()`
is at the smallest occupied index (at the capacity if the table is empty), `end()` is at
the capacity, each increment moves to the next larger occupied index or to the capacity,
and walking from `begin()` until `end()` returns (given enough fuel) after visiting the
occupied slots, each once, in strictly increasing index order, never an empty slot, in
exactly `size()` steps. -/
theorem C14_iteration (hash_f : K → Nat) (m : HashMap K V) (hr : Reachable hash_f m) :
    (iter_begin m ≤ m.sz ∧ (iter_begin m < m.sz → (m.data (iter_begin m)).dist ≠ 0) ∧
      (∀ j, j < iter_begin m → (m.data j).dist = 0) ∧ (size m = 0 → iter_begin m = m.sz)) ∧
    iter_end m = m.sz ∧
    (∀ i, i < m.sz → i < iter_incr m i ∧ iter_incr m i ≤ m.sz ∧
      (iter_incr m i < m.sz → (m.data (iter_incr m i)).dist ≠ 0) ∧
      ∀ j, i < j → j < iter_incr m i → (m.data j).dist = 0) ∧
    (∀ fuel, m.sz < fuel → ∃ l, walk m fuel (iter_begin m) = some l ∧
      l.Pairwise (fun a b => a < b) ∧ (∀ i, i ∈ l ↔ i < m.sz ∧ (m.data i).dist ≠ 0) ∧
      l.length = size m) := by
  have hinv := reachable_inv hr
  obtain ⟨b1, b2, b3, b4⟩ := go_to_nearest_spec m m.sz 0 (by omega)
  refine ⟨⟨b2, b3, fun j hj => b4 j (Nat.zero_le _) hj, fun h0 => ?_⟩, iter_end_eq m,
    fun i hi => ?_, fun fuel hf => ⟨occList m, walk_begin m fuel hf, ?_,
      fun i => mem_occList, hinv.cnt.symm⟩⟩
  · by_contra hne
    have hlt : iter_begin m < m.sz := lt_of_le_of_ne b2 hne
    have hmem : iter_begin m ∈ occList m := mem_occList.mpr ⟨hlt, b3 hlt⟩
    have hlen : (occList m).length = 0 := by
      rw [← hinv.cnt]
      exact h0
    rw [List.length_eq_zero] at hlen
    rw [hlen] at hmem
    exact absurd hmem (List.not_mem_nil _)
  · obtain ⟨a1, a2, a3, a4⟩ := go_to_nearest_spec m (m.sz - (i + 1)) (i + 1) (by omega)
    exact ⟨a1, a2, a3, fun j h1 h2 => a4 j h1 h2⟩
  · unfold occList
    exact (List.pairwise_lt_range m.sz).filter _

/-- Instance of C14 on the wrap-around example (occupied slots 0, 1, 2 and 9). -/
theorem C14_iteration_witness :
    Reachable id demo_wrap ∧
      ((iter_begin demo_wrap ≤ demo_wrap.sz ∧
        (iter_begin demo_wrap < demo_wrap.sz →
          (demo_wrap.data (iter_begin demo_wrap)).dist ≠ 0) ∧
        (∀ j, j < iter_begin demo_wrap → (demo_wrap.data j).dist = 0) ∧
        (size demo_wrap = 0 → iter_begin demo_wrap = demo_wrap.sz)) ∧
      iter_end demo_wrap = demo_wrap.sz ∧
      (∀ i, i < demo_wrap.sz → i < iter_incr demo_wrap i ∧
        iter_incr demo_wrap i ≤ demo_wrap.sz ∧
        (iter_incr demo_wrap i < demo_wrap.sz →
          (demo_wrap.data (iter_incr demo_wrap i)).dist ≠ 0) ∧
        ∀ j, i < j → j < iter_incr demo_wrap i → (demo_wrap.data j).dist = 0) ∧
      (∀ fuel, demo_wrap.sz < fuel → ∃ l, walk demo_wrap fuel (iter_begin demo_wrap) = some l ∧
        l.Pairwise (fun a b => a < b) ∧
        (∀ i, i ∈ l ↔ i < demo_wrap.sz ∧ (demo_wrap.data i).dist ≠ 0) ∧
        l.length = size demo_wrap)) :=
  ⟨reachable_run_getD id 40 demo_wrap_ops,
    C14_iteration id demo_wrap (reachable_run_getD id 40 demo_wrap_ops)⟩

/-! ### Capacity never shrinks to zero -/

theorem insert_loop_sz :
    ∀ (f : Nat) (m : HashMap K V) (h c : Nat) (elem : K × V) (r : HashMap K V),
      insert_loop f m h c elem = some r → r.sz = m.sz := by
  intro f
  induction f with
  | zero =>
    intro m h c elem r hr
    exact absurd hr (by simp [insert_loop])
  | succ f ih =>
    intro m h c elem r hr
    by_cases hd : (m.data h).dist = 0
    · rw [insert_loop_empty _ _ _ _ _ hd] at hr
      cases hr
      rfl
    · by_cases hs : (m.data h).dist < c
      · rw [insert_loop_swap _ _ _ _ _ hd hs] at hr
        have := ih _ _ _ _ r hr
        exact this
      · by_cases hk : (m.data h).dist = c ∧ elem.1 = (m.data h).elem.1
        · rw [insert_loop_dup _ _ _ _ _ hd hk.1 hk.2] at hr
          cases hr
          rfl
        · rw [insert_loop_keep _ _ _ _ _ hd hs hk] at hr
          exact ih _ _ _ _ r hr

theorem foldlM_sz_le {α : Type} (g : HashMap K V → α → Option (HashMap K V))
    (hg : ∀ b a r, g b a = some r → b.sz ≤ r.sz) :
    ∀ (l : List α) (init r : HashMap K V), l.foldlM g init = some r → init.sz ≤ r.sz := by
  intro l
  induction l with
  | nil =>
    intro init r h
    cases h
    exact le_refl _
  | cons a l ih =>
    intro init r h
    rw [List.foldlM_cons] at h
    cases hga : g init a with
    | none => rw [hga] at h; exact absurd h (by simp)
    | some b =>
      rw [hga] at h
      exact le_trans (hg init a b hga) (ih b r h)

theorem resize_sz_le (ins : HashMap K V → K × V → Option (HashMap K V))
    (h : ∀ a e r, ins a e = some r → a.sz ≤ r.sz) (m : HashMap K V) (n : Nat)
    (r : HashMap K V) (hr : resize ins m n = some r) : n ≤ r.sz := by
  unfold resize at hr
  refine foldlM_sz_le _ ?_ _ _ _ hr
  intro b a r1 h1
  by_cases ho : (m.data a).dist ≠ 0
  · rw [if_pos ho] at h1
    exact h b _ r1 h1
  · rw [if_neg ho] at h1
    cases h1
    exact le_refl _

/-- On any table, a returning `insert` never lowers the capacity. -/
theorem insert_sz_ge (hash_f : K → Nat) :
    ∀ (f : Nat) (m : HashMap K V) (elem : K × V) (r : HashMap K V),
      insert hash_f f m elem = some r → m.sz ≤ r.sz := by
  intro f
  induction f with
  | zero =>
    intro m elem r hr
    exact absurd hr (by simp [insert])
  | succ f ih =>
    intro m elem r hr
    rw [insert, Option.bind_eq_some] at hr
    obtain ⟨m1, h1, h2⟩ := hr
    rw [Option.bind_eq_some] at h2
    obtain ⟨h, _, h4⟩ := h2
    rw [insert_loop_sz f m1 h 1 elem r h4]
    by_cases hl : load_exceeded m = true
    · rw [if_pos hl] at h1
      have := resize_sz_le _ (fun a e r1 hx => ih a e r1 hx) m _ m1 h1
      omega
    · rw [if_neg hl] at h1
      cases h1
      exact le_refl _

/-- C16. Shrink never produces capacity 0: in every table state in which the shrink
guard of `erase` holds (`count > 0` and `count * 9 + 1 < capacity`), `capacity / 3 >= 1`;
so `shrink()` calls `resize` with a non-zero size, and whenever it returns the new
capacity is positive and `hash(key) % capacity` is defined for every key. -/
theorem C16_shrink_capacity (hash_f : K → Nat) (m : HashMap K V)
    (h : shrink_due m = true) :
    1 ≤ m.sz / 3 ∧
      ∀ fuel m1, shrink hash_f fuel m = some m1 →
        0 < m1.sz ∧ ∀ key, eval_hash hash_f m1 key = some (hash_f key % m1.sz) := by
  unfold shrink_due at h
  simp only [decide_eq_true_eq] at h
  have h1 : 1 ≤ m.sz / 3 := by omega
  refine ⟨h1, fun fuel m1 hs => ?_⟩
  have := resize_sz_le _ (fun a e r hx => insert_sz_ge hash_f fuel a e r hx) m _ m1 hs
  have hpos : 0 < m1.sz := by omega
  refine ⟨hpos, fun key => ?_⟩
  unfold eval_hash
  rw [if_neg (by omega)]

/-- Instance of C16 on a reachable table with capacity 30 and three entries. -/
theorem C16_shrink_capacity_witness :
    shrink_due demo_sparse = true ∧
      (1 ≤ demo_sparse.sz / 3 ∧
        ∀ fuel m1, shrink id fuel demo_sparse = some m1 →
          0 < m1.sz ∧ ∀ key, eval_hash id m1 key = some (id key % m1.sz)) :=
  ⟨by decide, C16_shrink_capacity id demo_sparse (by decide)⟩


/-! ### `resize` as called by `expand` and `shrink` -/

/-- Total correctness of `resize` for any re-insertion function that agrees with
`insert` on tables whose growth test does not fire. -/
theorem resize_spec_gen (hash_f : K → Nat)
    (ins : HashMap K V → K × V → Option (HashMap K V)) {m : HashMap K V} (hu : UniqueKeys m)
    (N fuel : Nat) (hN : 3 ≤ N) (hfuel : N < fuel)
    (hroom : (occList m).length ≤ N)
    (hload : ∀ c, c < (occList m).length → load_test c N = false)
    (hins : ∀ acc e, load_exceeded acc = false → ins acc e = insert hash_f fuel acc e) :
    ∃ m1, resize ins m N = some m1 ∧ m1.sz = N ∧ Tbl hash_f m1 ∧
      ∀ k v, Has m1 k v ↔ Has m k v := by
  have Q : ∀ n, n ≤ m.sz → ∃ acc : HashMap K V,
      (List.range n).foldlM
        (fun acc i => if (m.data i).dist ≠ 0 then ins acc (m.data i).elem else some acc)
        (⟨fresh_data, N, 0⟩ : HashMap K V) = some acc ∧
      acc.sz = N ∧ Tbl hash_f acc ∧
      acc.elem_cnt = ((List.range n).filter fun i => decide ((m.data i).dist ≠ 0)).length ∧
      ∀ k v, Has acc k v ↔ ∃ i, i < n ∧ (m.data i).dist ≠ 0 ∧ (m.data i).elem = (k, v) := by
    intro n
    induction n with
    | zero =>
      intro _
      refine ⟨_, rfl, rfl, tbl_fresh hash_f N hN, rfl, ?_⟩
      intro k v
      constructor
      · intro h
        exact absurd h (has_fresh N 0 k v)
      · rintro ⟨i, hi, _⟩
        omega
    | succ n ih =>
      intro hn
      obtain ⟨acc, a1, a2, a3, a4, a5⟩ := ih (by omega)
      rw [List.range_succ, List.foldlM_append, a1]
      by_cases ho : (m.data n).dist = 0
      · refine ⟨acc, by simp [ho], a2, a3, ?_, ?_⟩
        · rw [a4, List.filter_append]
          simp [ho]
        · intro k v
          rw [a5 k v]
          constructor
          · rintro ⟨i, hi, hoi, hei⟩
            exact ⟨i, by omega, hoi, hei⟩
          · rintro ⟨i, hi, hoi, hei⟩
            have : i ≠ n := fun e => hoi (e ▸ ho)
            exact ⟨i, by omega, hoi, hei⟩
      · have hcnt1 : ((List.range (n + 1)).filter fun i => decide ((m.data i).dist ≠ 0)).length =
            acc.elem_cnt + 1 := by
          rw [a4, List.range_succ, List.filter_append]
          simp [ho]
        have hle : acc.elem_cnt + 1 ≤ (occList m).length := by
          rw [← hcnt1]
          exact filter_range_le _ hn
        have hl := hload acc.elem_cnt (by omega)
        have hk : ¬ HasKey acc (m.data n).elem.1 := by
          rw [hasKey_iff_has]
          rintro ⟨v, hv⟩
          obtain ⟨i, hi, hoi, hei⟩ := (a5 _ v).mp hv
          have := hu i n (by omega) (by omega) hoi ho (by rw [hei])
          omega
        obtain ⟨f, rfl⟩ : ∃ f, fuel = f + 1 := ⟨fuel - 1, by omega⟩
        obtain ⟨m1, e1, e2, e3, e4, e5⟩ := insert_probe_absent a3
          (by rw [a2]; omega) hk f (by rw [a2]; omega)
        refine ⟨m1, ?_, by rw [e2, a2], e4, by rw [e3, ← List.range_succ, hcnt1], ?_⟩
        · have hins1 : ins acc (m.data n).elem = some m1 := by
            have hle1 : load_exceeded acc = false := by
              unfold load_exceeded
              rw [a2]
              exact hl
            rw [hins acc _ hle1, insert_noexp hash_f f acc _ hle1 (by rw [a2]; omega), e1]
          simp [ho, hins1]
        · intro k v
          rw [e5 k v, a5 k v]
          constructor
          · rintro (⟨i, hi, hoi, hei⟩ | he)
            · exact ⟨i, by omega, hoi, hei⟩
            · exact ⟨n, by omega, ho, he.symm⟩
          · rintro ⟨i, hi, hoi, hei⟩
            by_cases hin : i = n
            · subst hin
              exact Or.inr hei.symm
            · exact Or.inl ⟨i, by omega, hoi, hei⟩
  obtain ⟨acc, a1, a2, a3, _, a5⟩ := Q m.sz (le_refl _)
  exact ⟨acc, a1, a2, a3, a5⟩

theorem insert_no_expand_eq (hash_f : K → Nat) (fuel : Nat) (acc : HashMap K V) (e : K × V)
    (h1 : load_exceeded acc = false) :
    insert_no_expand hash_f fuel acc e = insert hash_f fuel acc e := by
  unfold insert_no_expand
  rw [h1]
  rfl

/-- The `expand()` call made by `insert` on a table satisfying the invariant. -/
theorem grow_spec {hash_f : K → Nat} {m : HashMap K V} (hinv : Inv hash_f m) (fuel : Nat)
    (hf : 3 * m.sz + 1 ≤ fuel) :
    ∃ m1, expand hash_f fuel m = some m1 ∧
      resize (insert_no_expand hash_f fuel) m (m.sz * 3) = some m1 ∧
      m1.sz = m.sz * 3 ∧ m1.elem_cnt = m.elem_cnt ∧ (∀ k v, Has m1 k v ↔ Has m k v) ∧
      Inv hash_f m1 ∧ load_test m1.elem_cnt m1.sz = false := by
  have hroom := inv_cnt_lt hinv
  have h10 := inv_ten hinv
  obtain ⟨m1, r1, r2, r3, r4⟩ := resize_spec_gen hash_f (insert_no_expand hash_f fuel)
    hinv.core.uniq (m.sz * 3) fuel (by omega) (by omega) (by rw [← hinv.cnt]; omega)
    (fun c hc => by rw [← hinv.cnt] at hc; exact load_test_third (by omega))
    (fun acc e h => insert_no_expand_eq hash_f fuel acc e h)
  have hcnt : m1.elem_cnt = m.elem_cnt := by
    rw [r3.cnt, hinv.cnt]
    exact count_same hinv.core.uniq r3.core.uniq (hasKey_congr r4)
  obtain ⟨j, hj⟩ := hinv.cap
  have hexp : expand hash_f fuel m = some m1 :=
    resize_mono _ _ (fun a e r h => by
      unfold insert_no_expand at h
      by_cases hl : load_exceeded a = true
      · rw [if_pos hl] at h
        exact absurd h (by simp)
      · rw [if_neg hl] at h
        exact h) m _ m1 r1
  refine ⟨m1, hexp, r1, r2, hcnt, r4,
    ⟨r3.core, ⟨j + 1, by rw [r2, hj, pow_succ]; ring⟩, r3.cnt,
      by rw [r2, hcnt]; exact Or.inr (load_test_third (by omega))⟩,
    by rw [r2, hcnt]; exact load_test_third (by omega)⟩

/-- The `shrink()` call made by `erase` on a table satisfying the invariant. -/
theorem shrink_spec {hash_f : K → Nat} {m : HashMap K V} (hinv : Inv hash_f m)
    (hs : shrink_due m = true) (fuel : Nat) (hf : m.sz ≤ fuel) :
    ∃ m1, shrink hash_f fuel m = some m1 ∧
      resize (insert_no_expand hash_f fuel) m (m.sz / 3) = some m1 ∧
      m1.sz = m.sz / 3 ∧ m1.elem_cnt = m.elem_cnt ∧ (∀ k v, Has m1 k v ↔ Has m k v) ∧
      Inv hash_f m1 := by
  unfold shrink_due at hs
  simp only [decide_eq_true_eq] at hs
  obtain ⟨j, hj⟩ := hinv.cap
  obtain ⟨j1, rfl⟩ : ∃ j1, j = j1 + 1 := by
    cases j with
    | zero => rw [hj] at hs; omega
    | succ n => exact ⟨n, rfl⟩
  have hN : m.sz / 3 = 10 * 3 ^ j1 := by
    rw [hj, pow_succ]
    omega
  have hpos : 0 < 3 ^ j1 := by positivity
  have hsz3 : m.sz = 3 * (m.sz / 3) := by
    rw [hN, hj, pow_succ]
    ring
  obtain ⟨m1, r1, r2, r3, r4⟩ := resize_spec_gen hash_f (insert_no_expand hash_f fuel)
    hinv.core.uniq (m.sz / 3) fuel (by omega) (by omega) (by rw [← hinv.cnt]; omega)
    (fun c hc => by rw [← hinv.cnt] at hc; exact load_test_third (by omega))
    (fun acc e h => insert_no_expand_eq hash_f fuel acc e h)
  have hcnt : m1.elem_cnt = m.elem_cnt := by
    rw [r3.cnt, hinv.cnt]
    exact count_same hinv.core.uniq r3.core.uniq (hasKey_congr r4)
  have hshr : shrink hash_f fuel m = some m1 :=
    resize_mono _ _ (fun a e r h => by
      unfold insert_no_expand at h
      by_cases hl : load_exceeded a = true
      · rw [if_pos hl] at h
        exact absurd h (by simp)
      · rw [if_neg hl] at h
        exact h) m _ m1 r1
  exact ⟨m1, hshr, r1, r2, hcnt, r4,
    ⟨r3.core, ⟨j1, by rw [r2, hN]⟩, r3.cnt,
      by rw [r2, hcnt]; exact Or.inr (load_test_third (by omega))⟩⟩

/-- C19. Resize lands on the requested capacity and keeps the entries: on every
reachable table, when `insert` calls `expand()` (its growth test `elem_cnt >=
load_factor * sz` holds) or `erase` calls `shrink()` (its test
`count * 9 + 1 < capacity` holds),
the call returns (given enough fuel); none of the re-insertions expands (the same result
is obtained with an `insert` that fails whenever its growth test fires), the capacity
on return is exactly the requested one, the count is the count before the call and the
stored pairs are the same. -/
theorem C19_resize (hash_f : K → Nat) (m : HashMap K V) (hr : Reachable hash_f m)
    (fuel : Nat) (hf : 3 * m.sz + 1 ≤ fuel) :
    (load_exceeded m = true → ∃ m1, expand hash_f fuel m = some m1 ∧
      resize (insert_no_expand hash_f fuel) m (m.sz * 3) = some m1 ∧
      m1.sz = m.sz * 3 ∧ size m1 = size m ∧ ∀ k v, Has m1 k v ↔ Has m k v) ∧
    (shrink_due m = true → ∃ m1, shrink hash_f fuel m = some m1 ∧
      resize (insert_no_expand hash_f fuel) m (m.sz / 3) = some m1 ∧
      m1.sz = m.sz / 3 ∧ size m1 = size m ∧ ∀ k v, Has m1 k v ↔ Has m k v) := by
  have hinv := reachable_inv hr
  constructor
  · intro _
    obtain ⟨m1, e1, e2, e3, e4, e5, _⟩ := grow_spec hinv fuel hf
    exact ⟨m1, e1, e2, e3, e4, e5⟩
  · intro hs
    obtain ⟨m1, e1, e2, e3, e4, e5, _⟩ := shrink_spec hinv hs fuel (by omega)
    exact ⟨m1, e1, e2, e3, e4, e5⟩

/-- Instances of C19: the example table with eight entries at capacity 10 (the growth
test holds) and the table with three entries at capacity 30 (the shrink test holds). -/
theorem C19_resize_witness :
    (Reachable id demo_table ∧ 3 * demo_table.sz + 1 ≤ 40 ∧ load_exceeded demo_table = true ∧
      ∃ m1, expand id 40 demo_table = some m1 ∧
        resize (insert_no_expand id 40) demo_table (demo_table.sz * 3) = some m1 ∧
        m1.sz = demo_table.sz * 3 ∧ size m1 = size demo_table ∧
        ∀ k v, Has m1 k v ↔ Has demo_table k v) ∧
    (Reachable id demo_sparse ∧ 3 * demo_sparse.sz + 1 ≤ 100 ∧ shrink_due demo_sparse = true ∧
      ∃ m1, shrink id 100 demo_sparse = some m1 ∧
        resize (insert_no_expand id 100) demo_sparse (demo_sparse.sz / 3) = some m1 ∧
        m1.sz = demo_sparse.sz / 3 ∧ size m1 = size demo_sparse ∧
        ∀ k v, Has m1 k v ↔ Has demo_sparse k v) :=
  ⟨⟨reachable_run_getD id 40 demo_ops, by decide, by decide,
      (C19_resize id demo_table (reachable_run_getD id 40 demo_ops) 40 (by decide)).1
        (by decide)⟩,
    ⟨reachable_run_getD id 100 demo_sparse_ops, by decide, by decide,
      (C19_resize id demo_sparse (reachable_run_getD id 100 demo_sparse_ops) 100
        (by decide)).2 (by decide)⟩⟩

/-! ### Capacity and count along runs of inserts and erases -/

theorem run_ins_shape {hash_f : K → Nat} :
    ∀ (es : List (K × V)) (m : HashMap K V), Inv hash_f m → (es.map Prod.fst).Nodup →
      (∀ p ∈ es, ¬ HasKey m p.1) →
      ∃ F m1, (∀ fuel, F ≤ fuel → run hash_f fuel (es.map Op.ins) m = some m1) ∧
        Inv hash_f m1 ∧ (m1.sz, m1.elem_cnt) = ins_shape^[es.length] (m.sz, m.elem_cnt) ∧
        ∀ k v, Has m1 k v ↔ Has m k v ∨ (k, v) ∈ es := by
  intro es
  induction es with
  | nil =>
    intro m hinv _ _
    exact ⟨0, m, fun fuel _ => rfl, hinv, rfl, fun k v => by simp⟩
  | cons e es ih =>
    intro m hinv hnd hno
    rw [List.map_cons, List.nodup_cons] at hnd
    have he : ¬ HasKey m e.1 := hno e (List.mem_cons_self _ _)
    obtain ⟨m2, e1, e2, e3, _, e5⟩ := insert_spec hinv e (3 * m.sz + 2) (le_refl _)
    obtain ⟨c1, c2⟩ := e5 he
    obtain ⟨F, m1, a1, a2, a3, a4⟩ := ih m2 e2 hnd.2 (fun p hp hk => by
      rcases (hasKey_insert c2 p.1).mp hk with h | h
      · exact hno p (List.mem_cons_of_mem _ hp) h
      · exact hnd.1 (h ▸ List.mem_map_of_mem Prod.fst hp))
    refine ⟨max F (3 * m.sz + 2), m1, fun fuel hf => ?_, a2, ?_, fun k v => ?_⟩
    · rw [List.map_cons, run_cons]
      have : apply_op hash_f fuel m (Op.ins e) = some m2 :=
        insert_mono hash_f (3 * m.sz + 2) fuel m e m2 (by omega) e1
      rw [this, Option.some_bind]
      exact a1 fuel (by omega)
    · rw [a3, List.length_cons, Function.iterate_succ_apply]
      congr 1
      unfold ins_shape
      rw [e3, c1]
      rfl
    · rw [a4 k v, c2 k v, List.mem_cons]
      constructor
      · rintro ((h | h) | h)
        · exact Or.inl h
        · exact Or.inr (Or.inl h)
        · exact Or.inr (Or.inr h)
      · rintro (h | h | h)
        · exact Or.inl (Or.inl h)
        · exact Or.inl (Or.inr h)
        · exact Or.inr h

/-- While the growth test is false the capacity stays the same. -/
theorem ins_shape_stay (s c : Nat) :
    ∀ j, (j = 0 ∨ load_test (c + j - 1) s = false) → ins_shape^[j] (s, c) = (s, c + j) := by
  intro j
  induction j with
  | zero =>
    intro _
    rfl
  | succ j ih =>
    intro h
    have h1 : load_test (c + j) s = false := by
      rcases h with h | h
      · omega
      · exact h
    have h2 : j = 0 ∨ load_test (c + j - 1) s = false :=
      Or.inr (load_test_false_of_le (by omega) h1)
    rw [Function.iterate_succ_apply', ih h2]
    unfold ins_shape
    simp only [h1]
    rfl

/-- When the growth test is true the capacity is tripled. -/
theorem ins_shape_fire (s c : Nat) (h : load_test c s = true) :
    ins_shape (s, c) = (s * 3, c + 1) := by
  unfold ins_shape
  simp only [h]
  rfl

theorem run_del_shape {hash_f : K → Nat} :
    ∀ (ds : List K) (m : HashMap K V), Inv hash_f m → ds.Nodup → (∀ k ∈ ds, HasKey m k) →
      ∃ F m1, (∀ fuel, F ≤ fuel → run hash_f fuel (ds.map Op.del) m = some m1) ∧
        Inv hash_f m1 ∧ (m1.sz, m1.elem_cnt) = del_shape^[ds.length] (m.sz, m.elem_cnt) ∧
        ∀ k v, Has m1 k v ↔ Has m k v ∧ k ∉ ds := by
  intro ds
  induction ds with
  | nil =>
    intro m hinv _ _
    exact ⟨0, m, fun fuel _ => rfl, hinv, rfl, fun k v => by simp⟩
  | cons d ds ih =>
    intro m hinv hnd hall
    rw [List.nodup_cons] at hnd
    have hd : HasKey m d := hall d (List.mem_cons_self _ _)
    obtain ⟨m2, b, e1, e2, e3, _, e5, e6, _⟩ := erase_spec hinv d (m.sz + 1) (le_refl _)
    obtain ⟨F, m1, a1, a2, a3, a4⟩ := ih m2 e2 hnd.2 (fun k hk =>
      (hasKey_erase e5 k).mpr ⟨hall k (List.mem_cons_of_mem _ hk), fun h => hnd.1 (h ▸ hk)⟩)
    refine ⟨max F (m.sz + 1), m1, fun fuel hf => ?_, a2, ?_, fun k v => ?_⟩
    · rw [List.map_cons, run_cons]
      have : apply_op hash_f fuel m (Op.del d) = some m2 := by
        show Option.map Prod.fst (erase hash_f fuel m d) = some m2
        rw [erase_mono hash_f (m.sz + 1) fuel m d (m2, b) (by omega) e1]
        rfl
      rw [this, Option.some_bind]
      exact a1 fuel (by omega)
    · rw [a3, List.length_cons, Function.iterate_succ_apply]
      congr 1
      unfold del_shape
      rw [e3, e6 hd]
    · rw [a4 k v, e5 k v, List.mem_cons]
      constructor
      · rintro ⟨⟨h1, h2⟩, h3⟩
        exact ⟨h1, fun h => h.elim h2 h3⟩
      · rintro ⟨h1, h2⟩
        exact ⟨⟨h1, fun h => h2 (Or.inl h)⟩, fun h => h2 (Or.inr h)⟩

theorem find_at_slot {hash_f : K → Nat} {m : HashMap K V} (hinv : Inv hash_f m) {i : Nat}
    (hi : i < m.sz) (ho : (m.data i).dist ≠ 0) (fuel : Nat) (hf : m.sz ≤ fuel) :
    find hash_f fuel m (m.data i).elem.1 = some i ∧ i ≠ iter_end m := by
  have h1 := find_pos_present hinv hi ho fuel hf
  constructor
  · simp [find, h1, iterator, go_to_nearest_occ m hi ho]
  · rw [iter_end_eq]
    omega


/-- C17. Shrink scenario: for every 20 pairs with pairwise distinct keys inserted into
an empty table and every 18 distinct keys among them erased afterwards in any order,
for every hash function and enough fuel: the capacity is 30 after the 20 inserts; after
the first 17 erases the capacity is still 30 and the shrink test holds, so the last
erase shrinks; the final capacity is 10, the final `size()` is 2, and `find` on each
remaining key returns a position different from `end()` that holds the pair of that
key. -/
theorem C17_shrink_scenario (hash_f : K → Nat) (es : List (K × V)) (ds : List K)
    (hnd : (es.map Prod.fst).Nodup) (hlen : es.length = 20) (hdn : ds.Nodup)
    (hdl : ds.length = 18) (hsub : ∀ k ∈ ds, k ∈ es.map Prod.fst) :
    ∃ F, ∀ fuel, F ≤ fuel → ∃ m20 mp m : HashMap K V,
      run hash_f fuel (es.map Op.ins) clear = some m20 ∧ m20.sz = 30 ∧
      run hash_f fuel ((ds.take 17).map Op.del) m20 = some mp ∧ mp.sz = 30 ∧
      shrink_due mp = true ∧
      run hash_f fuel (ds.map Op.del) m20 = some m ∧ m.sz = 10 ∧ size m = 2 ∧
      ∀ p ∈ es, p.1 ∉ ds → ∃ pos, find hash_f fuel m p.1 = some pos ∧ pos ≠ iter_end m ∧
        iter_deref m pos = p := by
  have hk0 : ∀ k, ¬ HasKey (clear : HashMap K V) k := by
    rintro k ⟨i, _, ho, _⟩
    exact ho rfl
  obtain ⟨F1, m20, a1, a2, a3, a4⟩ := run_ins_shape es (clear : HashMap K V)
    (inv_clear hash_f) hnd (fun p _ => hk0 p.1)
  have s20 : (m20.sz, m20.elem_cnt) = (30, 20) := by
    rw [a3, hlen]
    show ins_shape^[11 + (1 + 8)] (10, 0) = (30, 20)
    rw [Function.iterate_add_apply, Function.iterate_add_apply,
      ins_shape_stay 10 0 8 (Or.inr (by decide)), Function.iterate_one,
      ins_shape_fire 10 (0 + 8) (by decide), ins_shape_stay (10 * 3) (0 + 8 + 1) 11
        (Or.inr (by decide))]
  have hall : ∀ k ∈ ds, HasKey m20 k := by
    intro k hk
    obtain ⟨p, hp, hpk⟩ := List.mem_map.mp (hsub k hk)
    have := hasKey_of_has ((a4 p.1 p.2).mpr (Or.inr hp))
    rw [hpk] at this
    exact this
  obtain ⟨F2, mp, b1, _, b3, _⟩ := run_del_shape (ds.take 17) m20 a2
    (hdn.sublist (List.take_sublist 17 ds)) (fun k hk => hall k (List.mem_of_mem_take hk))
  have sp : (mp.sz, mp.elem_cnt) = (30, 3) := by
    rw [b3, List.length_take, hdl, s20]
    decide
  obtain ⟨F3, m, c1, c2, c3, c4⟩ := run_del_shape ds m20 a2 hdn hall
  have sm : (m.sz, m.elem_cnt) = (10, 2) := by
    rw [c3, hdl, s20]
    decide
  have hm20 : m20.sz = 30 := (Prod.mk.inj s20).1
  have hmp : mp.sz = 30 := (Prod.mk.inj sp).1
  have hmpc : mp.elem_cnt = 3 := (Prod.mk.inj sp).2
  have hmsz : m.sz = 10 := (Prod.mk.inj sm).1
  refine ⟨max (max F1 F2) (max F3 10), fun fuel hf => ⟨m20, mp, m, a1 fuel (by omega), hm20,
    b1 fuel (by omega), hmp, ?_, c1 fuel (by omega), hmsz, (Prod.mk.inj sm).2, ?_⟩⟩
  · unfold shrink_due
    rw [hmp, hmpc]
    rfl
  · intro p hp hpd
    obtain ⟨i, hi, ho, he⟩ := (c4 p.1 p.2).mpr ⟨(a4 p.1 p.2).mpr (Or.inr hp), hpd⟩
    have hfs := find_at_slot c2 hi ho fuel (by omega)
    rw [he] at hfs
    exact ⟨i, hfs.1, hfs.2, he⟩

/-- Instance of C17 with the keys `0 … 19` and the erased keys `0 … 17`. -/
theorem C17_shrink_scenario_witness :
    (((List.range 20).map fun i => (i, i + 1)).map Prod.fst).Nodup ∧
      ((List.range 20).map fun i => (i, i + 1)).length = 20 ∧
      (List.range 18).Nodup ∧ (List.range 18).length = 18 ∧
      (∀ k ∈ List.range 18, k ∈ ((List.range 20).map fun i => (i, i + 1)).map Prod.fst) ∧
      ∃ F, ∀ fuel, F ≤ fuel → ∃ m20 mp m : HashMap Nat Nat,
        run id fuel (((List.range 20).map fun i => (i, i + 1)).map Op.ins) clear = some m20 ∧
        m20.sz = 30 ∧
        run id fuel (((List.range 18).take 17).map Op.del) m20 = some mp ∧ mp.sz = 30 ∧
        shrink_due mp = true ∧
        run id fuel ((List.range 18).map Op.del) m20 = some m ∧ m.sz = 10 ∧ size m = 2 ∧
        ∀ p ∈ (List.range 20).map fun i => (i, i + 1), p.1 ∉ List.range 18 →
          ∃ pos, find id fuel m p.1 = some pos ∧ pos ≠ iter_end m ∧ iter_deref m pos = p :=
  have h1 : (((List.range 20).map fun i => (i, i + 1)).map Prod.fst).Nodup := by decide
  have h2 : ((List.range 20).map fun i => (i, i + 1)).length = 20 := by decide
  have h3 : (List.range 18).Nodup := by decide
  have h4 : (List.range 18).length = 18 := by decide
  have h5 : ∀ k ∈ List.range 18,
      k ∈ ((List.range 20).map fun i => (i, i + 1)).map Prod.fst := by decide
  ⟨h1, h2, h3, h4, h5, C17_shrink_scenario id _ _ h1 h2 h3 h4 h5⟩

/-! ### Indices touched by the probe loops -/

theorem insert_loop_tr_empty (fuel : Nat) (m : HashMap K V) (h c : Nat) (elem : K × V)
    (hd : (m.data h).dist = 0) :
    insert_loop_tr (fuel + 1) m h c elem =
      (some { m with data := Function.update m.data h ⟨elem, c⟩, elem_cnt := m.elem_cnt + 1 },
        [h]) := by
  unfold insert_loop_tr
  rw [if_pos hd]

theorem insert_loop_tr_swap (fuel : Nat) (m : HashMap K V) (h c : Nat) (elem : K × V)
    (hd : (m.data h).dist ≠ 0) (hs : (m.data h).dist < c) :
    insert_loop_tr (fuel + 1) m h c elem =
      ((insert_loop_tr fuel { m with data := Function.update m.data h ⟨elem, c⟩ } (next m.sz h)
          ((m.data h).dist + 1) (m.data h).elem).1,
        h :: (insert_loop_tr fuel { m with data := Function.update m.data h ⟨elem, c⟩ }
          (next m.sz h) ((m.data h).dist + 1) (m.data h).elem).2) := by
  rw [insert_loop_tr]
  have hne : ¬ c = (m.data h).dist := by omega
  simp [hd, hs, hne]

theorem insert_loop_tr_keep (fuel : Nat) (m : HashMap K V) (h c : Nat) (elem : K × V)
    (hd : (m.data h).dist ≠ 0) (hs : ¬ (m.data h).dist < c)
    (hk : ¬ ((m.data h).dist = c ∧ elem.1 = (m.data h).elem.1)) :
    insert_loop_tr (fuel + 1) m h c elem =
      ((insert_loop_tr fuel m (next m.sz h) (c + 1) elem).1,
        h :: (insert_loop_tr fuel m (next m.sz h) (c + 1) elem).2) := by
  rw [insert_loop_tr]
  simp [hd, hs, hk]

theorem insert_loop_tr_dup (fuel : Nat) (m : HashMap K V) (h c : Nat) (elem : K × V)
    (hd : (m.data h).dist ≠ 0) (hs : (m.data h).dist = c) (hk : elem.1 = (m.data h).elem.1) :
    insert_loop_tr (fuel + 1) m h c elem = (some m, [h]) := by
  rw [insert_loop_tr, if_neg hd]
  have : ¬ (m.data h).dist < c := by omega
  simp [this, hs, hk]

/-- The instrumented insert loop computes the result of the insert loop. -/
theorem insert_loop_tr_fst :
    ∀ (f : Nat) (m : HashMap K V) (h c : Nat) (elem : K × V),
      (insert_loop_tr f m h c elem).1 = insert_loop f m h c elem := by
  intro f
  induction f with
  | zero => intro m h c elem; rfl
  | succ f ih =>
    intro m h c elem
    by_cases hd : (m.data h).dist = 0
    · rw [insert_loop_tr_empty _ _ _ _ _ hd, insert_loop_empty _ _ _ _ _ hd]
    · by_cases hs : (m.data h).dist < c
      · rw [insert_loop_tr_swap _ _ _ _ _ hd hs, insert_loop_swap _ _ _ _ _ hd hs]
        exact ih _ _ _ _
      · by_cases hk : (m.data h).dist = c ∧ elem.1 = (m.data h).elem.1
        · rw [insert_loop_tr_dup _ _ _ _ _ hd hk.1 hk.2, insert_loop_dup _ _ _ _ _ hd hk.1 hk.2]
        · rw [insert_loop_tr_keep _ _ _ _ _ hd hs hk, insert_loop_keep _ _ _ _ _ hd hs hk]
          exact ih _ _ _ _

/-- Every index the insert loop touches is below the capacity. -/
theorem insert_loop_tr_lt :
    ∀ (f : Nat) (m : HashMap K V) (h c : Nat) (elem : K × V), h < m.sz →
      ∀ i ∈ (insert_loop_tr f m h c elem).2, i < m.sz := by
  intro f
  induction f with
  | zero =>
    intro m h c elem _ i hi
    exact absurd hi (List.not_mem_nil _)
  | succ f ih =>
    intro m h c elem hh i hi
    by_cases hd : (m.data h).dist = 0
    · rw [insert_loop_tr_empty _ _ _ _ _ hd, List.mem_singleton] at hi
      omega
    · by_cases hs : (m.data h).dist < c
      · rw [insert_loop_tr_swap _ _ _ _ _ hd hs, List.mem_cons] at hi
        rcases hi with hi | hi
        · omega
        · have key := fun hx => ih _ _ _ _ hx i hi
          exact key (next_lt hh)
      · by_cases hk : (m.data h).dist = c ∧ elem.1 = (m.data h).elem.1
        · rw [insert_loop_tr_dup _ _ _ _ _ hd hk.1 hk.2, List.mem_singleton] at hi
          omega
        · rw [insert_loop_tr_keep _ _ _ _ _ hd hs hk, List.mem_cons] at hi
          rcases hi with hi | hi
          · omega
          · exact ih _ _ _ _ (next_lt hh) i hi

theorem find_pos_loop_tr_fst :
    ∀ (f : Nat) (m : HashMap K V) (key : K) (h c : Nat),
      (find_pos_loop_tr f m key h c).1 = find_pos_loop f m key h c := by
  intro f
  induction f with
  | zero => intro m key h c; rfl
  | succ f ih =>
    intro m key h c
    unfold find_pos_loop_tr find_pos_loop
    by_cases h1 : (m.data h).dist < c
    · rw [if_pos h1, if_pos h1]
    · rw [if_neg h1, if_neg h1]
      by_cases h2 : (m.data h).elem.1 = key
      · rw [if_pos h2, if_pos h2]
      · rw [if_neg h2, if_neg h2]
        exact ih _ _ _ _

theorem find_pos_loop_tr_lt :
    ∀ (f : Nat) (m : HashMap K V) (key : K) (h c : Nat), h < m.sz →
      ∀ i ∈ (find_pos_loop_tr f m key h c).2, i < m.sz := by
  intro f
  induction f with
  | zero =>
    intro m key h c _ i hi
    exact absurd hi (List.not_mem_nil _)
  | succ f ih =>
    intro m key h c hh i hi
    unfold find_pos_loop_tr at hi
    by_cases h1 : (m.data h).dist < c
    · rw [if_pos h1, List.mem_singleton] at hi
      omega
    · rw [if_neg h1] at hi
      by_cases h2 : (m.data h).elem.1 = key
      · rw [if_pos h2, List.mem_singleton] at hi
        omega
      · rw [if_neg h2, List.mem_cons] at hi
        rcases hi with hi | hi
        · omega
        · exact ih _ _ _ _ (next_lt hh) i hi

theorem erase_shift_tr_fst :
    ∀ (f : Nat) (m : HashMap K V) (h : Nat), (erase_shift_tr f m h).1 = erase_shift f m h := by
  intro f
  induction f with
  | zero => intro m h; rfl
  | succ f ih =>
    intro m h
    unfold erase_shift_tr erase_shift
    by_cases hd : (m.data (next m.sz h)).dist ≤ 1
    · simp only [hd, if_true]
    · simp only [hd, if_false]
      exact ih _ _

theorem erase_shift_tr_lt :
    ∀ (f : Nat) (m : HashMap K V) (h : Nat), h < m.sz →
      ∀ i ∈ (erase_shift_tr f m h).2, i < m.sz := by
  intro f
  induction f with
  | zero =>
    intro m h _ i hi
    exact absurd hi (List.not_mem_nil _)
  | succ f ih =>
    intro m h hh i hi
    have hn := next_lt hh
    unfold erase_shift_tr at hi
    by_cases hd : (m.data (next m.sz h)).dist ≤ 1
    · simp only [hd, if_true, List.mem_cons, List.mem_singleton, List.not_mem_nil,
        or_false] at hi
      rcases hi with hi | hi <;> omega
    · simp only [hd, if_false, List.mem_cons] at hi
      rcases hi with hi | hi | hi
      · omega
      · omega
      · have key := fun hx => ih _ _ hx i hi
        exact key hn

theorem erase_loop_tr_fst (s : Nat) :
    ∀ (f : Nat) (m : HashMap K V) (key : K) (h c : Nat),
      (erase_loop_tr s f m key h c).1 = erase_loop s f m key h c := by
  intro f
  induction f with
  | zero => intro m key h c; rfl
  | succ f ih =>
    intro m key h c
    unfold erase_loop_tr erase_loop
    by_cases h1 : (m.data h).dist < c
    · rw [if_pos h1, if_pos h1]
    · rw [if_neg h1, if_neg h1]
      by_cases h2 : (m.data h).elem.1 = key
      · rw [if_pos h2, if_pos h2, erase_shift_tr_fst]
      · rw [if_neg h2, if_neg h2]
        exact ih _ _ _ _

theorem erase_loop_tr_lt (s : Nat) :
    ∀ (f : Nat) (m : HashMap K V) (key : K) (h c : Nat), h < m.sz →
      ∀ i ∈ (erase_loop_tr s f m key h c).2, i < m.sz := by
  intro f
  induction f with
  | zero =>
    intro m key h c _ i hi
    exact absurd hi (List.not_mem_nil _)
  | succ f ih =>
    intro m key h c hh i hi
    unfold erase_loop_tr at hi
    by_cases h1 : (m.data h).dist < c
    · rw [if_pos h1, List.mem_singleton] at hi
      omega
    · rw [if_neg h1] at hi
      by_cases h2 : (m.data h).elem.1 = key
      · rw [if_pos h2, List.mem_cons] at hi
        rcases hi with hi | hi
        · omega
        · have key := fun hx => erase_shift_tr_lt s _ h hx i hi
          exact key hh
      · rw [if_neg h2, List.mem_cons] at hi
        rcases hi with hi | hi
        · omega
        · exact ih _ _ _ _ (next_lt hh) i hi


/-- C15. Totality of probing: every reachable table has `count < capacity`, hence an
empty slot; and for every key or pair, with enough fuel, the probe loop of `find_pos`,
the probe loop of `insert` (run on the table after the possible `expand()`) and the
search and backward-shift loops of `erase` (run on the table after the possible
`shrink()`) return, and every slot index they touch is below the capacity of the table
they run on, which itself has `count < capacity`. -/
theorem C15_probing_total (hash_f : K → Nat) (m : HashMap K V) (hr : Reachable hash_f m)
    (fuel : Nat) (hf : 3 * m.sz + 2 ≤ fuel) :
    (size m < m.sz ∧ ∃ e, e < m.sz ∧ (m.data e).dist = 0) ∧
    (∀ key : K, ∃ h p, eval_hash hash_f m key = some h ∧
      (find_pos_loop_tr fuel m key h 1).1 = some p ∧ find_pos hash_f fuel m key = some p ∧
      ∀ i ∈ (find_pos_loop_tr fuel m key h 1).2, i < m.sz) ∧
    (∀ elem : K × V, ∃ mid h m1,
      (if load_exceeded m then expand hash_f (fuel - 1) m else some m) = some mid ∧
      mid.elem_cnt < mid.sz ∧ eval_hash hash_f mid elem.1 = some h ∧
      (insert_loop_tr (fuel - 1) mid h 1 elem).1 = some m1 ∧
      insert hash_f fuel m elem = some m1 ∧
      ∀ i ∈ (insert_loop_tr (fuel - 1) mid h 1 elem).2, i < mid.sz) ∧
    (∀ key : K, ∃ mid h r,
      (if shrink_due m then shrink hash_f fuel m else some m) = some mid ∧
      mid.elem_cnt < mid.sz ∧ eval_hash hash_f mid key = some h ∧
      (erase_loop_tr fuel fuel mid key h 1).1 = some r ∧
      erase hash_f fuel m key = some r ∧
      ∀ i ∈ (erase_loop_tr fuel fuel mid key h 1).2, i < mid.sz) := by
  have hinv := reachable_inv hr
  have h10 := inv_ten hinv
  have hlt := inv_cnt_lt hinv
  have hz : m.sz ≠ 0 := by omega
  have hmod : ∀ (mm : HashMap K V) (x : Nat), 0 < mm.sz → x % mm.sz < mm.sz :=
    fun mm x h => Nat.mod_lt x h
  refine ⟨⟨by show m.elem_cnt < m.sz; omega, tbl_empty_slot (inv_tbl hinv) (by omega)⟩,
    fun key => ?_, fun elem => ?_, fun key => ?_⟩
  · have hfp : ∃ p, find_pos hash_f fuel m key = some p := by
      by_cases hk : HasKey m key
      · obtain ⟨i, hi, ho, he⟩ := hk
        have := find_pos_present hinv hi ho fuel (by omega)
        rw [he] at this
        exact ⟨i, this⟩
      · exact ⟨m.sz, find_pos_absent hinv hk fuel (by omega)⟩
    obtain ⟨p, hp⟩ := hfp
    have hloop : find_pos_loop fuel m key (hash_f key % m.sz) 1 = some p := by
      simpa [find_pos, eval_hash, hz] using hp
    exact ⟨hash_f key % m.sz, p, by simp [eval_hash, hz],
      by rw [find_pos_loop_tr_fst]; exact hloop, hp,
      find_pos_loop_tr_lt fuel m key _ 1 (hmod m _ (by omega))⟩
  · obtain ⟨f, rfl⟩ : ∃ f, fuel = f + 1 := ⟨fuel - 1, by omega⟩
    rw [Nat.add_sub_cancel]
    by_cases hl : load_exceeded m = true
    · obtain ⟨mid, g1, _, g3, _, _, g6, g7⟩ := grow_spec hinv f (by omega)
      obtain ⟨m1, t1, _⟩ := insert_tail (inv_tbl g6) g6.cap g7 elem f (by rw [g3]; omega)
      have hzm : mid.sz ≠ 0 := by rw [g3]; omega
      have g1r : resize (insert hash_f f) m (m.sz * 3) = some mid := g1
      refine ⟨mid, hash_f elem.1 % mid.sz, m1, by rw [if_pos hl]; exact g1,
        by have := inv_cnt_lt g6; omega, by simp [eval_hash, hzm],
        by rw [insert_loop_tr_fst]; exact t1, ?_,
        insert_loop_tr_lt f mid _ 1 elem (hmod mid _ (by omega))⟩
      rw [insert, hl]
      simp [g1r, eval_hash, hzm, t1]
    · have hl1 : load_exceeded m = false := by
        cases h : load_exceeded m
        · rfl
        · exact absurd h hl
      obtain ⟨m1, t1, _⟩ := insert_tail (inv_tbl hinv) hinv.cap hl1 elem f (by omega)
      refine ⟨m, hash_f elem.1 % m.sz, m1, by rw [if_neg hl], by omega,
        by simp [eval_hash, hz], by rw [insert_loop_tr_fst]; exact t1,
        by rw [insert_noexp hash_f f m elem hl1 hz]; exact t1,
        insert_loop_tr_lt f m _ 1 elem (hmod m _ (by omega))⟩
  · by_cases hs : shrink_due m = true
    · obtain ⟨mid, g1, _, g3, _, _, g6⟩ := shrink_spec hinv hs fuel (by omega)
      have h10m := inv_ten g6
      have hzm : mid.sz ≠ 0 := by omega
      have hle : mid.sz ≤ m.sz := by rw [g3]; exact Nat.div_le_self _ _
      obtain ⟨m1, b, t1, _⟩ := erase_tail (inv_tbl g6) g6.cap g6.load key fuel (by omega)
      refine ⟨mid, hash_f key % mid.sz, (m1, b), by rw [if_pos hs]; exact g1,
        by have := inv_cnt_lt g6; omega, by simp [eval_hash, hzm],
        by rw [erase_loop_tr_fst]; exact t1, ?_,
        erase_loop_tr_lt fuel fuel mid key _ 1 (hmod mid _ (by omega))⟩
      unfold erase
      rw [if_pos hs, g1]
      simp [eval_hash, hzm, t1]
    · obtain ⟨m1, b, t1, _⟩ := erase_tail (inv_tbl hinv) hinv.cap hinv.load key fuel
        (by omega)
      refine ⟨m, hash_f key % m.sz, (m1, b), by rw [if_neg hs], by omega,
        by simp [eval_hash, hz], by rw [erase_loop_tr_fst]; exact t1, ?_,
        erase_loop_tr_lt fuel fuel m key _ 1 (hmod m _ (by omega))⟩
      unfold erase
      rw [if_neg hs]
      simp [eval_hash, hz, t1]

/-- Instance of C15 on the example table (eight entries at capacity 10). -/
theorem C15_probing_total_witness :
    Reachable id demo_table ∧ 3 * demo_table.sz + 2 ≤ 40 ∧
      ((size demo_table < demo_table.sz ∧
        ∃ e, e < demo_table.sz ∧ (demo_table.data e).dist = 0) ∧
      (∀ key : Nat, ∃ h p, eval_hash id demo_table key = some h ∧
        (find_pos_loop_tr 40 demo_table key h 1).1 = some p ∧
        find_pos id 40 demo_table key = some p ∧
        ∀ i ∈ (find_pos_loop_tr 40 demo_table key h 1).2, i < demo_table.sz) ∧
      (∀ elem : Nat × Nat, ∃ mid h m1,
        (if load_exceeded demo_table then expand id (40 - 1) demo_table
          else some demo_table) = some mid ∧
        mid.elem_cnt < mid.sz ∧ eval_hash id mid elem.1 = some h ∧
        (insert_loop_tr (40 - 1) mid h 1 elem).1 = some m1 ∧
        insert id 40 demo_table elem = some m1 ∧
        ∀ i ∈ (insert_loop_tr (40 - 1) mid h 1 elem).2, i < mid.sz) ∧
      (∀ key : Nat, ∃ mid h r,
        (if shrink_due demo_table then shrink id 40 demo_table else some demo_table) =
          some mid ∧
        mid.elem_cnt < mid.sz ∧ eval_hash id mid key = some h ∧
        (erase_loop_tr 40 40 mid key h 1).1 = some r ∧
        erase id 40 demo_table key = some r ∧
        ∀ i ∈ (erase_loop_tr 40 40 mid key h 1).2, i < mid.sz)) :=
  ⟨reachable_run_getD id 40 demo_ops, by decide,
    C15_probing_total id demo_table (reachable_run_getD id 40 demo_ops) 40 (by decide)⟩

/-! ### The load factor bound and `float` rounding -/

/-- Rounding examples: integers up to `2^24` are floats; above, ties go to the even
significand. -/
theorem round24_examples :
    round24 16777216 = 16777216 ∧ round24 16777217 = 16777216 ∧
      round24 16777219 = 16777220 ∧ round24 15943230 = 15943230 ∧
      round24 18530201888518410 = 18530202606895104 := by
  decide

/-- The `float` growth test is not the rational one: at capacity `15943230 = 10 * 3^13`
and count `12276287` it holds although `count < 77/100 * capacity`. -/
theorem load_test_not_rational :
    load_test 12276287 15943230 = true ∧ 100 * 12276287 < 77 * 15943230 ∧
      load_test 12276286 15943230 = false := by
  decide

/-- The `float` values at capacity `10 * 3^32 = 18530201888518410`: `(float) sz` is
`18530202606895104`, the product `load_factor * (float) sz` is `14268256093208576`
(scaled by `2^24` below), `(float) 14268255556337664` is `14268255019466752`, less than
the product, and `(float) 14268255556337665` is the product itself. -/
theorem load_test_at_cap32 :
    round24 18530201888518410 = 18530202606895104 ∧
      round24 (load_factor_num * 18530202606895104) = 14268256093208576 * 2 ^ 24 ∧
      round24 14268255556337664 = 14268255019466752 ∧
      round24 14268255556337665 = 14268256093208576 ∧
      load_test 14268255556337664 18530201888518410 = false ∧
      load_test 14268255556337665 18530201888518410 = true := by
  decide

end Lemmas

end RobinHood
